import Mathlib

/-!
Verification of the NLML evaluation engine of the improving-mlhiphy notebooks.

The repository's core is a numerically-stable negative-log-marginal-likelihood
(NLML) evaluator for physics-informed Gaussian-process regression: kernel
matrices assembled from a squared-exponential (or Matérn) base kernel and its
operator derivatives, a stable linear solver (Cholesky with SVD fallback, in
whole-matrix and Schur-complement block form), and analytic gradients.

This file gives a shallow embedding of that code over exact real arithmetic:

* numpy floating point numbers become real numbers;
* `np.linalg.cholesky` becomes the recursive Cholesky algorithm `cholesky`,
  returning `none` exactly when a pivot is not strictly positive (the
  `LinAlgError / NotPositiveDefinite` condition);
* `np.linalg.svd` is modelled by the oracle `npSVD`, a factorization
  `M = U * diagonal sv * Vᵀ` with orthogonal `U`, `V` and nonnegative `sv`,
  obtained from the spectral theorem for the symmetric matrices the solver is
  applied to;
* a python function that can raise an uncaught exception becomes a function
  into `Option`, with `none` for the propagated exception;
* `sympy.diff` becomes `deriv`; the sympy-generated closed forms evaluated by
  the notebooks are recovered as theorems of the form `deriv ... = ...`.
-/

namespace MlHiPhy

noncomputable section

open Matrix

/-! ### The Cholesky factorization, `np.linalg.cholesky`

`np.linalg.cholesky(M)` of a symmetric matrix runs the standard recursive
algorithm: take the pivot `M 0 0`; if it is not strictly positive the
factorization fails (numpy raises `LinAlgError`, modelled by `none`);
otherwise the first column of `L` is `M i 0 / sqrt (M 0 0)` and the algorithm
recurses on the Schur complement of the pivot. -/

/-- Assemble the lower-triangular factor of an `(n+1) × (n+1)` matrix from the
pivot square root `p`, the scaled first column `c` and the factor `L` of the
Schur complement. -/
def cholAssemble {n : ℕ} (p : ℝ) (c : Fin n → ℝ) (L : Matrix (Fin n) (Fin n) ℝ) :
    Matrix (Fin (n + 1)) (Fin (n + 1)) ℝ :=
  Matrix.of (Fin.cases (Fin.cons p 0) (fun i => Fin.cons (c i) (L i)))

/-- The Schur complement of the `(0,0)` pivot used by the Cholesky recursion:
entry `(i, j)` is `M (i+1) (j+1) - (M (i+1) 0 / p) * (M (j+1) 0 / p)` where
`p = sqrt (M 0 0)`. -/
def cholSchur {n : ℕ} (M : Matrix (Fin (n + 1)) (Fin (n + 1)) ℝ) :
    Matrix (Fin n) (Fin n) ℝ :=
  Matrix.of fun i j =>
    M i.succ j.succ - (M i.succ 0 / Real.sqrt (M 0 0)) * (M j.succ 0 / Real.sqrt (M 0 0))

/-- Shallow embedding of `np.linalg.cholesky` over exact real arithmetic:
it succeeds with the lower-triangular factor `L` (with `L * Lᵀ = M` and
positive diagonal) exactly when every pivot of the recursion is strictly
positive, and returns `none` (numpy raises `LinAlgError`) otherwise. -/
def cholesky : {n : ℕ} → Matrix (Fin n) (Fin n) ℝ → Option (Matrix (Fin n) (Fin n) ℝ)
  | 0, _ => some 0
  | _ + 1, M =>
    if 0 < M 0 0 then
      (cholesky (cholSchur M)).map fun L =>
        cholAssemble (Real.sqrt (M 0 0)) (fun i => M i.succ 0 / Real.sqrt (M 0 0)) L
    else none

/-! ### The block (Schur-complement) solver of `K_inv_and_det` (part_000) and
`nlml` (2D-Matérn, 3D_example)

Given the three blocks `A` (uu), `B` (uf, computed as `kfu(...).T`) and `C`
(ff) of the symmetric joint matrix `K = [[A, B], [Bᵀ, C]]`, the notebooks
invert `A`, form the Schur complement `KA = C - Bᵀ A⁻¹ B`, invert it, and
piece the whole inverse together. -/

/-- The Schur complement `KA = C - B.T @ A_inv @ B` of the block `A` in
`[[A, B], [Bᵀ, C]]` (variable `KA` of `K_inv_and_det` in part_000). -/
def schurS {m : ℕ} (A B C : Matrix (Fin m) (Fin m) ℝ) : Matrix (Fin m) (Fin m) ℝ :=
  C - Bᵀ * A⁻¹ * B

/-- The matrix `T = A_inv @ B @ KA_inv` of the block solver. -/
def blockT {m : ℕ} (A B C : Matrix (Fin m) (Fin m) ℝ) : Matrix (Fin m) (Fin m) ℝ :=
  A⁻¹ * B * (schurS A B C)⁻¹

/-- The inverse of the joint matrix as assembled by `K_inv_and_det` in
part_000: `np.block([[A_inv + T @ B.T @ A_inv, -T], [-T.T, KA_inv]])`, on the
paths where both inversions are exact. -/
def blockKinv {m : ℕ} (A B C : Matrix (Fin m) (Fin m) ℝ) :
    Matrix (Fin m ⊕ Fin m) (Fin m ⊕ Fin m) ℝ :=
  fromBlocks (A⁻¹ + blockT A B C * Bᵀ * A⁻¹) (-blockT A B C)
    (-(blockT A B C)ᵀ) (schurS A B C)⁻¹

/-! ### The SVD fallback, `np.linalg.svd`

`np.linalg.svd(K)` returns `u, s_mat, vt` with `K = u @ diag(s_mat) @ vt`,
`u` and `vt` orthogonal and `s_mat` nonnegative.  The factorization is
modelled as an oracle `npSVD` returning one such triple `(U, sv, V)` (with
`V = vtᵀ`); for the symmetric matrices the notebooks decompose, such a triple
exists by the spectral theorem. -/

/-- The contract of the triple `(U, sv, V)` returned by the `np.linalg.svd`
oracle for a square matrix `M`: orthogonal `U` and `V`, nonnegative singular
values `sv`, and `M = U * diagonal sv * Vᵀ`. -/
def IsSVDOf {m : ℕ} (M : Matrix (Fin m) (Fin m) ℝ)
    (t : Matrix (Fin m) (Fin m) ℝ × (Fin m → ℝ) × Matrix (Fin m) (Fin m) ℝ) :
    Prop :=
  t.1 * t.1ᵀ = 1 ∧ t.2.2 * t.2.2ᵀ = 1 ∧ (∀ i, 0 ≤ t.2.1 i) ∧
    M = t.1 * Matrix.diagonal t.2.1 * t.2.2ᵀ

open scoped Classical in
/-- Oracle modelling `np.linalg.svd`: some factorization satisfying
`IsSVDOf` when one exists (it always does for the symmetric matrices the
solver handles, see `npSVD_isSVD`). -/
def npSVD {m : ℕ} (M : Matrix (Fin m) (Fin m) ℝ) :
    Matrix (Fin m) (Fin m) ℝ × (Fin m → ℝ) × Matrix (Fin m) (Fin m) ℝ :=
  if h : ∃ t, IsSVDOf M t then h.choose else (1, 0, 1)

open scoped Classical in
/-- The SVD fallback branch of `K_inv_and_det` (part_002 and
advection_diffusion): with `u, s_mat, vt = np.linalg.svd(M)` it computes
`K_inv = (vt.T).dot(inv(diag(s_mat))).dot(u.T)` and
`log_sum = Σ_i log(s_mat[i])`.  `np.linalg.inv(np.diag(s_mat))` raises
`LinAlgError` exactly when some singular value is exactly zero; that uncaught
exception is modelled by `none`. -/
def svdFallback {m : ℕ} (M : Matrix (Fin m) (Fin m) ℝ) :
    Option (Matrix (Fin m) (Fin m) ℝ × ℝ) :=
  if (∀ i, (npSVD M).2.1 i ≠ 0) then
    some ((npSVD M).2.2 * (Matrix.diagonal (npSVD M).2.1)⁻¹ * (npSVD M).1ᵀ,
      ∑ i, Real.log ((npSVD M).2.1 i))
  else none

/-- Core of `K_inv_and_det` (part_002 and advection_diffusion), as a function
of the already-assembled joint matrix `M = K(...)`: try
`np.linalg.cholesky`; on success return
`K_inv = (L_inv.T).dot(L_inv)` (with `L_inv = solve_triangular(L, I)`, exact
for the invertible triangular `L`) and `log_sum = Σ_i log |L[i,i]|`; on
`LinAlgError` fall back to the SVD branch. -/
def K_inv_and_det_core {m : ℕ} (M : Matrix (Fin m) (Fin m) ℝ) :
    Option (Matrix (Fin m) (Fin m) ℝ × ℝ) :=
  (cholesky M).elim (svdFallback M) fun L =>
    some ((L⁻¹)ᵀ * L⁻¹, ∑ i, Real.log |L i i|)

/-! ### The squared-exponential kernels of part_000 (PDE 1, 2D)

`kuu_sym = exp(-1/(2*l_x)*(x_i - x_j)^2 - 1/(2*l_y)*(y_i - y_j)^2)`, and the
operator kernels obtained from it by `sympy.diff`, for the linear operator
`L = phi + d/dx + d^2/dy^2`.  Arguments follow the source order
`(x_i, x_j, y_i, y_j, l_x, l_y [, phi])`.  Each `sp.diff(kuu_sym, v, …)` is
embedded as an iterated `deriv` in the corresponding argument slot; the
closed forms that `sp.lambdify` evaluates are recovered below as theorems. -/

/-- The base kernel `kuu_fn` of part_000. -/
def kuu_fn (a b c d lx ly : ℝ) : ℝ :=
  Real.exp (-1 / (2 * lx) * (a - b) ^ 2 - 1 / (2 * ly) * (c - d) ^ 2)

/-- `sp.diff(kuu_sym, x_i)`. -/
def kuu_dxi (a b c d lx ly : ℝ) : ℝ := deriv (fun a1 => kuu_fn a1 b c d lx ly) a

/-- `sp.diff(kuu_sym, x_j)`. -/
def kuu_dxj (a b c d lx ly : ℝ) : ℝ := deriv (fun b1 => kuu_fn a b1 c d lx ly) b

/-- `sp.diff(kuu_sym, y_i)`. -/
def kuu_dyi (a b c d lx ly : ℝ) : ℝ := deriv (fun c1 => kuu_fn a b c1 d lx ly) c

/-- `sp.diff(kuu_sym, y_i, y_i)`. -/
def kuu_dyiyi (a b c d lx ly : ℝ) : ℝ := deriv (fun c1 => kuu_dyi a b c1 d lx ly) c

/-- `sp.diff(kuu_sym, y_j)`. -/
def kuu_dyj (a b c d lx ly : ℝ) : ℝ := deriv (fun d1 => kuu_fn a b c d1 lx ly) d

/-- `sp.diff(kuu_sym, y_j, y_j)`. -/
def kuu_dyjyj (a b c d lx ly : ℝ) : ℝ := deriv (fun d1 => kuu_dyj a b c d1 lx ly) d

/-- `sp.diff(kuu_sym, x_i, x_j)`. -/
def kuu_dxixj (a b c d lx ly : ℝ) : ℝ := deriv (fun b1 => kuu_dxi a b1 c d lx ly) b

/-- `sp.diff(kuu_sym, y_i, y_i, x_j)`. -/
def kuu_dyiyixj (a b c d lx ly : ℝ) : ℝ := deriv (fun b1 => kuu_dyiyi a b1 c d lx ly) b

/-- `sp.diff(kuu_sym, x_i, y_j)`, the intermediate step of
`sp.diff(kuu_sym, x_i, y_j, y_j)`. -/
def kuu_dxiyj (a b c d lx ly : ℝ) : ℝ := deriv (fun d1 => kuu_dxi a b c d1 lx ly) d

/-- `sp.diff(kuu_sym, x_i, y_j, y_j)`. -/
def kuu_dxiyjyj (a b c d lx ly : ℝ) : ℝ := deriv (fun d1 => kuu_dxiyj a b c d1 lx ly) d

/-- `sp.diff(kuu_sym, y_i, y_i, y_j)`, the intermediate step of
`sp.diff(kuu_sym, y_i, y_i, y_j, y_j)`. -/
def kuu_dyiyiyj (a b c d lx ly : ℝ) : ℝ := deriv (fun d1 => kuu_dyiyi a b c d1 lx ly) d

/-- `sp.diff(kuu_sym, y_i, y_i, y_j, y_j)`. -/
def kuu_dyiyiyjyj (a b c d lx ly : ℝ) : ℝ := deriv (fun d1 => kuu_dyiyiyj a b c d1 lx ly) d

/-- `kff_sym`, the nine-term operator-squared kernel of part_000. -/
def kff_fn (a b c d lx ly p : ℝ) : ℝ :=
  p ^ 2 * kuu_fn a b c d lx ly
    + p * kuu_dxi a b c d lx ly
    + p * kuu_dyiyi a b c d lx ly
    + p * kuu_dxj a b c d lx ly
    + kuu_dxixj a b c d lx ly
    + kuu_dyiyixj a b c d lx ly
    + p * kuu_dyjyj a b c d lx ly
    + kuu_dxiyjyj a b c d lx ly
    + kuu_dyiyiyjyj a b c d lx ly

/-- `kfu_sym`, the operator kernel of part_000. -/
def kfu_fn (a b c d lx ly p : ℝ) : ℝ :=
  p * kuu_fn a b c d lx ly + kuu_dxi a b c d lx ly + kuu_dyiyi a b c d lx ly

/-! ### The kernel matrices and joint covariance matrix of part_000

The sample data `x, y`, the observations `y_u, y_f` and the noise `s` are the
ambient globals of the notebook, made explicit parameters here. -/

/-- The matrix built by `kuu(x, y, l_x, l_y)`. -/
def kuuMat (n : ℕ) (x y : Fin n → ℝ) (lx ly : ℝ) : Matrix (Fin n) (Fin n) ℝ :=
  Matrix.of fun i j => kuu_fn (x i) (x j) (y i) (y j) lx ly

/-- The matrix built by `kff(x, y, l_x, l_y, phi)`. -/
def kffMat (n : ℕ) (x y : Fin n → ℝ) (lx ly p : ℝ) : Matrix (Fin n) (Fin n) ℝ :=
  Matrix.of fun i j => kff_fn (x i) (x j) (y i) (y j) lx ly p

/-- The matrix built by `kfu(x, y, l_x, l_y, phi)`. -/
def kfuMat (n : ℕ) (x y : Fin n → ℝ) (lx ly p : ℝ) : Matrix (Fin n) (Fin n) ℝ :=
  Matrix.of fun i j => kfu_fn (x i) (x j) (y i) (y j) lx ly p

/-- `kuf(x, y, l_x, l_y, phi) = kfu(x, y, l_x, l_y, phi).T`. -/
def kufMat (n : ℕ) (x y : Fin n → ℝ) (lx ly p : ℝ) : Matrix (Fin n) (Fin n) ℝ :=
  (kfuMat n x y lx ly p)ᵀ

/-- The block form of the joint covariance matrix
`K = np.block([[kuu + s*eye(n), kuf], [kfu, kff + s*eye(n)]])` of part_000. -/
def Kblock (n : ℕ) (x y : Fin n → ℝ) (s lx ly p : ℝ) :
    Matrix (Fin n ⊕ Fin n) (Fin n ⊕ Fin n) ℝ :=
  fromBlocks (kuuMat n x y lx ly + s • 1) (kufMat n x y lx ly p)
    (kfuMat n x y lx ly p) (kffMat n x y lx ly p + s • 1)

/-- The joint covariance matrix `K(l_x, l_y, phi)` of part_000 as the flat
`2n × 2n` array produced by `np.block`. -/
def Kfull (n : ℕ) (x y : Fin n → ℝ) (s lx ly p : ℝ) :
    Matrix (Fin (n + n)) (Fin (n + n)) ℝ :=
  Matrix.reindex finSumFinEquiv finSumFinEquiv (Kblock n x y s lx ly p)

/-- The concatenated observation vector `y_con = np.concatenate((y_u, y_f))`. -/
def yCon (n : ℕ) (yu yf : Fin n → ℝ) : Fin (n + n) → ℝ := Fin.append yu yf

/-! ### Noise constants of the individual notebooks -/

/-- The noise constant `s = 1e-7` set in part_000 (PDE 1 - 2D). -/
def part000_s : ℝ := 1e-7

/-- The noise constant `s = 1e-7` set in part_002 and advection_diffusion
(PDE 3 - Advection-Diffusion). -/
def advection_s : ℝ := 1e-7

/-- The noise constant set in the 2D-Matérn notebook: `s = 0`. -/
def matern_s : ℝ := 0

/-! ### The two NLML objectives of part_000 (determinant-maximization form)

`nlml` factors the whole `2n × 2n` matrix; `nlml_block` uses the Schur
complement trick.  A python body that can end in an uncaught exception (a
zero singular value inside the SVD fallback) yields an `Option`. -/

open scoped Classical in
/-- The whole-matrix objective `nlml(params)` of part_000.  On the Cholesky
path it returns `det((y_con @ K_inv @ y_con) * (L @ L.T))` with
`K_inv = (L_inv.T).dot(L_inv)`; on the SVD fallback it returns
`np.prod((y_con @ K_inv @ y_con) * s_mat)` with
`K_inv = (vt.T).dot(inv(diag(s_mat))).dot(u.T)`. -/
def nlml (n : ℕ) (x y yu yf : Fin n → ℝ) (s : ℝ) (params : Fin 3 → ℝ) :
    Option ℝ :=
  let K := Kfull n x y s (Real.exp (params 0)) (Real.exp (params 1)) (params 2)
  (cholesky K).elim
    (if (∀ i, (npSVD K).2.1 i ≠ 0) then
      some (∏ i, ((yCon n yu yf ⬝ᵥ
          ((npSVD K).2.2 * (Matrix.diagonal (npSVD K).2.1)⁻¹ * (npSVD K).1ᵀ) *ᵥ
            yCon n yu yf) * (npSVD K).2.1 i))
    else none)
    (fun L => some
      ((((yCon n yu yf) ⬝ᵥ ((L⁻¹)ᵀ * L⁻¹) *ᵥ (yCon n yu yf)) • (L * Lᵀ)).det))

open scoped Classical in
/-- The `try cholesky / except svd` inversion block that part_000's
`nlml_block` runs once for `A` and once for `KA = C - B.T @ A_inv @ B`:
it produces the inverse together with the determinant
(`(np.diag(L)**2).prod()` on the Cholesky path, `s_mat.prod()` on the SVD
path), or raises (`none`) if a singular value is exactly zero. -/
def invAndDetBlock {m : ℕ} (M : Matrix (Fin m) (Fin m) ℝ) :
    Option (Matrix (Fin m) (Fin m) ℝ × ℝ) :=
  (cholesky M).elim
    (if (∀ i, (npSVD M).2.1 i ≠ 0) then
      some ((npSVD M).2.2 * (Matrix.diagonal (npSVD M).2.1)⁻¹ * (npSVD M).1ᵀ,
        ∏ i, (npSVD M).2.1 i)
    else none)
    (fun L => some ((L⁻¹)ᵀ * L⁻¹, ∏ i, (L i i) ^ 2))

/-- The block objective `nlml_block(params)` of part_000, with
`A = kuu + s*eye`, `B = kfu(...).T`, `C = kff + s*eye`: it inverts `A` and
the Schur complement `KA`, assembles
`factor = y_u @ (A_inv + T @ B.T @ A_inv) @ y_u - 2*y_u @ T @ y_f +
y_f @ KA_inv @ y_f` with `T = A_inv @ B @ KA_inv`, and returns
`det(factor*A) * det(factor*KA)`. -/
def nlml_block (n : ℕ) (x y yu yf : Fin n → ℝ) (s : ℝ) (params : Fin 3 → ℝ) :
    Option ℝ :=
  let lx := Real.exp (params 0)
  let ly := Real.exp (params 1)
  let A := kuuMat n x y lx ly + s • 1
  let B := (kfuMat n x y lx ly (params 2))ᵀ
  let C := kffMat n x y lx ly (params 2) + s • 1
  (invAndDetBlock A).bind fun pA =>
    let KA := C - Bᵀ * pA.1 * B
    (invAndDetBlock KA).bind fun pKA =>
      let T := pA.1 * B * pKA.1
      let factor := yu ⬝ᵥ (pA.1 + T * Bᵀ * pA.1) *ᵥ yu - 2 * (yu ⬝ᵥ T *ᵥ yf)
        + yf ⬝ᵥ pKA.1 *ᵥ yf
      some ((factor • A).det * (factor • KA).det)

/-! ### The gradient machinery of part_000

The hyperparameter derivatives of the kernels (`sp.diff(kuu_sym, l_x)` and
friends), the derivative matrices `K_l_x`, `K_l_y`, `K_phi`, the block solver
`K_inv_and_det(l_x, l_y, phi)` and the analytic gradient `grad_L`. -/

/-- `kuu_sym_l_x = sp.diff(kuu_sym, l_x)`. -/
def kuu_lx (a b c d lx ly : ℝ) : ℝ := deriv (fun l => kuu_fn a b c d l ly) lx

/-- `kuu_sym_l_y = sp.diff(kuu_sym, l_y)`. -/
def kuu_ly (a b c d lx ly : ℝ) : ℝ := deriv (fun l => kuu_fn a b c d lx l) ly

/-- `kuu_sym_phi = sp.diff(kuu_sym, phi)`: `kuu_sym` does not mention `phi`,
so this is the derivative of a constant function of `phi`. -/
def kuu_phi (a b c d lx ly : ℝ) : ℝ :=
  deriv (fun _q : ℝ => kuu_fn a b c d lx ly) 0

/-- `kfu_sym_l_x = sp.diff(kfu_sym, l_x)`. -/
def kfu_lx (a b c d lx ly p : ℝ) : ℝ :=
  deriv (fun l => kfu_fn a b c d l ly p) lx

/-- `kfu_sym_l_y = sp.diff(kfu_sym, l_y)`. -/
def kfu_ly (a b c d lx ly p : ℝ) : ℝ :=
  deriv (fun l => kfu_fn a b c d lx l p) ly

/-- `kfu_sym_phi = sp.diff(kfu_sym, phi)`. -/
def kfu_phi (a b c d lx ly p : ℝ) : ℝ :=
  deriv (fun q => kfu_fn a b c d lx ly q) p

/-- `kff_sym_l_x = sp.diff(kff_sym, l_x)`. -/
def kff_lx (a b c d lx ly p : ℝ) : ℝ :=
  deriv (fun l => kff_fn a b c d l ly p) lx

/-- `kff_sym_l_y = sp.diff(kff_sym, l_y)`. -/
def kff_ly (a b c d lx ly p : ℝ) : ℝ :=
  deriv (fun l => kff_fn a b c d lx l p) ly

/-- `kff_sym_phi = sp.diff(kff_sym, phi)`. -/
def kff_phi (a b c d lx ly p : ℝ) : ℝ :=
  deriv (fun q => kff_fn a b c d lx ly q) p

/-- `K_l_x(x, y, l_x, l_y, phi)`: the entrywise derivative of the joint
covariance matrix with respect to `l_x`.  The uf block holds the transposed
`kfu_l_x` arguments, exactly as in the source
(`k[i,j] = kfu_l_x(x[j-n], x[i], y[j-n], y[i], ...)`). -/
def K_l_x (n : ℕ) (x y : Fin n → ℝ) (lx ly p : ℝ) :
    Matrix (Fin (n + n)) (Fin (n + n)) ℝ :=
  Matrix.reindex finSumFinEquiv finSumFinEquiv (fromBlocks
    (Matrix.of fun i j => kuu_lx (x i) (x j) (y i) (y j) lx ly)
    (Matrix.of fun i j => kfu_lx (x j) (x i) (y j) (y i) lx ly p)
    (Matrix.of fun i j => kfu_lx (x i) (x j) (y i) (y j) lx ly p)
    (Matrix.of fun i j => kff_lx (x i) (x j) (y i) (y j) lx ly p))

/-- `K_l_y(x, y, l_x, l_y, phi)`: the entrywise derivative of the joint
covariance matrix with respect to `l_y`. -/
def K_l_y (n : ℕ) (x y : Fin n → ℝ) (lx ly p : ℝ) :
    Matrix (Fin (n + n)) (Fin (n + n)) ℝ :=
  Matrix.reindex finSumFinEquiv finSumFinEquiv (fromBlocks
    (Matrix.of fun i j => kuu_ly (x i) (x j) (y i) (y j) lx ly)
    (Matrix.of fun i j => kfu_ly (x j) (x i) (y j) (y i) lx ly p)
    (Matrix.of fun i j => kfu_ly (x i) (x j) (y i) (y j) lx ly p)
    (Matrix.of fun i j => kff_ly (x i) (x j) (y i) (y j) lx ly p))

/-- `K_phi(x, y, l_x, l_y, phi)`: the entrywise derivative of the joint
covariance matrix with respect to `phi`. -/
def K_phi (n : ℕ) (x y : Fin n → ℝ) (lx ly p : ℝ) :
    Matrix (Fin (n + n)) (Fin (n + n)) ℝ :=
  Matrix.reindex finSumFinEquiv finSumFinEquiv (fromBlocks
    (Matrix.of fun i j => kuu_phi (x i) (x j) (y i) (y j) lx ly)
    (Matrix.of fun i j => kfu_phi (x j) (x i) (y j) (y i) lx ly p)
    (Matrix.of fun i j => kfu_phi (x i) (x j) (y i) (y j) lx ly p)
    (Matrix.of fun i j => kff_phi (x i) (x j) (y i) (y j) lx ly p))

open scoped Classical in
/-- The `try cholesky / except svd` inversion block of part_000's
`K_inv_and_det` (which, unlike the one in `nlml_block`, does not accumulate
a determinant during inversion). -/
def invBlock {m : ℕ} (M : Matrix (Fin m) (Fin m) ℝ) :
    Option (Matrix (Fin m) (Fin m) ℝ) :=
  (cholesky M).elim
    (if (∀ i, (npSVD M).2.1 i ≠ 0) then
      some ((npSVD M).2.2 * (Matrix.diagonal (npSVD M).2.1)⁻¹ * (npSVD M).1ᵀ)
    else none)
    (fun L => some ((L⁻¹)ᵀ * L⁻¹))

/-- `K_inv_and_det(l_x, l_y, phi)` of part_000: block inversion of the joint
matrix via `A` and `KA = C - B.T @ A_inv @ B`, the assembled `K_inv`,
`f = y_con @ K_inv @ y_con`, and `det_fK = det(f*A)*det(f*KA)`. -/
def K_inv_and_det_p0 (n : ℕ) (x y yu yf : Fin n → ℝ) (s lx ly p : ℝ) :
    Option (Matrix (Fin (n + n)) (Fin (n + n)) ℝ × ℝ) :=
  let A := kuuMat n x y lx ly + s • 1
  let B := (kfuMat n x y lx ly p)ᵀ
  let C := kffMat n x y lx ly p + s • 1
  (invBlock A).bind fun Ainv =>
    let KA := C - Bᵀ * Ainv * B
    (invBlock KA).bind fun KAinv =>
      let T := Ainv * B * KAinv
      let Kinv := Matrix.reindex finSumFinEquiv finSumFinEquiv
        (fromBlocks (Ainv + T * Bᵀ * Ainv) (-T) (-Tᵀ) KAinv)
      let f := yCon n yu yf ⬝ᵥ Kinv *ᵥ yCon n yu yf
      some (Kinv, (f • A).det * (f • KA).det)

/-- `grad_L(l_x, l_y, phi)` of part_000: the analytic gradient
`comp_i = det_fK*(np.trace(K_inv @ K_i) - (2*n*w.T @ K_i @ w)/(y_con @ w))`
with `w = K_inv @ y_con`. -/
def grad_L (n : ℕ) (x y yu yf : Fin n → ℝ) (s lx ly p : ℝ) :
    Option (Fin 3 → ℝ) :=
  (K_inv_and_det_p0 n x y yu yf s lx ly p).map fun Kd =>
    let w := Kd.1 *ᵥ yCon n yu yf
    ![Kd.2 * ((Kd.1 * K_l_x n x y lx ly p).trace -
        2 * (n : ℝ) * (w ⬝ᵥ K_l_x n x y lx ly p *ᵥ w) / (yCon n yu yf ⬝ᵥ w)),
      Kd.2 * ((Kd.1 * K_l_y n x y lx ly p).trace -
        2 * (n : ℝ) * (w ⬝ᵥ K_l_y n x y lx ly p *ᵥ w) / (yCon n yu yf ⬝ᵥ w)),
      Kd.2 * ((Kd.1 * K_phi n x y lx ly p).trace -
        2 * (n : ℝ) * (w ⬝ᵥ K_phi n x y lx ly p *ᵥ w) / (yCon n yu yf ⬝ᵥ w))]

/-! ### The kernels and NLML of part_001 (PDE 1 - 2D with 4 parameters)

`kuu_sym = sigma*exp(-1/(2*l_x)*(x_i - x_j)^2 - 1/(2*l_y)*(y_i - y_j)^2)`:
the same squared-exponential kernel with an explicit signal variance factor
`sigma`.  Argument order follows the source:
`(x_i, x_j, y_i, y_j, sigma, l_x, l_y [, phi])`. -/

/-- The base kernel of part_001. -/
def kuu1_fn (a b c d sg lx ly : ℝ) : ℝ :=
  sg * Real.exp (-1 / (2 * lx) * (a - b) ^ 2 - 1 / (2 * ly) * (c - d) ^ 2)

/-- `sp.diff(kuu_sym, x_i)` for part_001. -/
def kuu1_dxi (a b c d sg lx ly : ℝ) : ℝ :=
  deriv (fun a1 => kuu1_fn a1 b c d sg lx ly) a

/-- `sp.diff(kuu_sym, x_j)` for part_001. -/
def kuu1_dxj (a b c d sg lx ly : ℝ) : ℝ :=
  deriv (fun b1 => kuu1_fn a b1 c d sg lx ly) b

/-- `sp.diff(kuu_sym, y_i)` for part_001. -/
def kuu1_dyi (a b c d sg lx ly : ℝ) : ℝ :=
  deriv (fun c1 => kuu1_fn a b c1 d sg lx ly) c

/-- `sp.diff(kuu_sym, y_i, y_i)` for part_001. -/
def kuu1_dyiyi (a b c d sg lx ly : ℝ) : ℝ :=
  deriv (fun c1 => kuu1_dyi a b c1 d sg lx ly) c

/-- `sp.diff(kuu_sym, y_j)` for part_001. -/
def kuu1_dyj (a b c d sg lx ly : ℝ) : ℝ :=
  deriv (fun d1 => kuu1_fn a b c d1 sg lx ly) d

/-- `sp.diff(kuu_sym, y_j, y_j)` for part_001. -/
def kuu1_dyjyj (a b c d sg lx ly : ℝ) : ℝ :=
  deriv (fun d1 => kuu1_dyj a b c d1 sg lx ly) d

/-- `sp.diff(kuu_sym, x_i, x_j)` for part_001. -/
def kuu1_dxixj (a b c d sg lx ly : ℝ) : ℝ :=
  deriv (fun b1 => kuu1_dxi a b1 c d sg lx ly) b

/-- `sp.diff(kuu_sym, y_i, y_i, x_j)` for part_001. -/
def kuu1_dyiyixj (a b c d sg lx ly : ℝ) : ℝ :=
  deriv (fun b1 => kuu1_dyiyi a b1 c d sg lx ly) b

/-- `sp.diff(kuu_sym, x_i, y_j)` for part_001. -/
def kuu1_dxiyj (a b c d sg lx ly : ℝ) : ℝ :=
  deriv (fun d1 => kuu1_dxi a b c d1 sg lx ly) d

/-- `sp.diff(kuu_sym, x_i, y_j, y_j)` for part_001. -/
def kuu1_dxiyjyj (a b c d sg lx ly : ℝ) : ℝ :=
  deriv (fun d1 => kuu1_dxiyj a b c d1 sg lx ly) d

/-- `sp.diff(kuu_sym, y_i, y_i, y_j)` for part_001. -/
def kuu1_dyiyiyj (a b c d sg lx ly : ℝ) : ℝ :=
  deriv (fun d1 => kuu1_dyiyi a b c d1 sg lx ly) d

/-- `sp.diff(kuu_sym, y_i, y_i, y_j, y_j)` for part_001. -/
def kuu1_dyiyiyjyj (a b c d sg lx ly : ℝ) : ℝ :=
  deriv (fun d1 => kuu1_dyiyiyj a b c d1 sg lx ly) d

/-- `kff_sym` of part_001 (same nine terms as part_000, with `sigma`). -/
def kff1_fn (a b c d sg lx ly p : ℝ) : ℝ :=
  p ^ 2 * kuu1_fn a b c d sg lx ly
    + p * kuu1_dxi a b c d sg lx ly
    + p * kuu1_dyiyi a b c d sg lx ly
    + p * kuu1_dxj a b c d sg lx ly
    + kuu1_dxixj a b c d sg lx ly
    + kuu1_dyiyixj a b c d sg lx ly
    + p * kuu1_dyjyj a b c d sg lx ly
    + kuu1_dxiyjyj a b c d sg lx ly
    + kuu1_dyiyiyjyj a b c d sg lx ly

/-- `kfu_sym` of part_001. -/
def kfu1_fn (a b c d sg lx ly p : ℝ) : ℝ :=
  p * kuu1_fn a b c d sg lx ly + kuu1_dxi a b c d sg lx ly +
    kuu1_dyiyi a b c d sg lx ly

/-- The `kuu` matrix of part_001. -/
def kuu1Mat (n : ℕ) (x y : Fin n → ℝ) (sg lx ly : ℝ) : Matrix (Fin n) (Fin n) ℝ :=
  Matrix.of fun i j => kuu1_fn (x i) (x j) (y i) (y j) sg lx ly

/-- The `kff` matrix of part_001. -/
def kff1Mat (n : ℕ) (x y : Fin n → ℝ) (sg lx ly p : ℝ) :
    Matrix (Fin n) (Fin n) ℝ :=
  Matrix.of fun i j => kff1_fn (x i) (x j) (y i) (y j) sg lx ly p

/-- The `kfu` matrix of part_001. -/
def kfu1Mat (n : ℕ) (x y : Fin n → ℝ) (sg lx ly p : ℝ) :
    Matrix (Fin n) (Fin n) ℝ :=
  Matrix.of fun i j => kfu1_fn (x i) (x j) (y i) (y j) sg lx ly p

/-- `kuf = kfu(...).T` of part_001. -/
def kuf1Mat (n : ℕ) (x y : Fin n → ℝ) (sg lx ly p : ℝ) :
    Matrix (Fin n) (Fin n) ℝ :=
  (kfu1Mat n x y sg lx ly p)ᵀ

/-- The joint covariance matrix assembled inside part_001's `nlml` by
`np.block([[kuu + s*eye, kuf], [kfu, kff + s*eye]])`. -/
def Kp1 (n : ℕ) (x y : Fin n → ℝ) (sg lx ly p s : ℝ) :
    Matrix (Fin (n + n)) (Fin (n + n)) ℝ :=
  Matrix.reindex finSumFinEquiv finSumFinEquiv
    (fromBlocks (kuu1Mat n x y sg lx ly + s • 1) (kuf1Mat n x y sg lx ly p)
      (kfu1Mat n x y sg lx ly p) (kff1Mat n x y sg lx ly p + s • 1))

/-- The scalar computed by part_001's `nlml(params, x, y, y1, y2, s)`:
`val = np.linalg.slogdet(K) + np.mat(y) * np.linalg.inv(K) * np.mat(y).T;
return val.item(0)`.  `np.linalg.slogdet(K)` is the PAIR
`(sign(det K), log |det K|)`; adding the `1×1` matrix broadcasts the
quadratic form over the pair, and `.item(0)` selects the FIRST component, so
the function returns `sign(det K) + yᵀ K⁻¹ y`, not
`log det K + yᵀ K⁻¹ y`. -/
def nlml_partA (n : ℕ) (params : Fin 4 → ℝ) (x y y1 y2 : Fin n → ℝ) (s : ℝ) :
    ℝ :=
  Real.sign ((Kp1 n x y (Real.exp (params 0)) (Real.exp (params 1))
      (Real.exp (params 2)) (params 3) s).det) +
    Fin.append y1 y2 ⬝ᵥ
      (Kp1 n x y (Real.exp (params 0)) (Real.exp (params 1))
        (Real.exp (params 2)) (params 3) s)⁻¹ *ᵥ Fin.append y1 y2

/-- The value the specification says the form-A NLML objective returns:
`log det K + yᵀ K⁻¹ y` for the same joint matrix `K` and concatenated
observation vector `y`. -/
def nlml_partA_claimed (n : ℕ) (params : Fin 4 → ℝ) (x y y1 y2 : Fin n → ℝ)
    (s : ℝ) : ℝ :=
  Real.log ((Kp1 n x y (Real.exp (params 0)) (Real.exp (params 1))
      (Real.exp (params 2)) (params 3) s).det) +
    Fin.append y1 y2 ⬝ᵥ
      (Kp1 n x y (Real.exp (params 0)) (Real.exp (params 1))
        (Real.exp (params 2)) (params 3) s)⁻¹ *ᵥ Fin.append y1 y2

/-! ### The kernels and stable solver of part_002 / advection_diffusion
(PDE 3 - Advection-Diffusion, 3D)

`kuu_sym = sigma*exp(-1/(2*l_x)*(x_i - x_j)^2 - 1/(2*l_y)*(y_i - y_j)^2
- 1/(2*l_t)*(t_i - t_j)^2)`, with the operator
`L = a*d/dx + b*d/dy + c*d^2/dx^2 + d*d^2/dy^2 - d/dt`. -/

/-- The base kernel of part_002/advection_diffusion. -/
def kuu3_fn (xi xj yi yj ti tj sg lx ly lt : ℝ) : ℝ :=
  sg * Real.exp (-1 / (2 * lx) * (xi - xj) ^ 2 - 1 / (2 * ly) * (yi - yj) ^ 2
    - 1 / (2 * lt) * (ti - tj) ^ 2)

/-- `sp.diff(kuu_sym, x_i)` for part_002/advection_diffusion. -/
def kuu3_dxi (xi xj yi yj ti tj sg lx ly lt : ℝ) : ℝ :=
  deriv (fun xi1 => kuu3_fn xi1 xj yi yj ti tj sg lx ly lt) xi

/-- `sp.diff(kuu_sym, x_j)` for part_002/advection_diffusion. -/
def kuu3_dxj (xi xj yi yj ti tj sg lx ly lt : ℝ) : ℝ :=
  deriv (fun xj1 => kuu3_fn xi xj1 yi yj ti tj sg lx ly lt) xj

/-- `sp.diff(kuu_sym, y_i)` for part_002/advection_diffusion. -/
def kuu3_dyi (xi xj yi yj ti tj sg lx ly lt : ℝ) : ℝ :=
  deriv (fun yi1 => kuu3_fn xi xj yi1 yj ti tj sg lx ly lt) yi

/-- `sp.diff(kuu_sym, y_j)` for part_002/advection_diffusion. -/
def kuu3_dyj (xi xj yi yj ti tj sg lx ly lt : ℝ) : ℝ :=
  deriv (fun yj1 => kuu3_fn xi xj yi yj1 ti tj sg lx ly lt) yj

/-- `sp.diff(kuu_sym, t_i)` for part_002/advection_diffusion. -/
def kuu3_dti (xi xj yi yj ti tj sg lx ly lt : ℝ) : ℝ :=
  deriv (fun ti1 => kuu3_fn xi xj yi yj ti1 tj sg lx ly lt) ti

/-- `sp.diff(kuu_sym, t_j)` for part_002/advection_diffusion. -/
def kuu3_dtj (xi xj yi yj ti tj sg lx ly lt : ℝ) : ℝ :=
  deriv (fun tj1 => kuu3_fn xi xj yi yj ti tj1 sg lx ly lt) tj

/-- `sp.diff(kuu_sym, x_i, x_j)` for part_002/advection_diffusion. -/
def kuu3_dxixj (xi xj yi yj ti tj sg lx ly lt : ℝ) : ℝ :=
  deriv (fun xj1 => kuu3_dxi xi xj1 yi yj ti tj sg lx ly lt) xj

/-- `sp.diff(kuu_sym, x_i, y_j)` for part_002/advection_diffusion. -/
def kuu3_dxiyj (xi xj yi yj ti tj sg lx ly lt : ℝ) : ℝ :=
  deriv (fun yj1 => kuu3_dxi xi xj yi yj1 ti tj sg lx ly lt) yj

/-- `sp.diff(kuu_sym, x_i, x_j, x_j)` for part_002/advection_diffusion. -/
def kuu3_dxixjxj (xi xj yi yj ti tj sg lx ly lt : ℝ) : ℝ :=
  deriv (fun xj1 => kuu3_dxixj xi xj1 yi yj ti tj sg lx ly lt) xj

/-- `sp.diff(kuu_sym, x_i, y_j, y_j)` for part_002/advection_diffusion. -/
def kuu3_dxiyjyj (xi xj yi yj ti tj sg lx ly lt : ℝ) : ℝ :=
  deriv (fun yj1 => kuu3_dxiyj xi xj yi yj1 ti tj sg lx ly lt) yj

/-- `sp.diff(kuu_sym, x_i, t_j)` for part_002/advection_diffusion. -/
def kuu3_dxitj (xi xj yi yj ti tj sg lx ly lt : ℝ) : ℝ :=
  deriv (fun tj1 => kuu3_dxi xi xj yi yj ti tj1 sg lx ly lt) tj

/-- `sp.diff(kuu_sym, y_i, x_j)` for part_002/advection_diffusion. -/
def kuu3_dyixj (xi xj yi yj ti tj sg lx ly lt : ℝ) : ℝ :=
  deriv (fun xj1 => kuu3_dyi xi xj1 yi yj ti tj sg lx ly lt) xj

/-- `sp.diff(kuu_sym, y_i, y_j)` for part_002/advection_diffusion. -/
def kuu3_dyiyj (xi xj yi yj ti tj sg lx ly lt : ℝ) : ℝ :=
  deriv (fun yj1 => kuu3_dyi xi xj yi yj1 ti tj sg lx ly lt) yj

/-- `sp.diff(kuu_sym, y_i, x_j, x_j)` for part_002/advection_diffusion. -/
def kuu3_dyixjxj (xi xj yi yj ti tj sg lx ly lt : ℝ) : ℝ :=
  deriv (fun xj1 => kuu3_dyixj xi xj1 yi yj ti tj sg lx ly lt) xj

/-- `sp.diff(kuu_sym, y_i, y_j, y_j)` for part_002/advection_diffusion. -/
def kuu3_dyiyjyj (xi xj yi yj ti tj sg lx ly lt : ℝ) : ℝ :=
  deriv (fun yj1 => kuu3_dyiyj xi xj yi yj1 ti tj sg lx ly lt) yj

/-- `sp.diff(kuu_sym, y_i, t_j)` for part_002/advection_diffusion. -/
def kuu3_dyitj (xi xj yi yj ti tj sg lx ly lt : ℝ) : ℝ :=
  deriv (fun tj1 => kuu3_dyi xi xj yi yj ti tj1 sg lx ly lt) tj

/-- `sp.diff(kuu_sym, x_i, x_i)` for part_002/advection_diffusion. -/
def kuu3_dxixi (xi xj yi yj ti tj sg lx ly lt : ℝ) : ℝ :=
  deriv (fun xi1 => kuu3_dxi xi1 xj yi yj ti tj sg lx ly lt) xi

/-- `sp.diff(kuu_sym, x_i, x_i, x_j)` for part_002/advection_diffusion. -/
def kuu3_dxixixj (xi xj yi yj ti tj sg lx ly lt : ℝ) : ℝ :=
  deriv (fun xj1 => kuu3_dxixi xi xj1 yi yj ti tj sg lx ly lt) xj

/-- `sp.diff(kuu_sym, x_i, x_i, y_j)` for part_002/advection_diffusion. -/
def kuu3_dxixiyj (xi xj yi yj ti tj sg lx ly lt : ℝ) : ℝ :=
  deriv (fun yj1 => kuu3_dxixi xi xj yi yj1 ti tj sg lx ly lt) yj

/-- `sp.diff(kuu_sym, x_i, x_i, x_j, x_j)` for part_002/advection_diffusion. -/
def kuu3_dxixixjxj (xi xj yi yj ti tj sg lx ly lt : ℝ) : ℝ :=
  deriv (fun xj1 => kuu3_dxixixj xi xj1 yi yj ti tj sg lx ly lt) xj

/-- `sp.diff(kuu_sym, x_i, x_i, y_j, y_j)` for part_002/advection_diffusion. -/
def kuu3_dxixiyjyj (xi xj yi yj ti tj sg lx ly lt : ℝ) : ℝ :=
  deriv (fun yj1 => kuu3_dxixiyj xi xj yi yj1 ti tj sg lx ly lt) yj

/-- `sp.diff(kuu_sym, x_i, x_i, t_j)` for part_002/advection_diffusion. -/
def kuu3_dxixitj (xi xj yi yj ti tj sg lx ly lt : ℝ) : ℝ :=
  deriv (fun tj1 => kuu3_dxixi xi xj yi yj ti tj1 sg lx ly lt) tj

/-- `sp.diff(kuu_sym, y_i, y_i)` for part_002/advection_diffusion. -/
def kuu3_dyiyi (xi xj yi yj ti tj sg lx ly lt : ℝ) : ℝ :=
  deriv (fun yi1 => kuu3_dyi xi xj yi1 yj ti tj sg lx ly lt) yi

/-- `sp.diff(kuu_sym, y_i, y_i, x_j)` for part_002/advection_diffusion. -/
def kuu3_dyiyixj (xi xj yi yj ti tj sg lx ly lt : ℝ) : ℝ :=
  deriv (fun xj1 => kuu3_dyiyi xi xj1 yi yj ti tj sg lx ly lt) xj

/-- `sp.diff(kuu_sym, y_i, y_i, y_j)` for part_002/advection_diffusion. -/
def kuu3_dyiyiyj (xi xj yi yj ti tj sg lx ly lt : ℝ) : ℝ :=
  deriv (fun yj1 => kuu3_dyiyi xi xj yi yj1 ti tj sg lx ly lt) yj

/-- `sp.diff(kuu_sym, y_i, y_i, x_j, x_j)` for part_002/advection_diffusion. -/
def kuu3_dyiyixjxj (xi xj yi yj ti tj sg lx ly lt : ℝ) : ℝ :=
  deriv (fun xj1 => kuu3_dyiyixj xi xj1 yi yj ti tj sg lx ly lt) xj

/-- `sp.diff(kuu_sym, y_i, y_i, y_j, y_j)` for part_002/advection_diffusion. -/
def kuu3_dyiyiyjyj (xi xj yi yj ti tj sg lx ly lt : ℝ) : ℝ :=
  deriv (fun yj1 => kuu3_dyiyiyj xi xj yi yj1 ti tj sg lx ly lt) yj

/-- `sp.diff(kuu_sym, y_i, y_i, t_j)` for part_002/advection_diffusion. -/
def kuu3_dyiyitj (xi xj yi yj ti tj sg lx ly lt : ℝ) : ℝ :=
  deriv (fun tj1 => kuu3_dyiyi xi xj yi yj ti tj1 sg lx ly lt) tj

/-- `sp.diff(kuu_sym, t_i, x_j)` for part_002/advection_diffusion. -/
def kuu3_dtixj (xi xj yi yj ti tj sg lx ly lt : ℝ) : ℝ :=
  deriv (fun xj1 => kuu3_dti xi xj1 yi yj ti tj sg lx ly lt) xj

/-- `sp.diff(kuu_sym, t_i, y_j)` for part_002/advection_diffusion. -/
def kuu3_dtiyj (xi xj yi yj ti tj sg lx ly lt : ℝ) : ℝ :=
  deriv (fun yj1 => kuu3_dti xi xj yi yj1 ti tj sg lx ly lt) yj

/-- `sp.diff(kuu_sym, t_i, x_j, x_j)` for part_002/advection_diffusion. -/
def kuu3_dtixjxj (xi xj yi yj ti tj sg lx ly lt : ℝ) : ℝ :=
  deriv (fun xj1 => kuu3_dtixj xi xj1 yi yj ti tj sg lx ly lt) xj

/-- `sp.diff(kuu_sym, t_i, y_j, y_j)` for part_002/advection_diffusion. -/
def kuu3_dtiyjyj (xi xj yi yj ti tj sg lx ly lt : ℝ) : ℝ :=
  deriv (fun yj1 => kuu3_dtiyj xi xj yi yj1 ti tj sg lx ly lt) yj

/-- `sp.diff(kuu_sym, t_i, t_j)` for part_002/advection_diffusion. -/
def kuu3_dtitj (xi xj yi yj ti tj sg lx ly lt : ℝ) : ℝ :=
  deriv (fun tj1 => kuu3_dti xi xj yi yj ti tj1 sg lx ly lt) tj

/-- `kff_sym` of part_002/advection_diffusion: the 25-term operator-squared
kernel for the linear operator `a*d/dx + b*d/dy + c*d^2/dx^2 + d*d^2/dy^2 -
d/dt` (coefficients named `ca, cb, cc, cd` here). -/
def kff3_fn (xi xj yi yj ti tj sg lx ly lt ca cb cc cd : ℝ) : ℝ :=
  ca ^ 2 * kuu3_dxixj xi xj yi yj ti tj sg lx ly lt
    + ca * cb * kuu3_dxiyj xi xj yi yj ti tj sg lx ly lt
    + ca * cc * kuu3_dxixjxj xi xj yi yj ti tj sg lx ly lt
    + ca * cd * kuu3_dxiyjyj xi xj yi yj ti tj sg lx ly lt
    - ca * kuu3_dxitj xi xj yi yj ti tj sg lx ly lt
    + cb * ca * kuu3_dyixj xi xj yi yj ti tj sg lx ly lt
    + cb ^ 2 * kuu3_dyiyj xi xj yi yj ti tj sg lx ly lt
    + cb * cc * kuu3_dyixjxj xi xj yi yj ti tj sg lx ly lt
    + cb * cd * kuu3_dyiyjyj xi xj yi yj ti tj sg lx ly lt
    - cb * kuu3_dyitj xi xj yi yj ti tj sg lx ly lt
    + cc * ca * kuu3_dxixixj xi xj yi yj ti tj sg lx ly lt
    + cc * cb * kuu3_dxixiyj xi xj yi yj ti tj sg lx ly lt
    + cc ^ 2 * kuu3_dxixixjxj xi xj yi yj ti tj sg lx ly lt
    + cc * cd * kuu3_dxixiyjyj xi xj yi yj ti tj sg lx ly lt
    - cc * kuu3_dxixitj xi xj yi yj ti tj sg lx ly lt
    + cd * ca * kuu3_dyiyixj xi xj yi yj ti tj sg lx ly lt
    + cd * cb * kuu3_dyiyiyj xi xj yi yj ti tj sg lx ly lt
    + cd * cc * kuu3_dyiyixjxj xi xj yi yj ti tj sg lx ly lt
    + cd ^ 2 * kuu3_dyiyiyjyj xi xj yi yj ti tj sg lx ly lt
    - cd * kuu3_dyiyitj xi xj yi yj ti tj sg lx ly lt
    - ca * kuu3_dtixj xi xj yi yj ti tj sg lx ly lt
    - cb * kuu3_dtiyj xi xj yi yj ti tj sg lx ly lt
    - cc * kuu3_dtixjxj xi xj yi yj ti tj sg lx ly lt
    - cd * kuu3_dtiyjyj xi xj yi yj ti tj sg lx ly lt
    + kuu3_dtitj xi xj yi yj ti tj sg lx ly lt

/-- `kfu_sym` of part_002/advection_diffusion. -/
def kfu3_fn (xi xj yi yj ti tj sg lx ly lt ca cb cc cd : ℝ) : ℝ :=
  ca * kuu3_dxi xi xj yi yj ti tj sg lx ly lt + cb * kuu3_dyi xi xj yi yj ti tj sg lx ly lt
    + cc * kuu3_dxixi xi xj yi yj ti tj sg lx ly lt + cd * kuu3_dyiyi xi xj yi yj ti tj sg lx ly lt
    - kuu3_dti xi xj yi yj ti tj sg lx ly lt

/-- The `kuu` matrix of part_002/advection_diffusion. -/
def kuu3Mat (n : ℕ) (x y t : Fin n → ℝ) (sg lx ly lt : ℝ) :
    Matrix (Fin n) (Fin n) ℝ :=
  Matrix.of fun i j =>
    kuu3_fn (x i) (x j) (y i) (y j) (t i) (t j) sg lx ly lt

/-- The `kff` matrix of part_002/advection_diffusion. -/
def kff3Mat (n : ℕ) (x y t : Fin n → ℝ) (sg lx ly lt ca cb cc cd : ℝ) :
    Matrix (Fin n) (Fin n) ℝ :=
  Matrix.of fun i j =>
    kff3_fn (x i) (x j) (y i) (y j) (t i) (t j) sg lx ly lt ca cb cc cd

/-- The `kfu` matrix of part_002/advection_diffusion. -/
def kfu3Mat (n : ℕ) (x y t : Fin n → ℝ) (sg lx ly lt ca cb cc cd : ℝ) :
    Matrix (Fin n) (Fin n) ℝ :=
  Matrix.of fun i j =>
    kfu3_fn (x i) (x j) (y i) (y j) (t i) (t j) sg lx ly lt ca cb cc cd

/-- `kuf = kfu(...).T` of part_002/advection_diffusion. -/
def kuf3Mat (n : ℕ) (x y t : Fin n → ℝ) (sg lx ly lt ca cb cc cd : ℝ) :
    Matrix (Fin n) (Fin n) ℝ :=
  (kfu3Mat n x y t sg lx ly lt ca cb cc cd)ᵀ

/-- The joint covariance matrix `K(sigma, l_x, l_y, l_t, a, b, c, d, s)` of
part_002/advection_diffusion. -/
def K_adv (n : ℕ) (x y t : Fin n → ℝ) (sg lx ly lt ca cb cc cd s : ℝ) :
    Matrix (Fin (n + n)) (Fin (n + n)) ℝ :=
  Matrix.reindex finSumFinEquiv finSumFinEquiv
    (fromBlocks (kuu3Mat n x y t sg lx ly lt + s • 1)
      (kuf3Mat n x y t sg lx ly lt ca cb cc cd)
      (kfu3Mat n x y t sg lx ly lt ca cb cc cd)
      (kff3Mat n x y t sg lx ly lt ca cb cc cd + s • 1))

/-- `K_inv_and_det(sigma, l_x, l_y, l_t, a, b, c, d, s)` of
part_002/advection_diffusion: the whole-matrix Cholesky/SVD solver applied
to the joint matrix it assembles itself. -/
def K_inv_and_det (n : ℕ) (x y t : Fin n → ℝ)
    (sg lx ly lt ca cb cc cd s : ℝ) :
    Option (Matrix (Fin (n + n)) (Fin (n + n)) ℝ × ℝ) :=
  K_inv_and_det_core (K_adv n x y t sg lx ly lt ca cb cc cd s)

/-! ### The 2D-Matern notebook: kernels and diagonal perturbation -/

namespace Matern

/-- `corr_nan = 1e-4`, the deterministic perturbation the Matern notebook
adds to the second argument at diagonal entries ("Circumventing evaluations
of kernel-derivatives at zero"). -/
def corr_nan : ℝ := 1e-4

/-- `r_l = sqrt((x_i - x_j)**2/l_x + (y_i - y_j)**2/l_y)` of the notebook. -/
def r_l (xi xj yi yj lx ly : ℝ) : ℝ :=
  Real.sqrt ((xi - xj) ^ 2 / lx + (yi - yj) ^ 2 / ly)

/-- `kuu_sym = sigma*(1 + sqrt(5)*r_l + 5/3*r_l**2)*exp(-sqrt(5)*r_l)`:
the Matern-5/2 kernel. -/
def kuu_fn (xi xj yi yj sg lx ly : ℝ) : ℝ :=
  sg * (1 + Real.sqrt 5 * r_l xi xj yi yj lx ly
      + 5 / 3 * r_l xi xj yi yj lx ly ^ 2) *
    Real.exp (-(Real.sqrt 5 * r_l xi xj yi yj lx ly))

/-- `sp.diff(kuu_sym, x_i)`. -/
def kuu_dxi (xi xj yi yj sg lx ly : ℝ) : ℝ :=
  deriv (fun u => kuu_fn u xj yi yj sg lx ly) xi

/-- `sp.diff(kuu_sym, y_i, y_i)`. -/
def kuu_dyiyi (xi xj yi yj sg lx ly : ℝ) : ℝ :=
  deriv (fun u => deriv (fun v => kuu_fn xi xj v yj sg lx ly) u) yi

/-- `sp.diff(kuu_sym, x_j)`. -/
def kuu_dxj (xi xj yi yj sg lx ly : ℝ) : ℝ :=
  deriv (fun u => kuu_fn xi u yi yj sg lx ly) xj

/-- `sp.diff(kuu_sym, x_i, x_j)`. -/
def kuu_dxixj (xi xj yi yj sg lx ly : ℝ) : ℝ :=
  deriv (fun u => kuu_dxi xi u yi yj sg lx ly) xj

/-- `sp.diff(kuu_sym, y_i, y_i, x_j)`. -/
def kuu_dyiyixj (xi xj yi yj sg lx ly : ℝ) : ℝ :=
  deriv (fun u => kuu_dyiyi xi u yi yj sg lx ly) xj

/-- `sp.diff(kuu_sym, y_j, y_j)`. -/
def kuu_dyjyj (xi xj yi yj sg lx ly : ℝ) : ℝ :=
  deriv (fun u => deriv (fun v => kuu_fn xi xj yi v sg lx ly) u) yj

/-- `sp.diff(kuu_sym, x_i, y_j, y_j)`. -/
def kuu_dxiyjyj (xi xj yi yj sg lx ly : ℝ) : ℝ :=
  deriv (fun u => deriv (fun v => kuu_dxi xi xj yi v sg lx ly) u) yj

/-- `sp.diff(kuu_sym, y_i, y_i, y_j, y_j)`. -/
def kuu_dyiyiyjyj (xi xj yi yj sg lx ly : ℝ) : ℝ :=
  deriv (fun u => deriv (fun v => kuu_dyiyi xi xj yi v sg lx ly) u) yj

/-- `kff_sym`: the nine-term operator-derived kernel
`phi^2 kuu + phi kuu_xi + phi kuu_yiyi + phi kuu_xj + kuu_xixj
 + kuu_yiyixj + phi kuu_yjyj + kuu_xiyjyj + kuu_yiyiyjyj`. -/
def kff_fn (xi xj yi yj sg lx ly phi : ℝ) : ℝ :=
  phi ^ 2 * kuu_fn xi xj yi yj sg lx ly
    + phi * kuu_dxi xi xj yi yj sg lx ly
    + phi * kuu_dyiyi xi xj yi yj sg lx ly
    + phi * kuu_dxj xi xj yi yj sg lx ly
    + kuu_dxixj xi xj yi yj sg lx ly
    + kuu_dyiyixj xi xj yi yj sg lx ly
    + phi * kuu_dyjyj xi xj yi yj sg lx ly
    + kuu_dxiyjyj xi xj yi yj sg lx ly
    + kuu_dyiyiyjyj xi xj yi yj sg lx ly

/-- `kfu_sym = phi*kuu_sym + sp.diff(kuu_sym, x_i) + sp.diff(kuu_sym, y_i, y_i)`. -/
def kfu_fn (xi xj yi yj sg lx ly phi : ℝ) : ℝ :=
  phi * kuu_fn xi xj yi yj sg lx ly
    + kuu_dxi xi xj yi yj sg lx ly
    + kuu_dyiyi xi xj yi yj sg lx ly

/-- The evaluator `kff`: at diagonal entries both coordinates of the second
argument are shifted by `corr_nan`; off-diagonal entries are exact. -/
def kff (n : ℕ) (x y : Fin n → ℝ) (sg lx ly phi : ℝ) :
    Matrix (Fin n) (Fin n) ℝ :=
  Matrix.of fun i j =>
    if i = j then
      kff_fn (x i) (x j + corr_nan) (y i) (y j + corr_nan) sg lx ly phi
    else
      kff_fn (x i) (x j) (y i) (y j) sg lx ly phi

/-- The evaluator `kfu`: same diagonal shift as `kff`. -/
def kfu (n : ℕ) (x y : Fin n → ℝ) (sg lx ly phi : ℝ) :
    Matrix (Fin n) (Fin n) ℝ :=
  Matrix.of fun i j =>
    if i = j then
      kfu_fn (x i) (x j + corr_nan) (y i) (y j + corr_nan) sg lx ly phi
    else
      kfu_fn (x i) (x j) (y i) (y j) sg lx ly phi

end Matern

theorem cholesky_succ {n : ℕ} (M : Matrix (Fin (n + 1)) (Fin (n + 1)) ℝ) :
    cholesky M =
      if 0 < M 0 0 then
        (cholesky (cholSchur M)).map fun L =>
          cholAssemble (Real.sqrt (M 0 0)) (fun i => M i.succ 0 / Real.sqrt (M 0 0)) L
      else none := by
  rw [cholesky]

@[simp] theorem cholAssemble_zero_zero {n : ℕ} (p : ℝ) (c : Fin n → ℝ)
    (L : Matrix (Fin n) (Fin n) ℝ) : cholAssemble p c L 0 0 = p := rfl

@[simp] theorem cholAssemble_zero_succ {n : ℕ} (p : ℝ) (c : Fin n → ℝ)
    (L : Matrix (Fin n) (Fin n) ℝ) (j : Fin n) : cholAssemble p c L 0 j.succ = 0 := rfl

@[simp] theorem cholAssemble_succ_zero {n : ℕ} (p : ℝ) (c : Fin n → ℝ)
    (L : Matrix (Fin n) (Fin n) ℝ) (i : Fin n) : cholAssemble p c L i.succ 0 = c i := rfl

@[simp] theorem cholAssemble_succ_succ {n : ℕ} (p : ℝ) (c : Fin n → ℝ)
    (L : Matrix (Fin n) (Fin n) ℝ) (i j : Fin n) :
    cholAssemble p c L i.succ j.succ = L i j := rfl

/-- On success the Cholesky factor has strictly positive diagonal entries. -/
theorem cholesky_diag_pos : ∀ {n : ℕ} (M L : Matrix (Fin n) (Fin n) ℝ),
    cholesky M = some L → ∀ i, 0 < L i i
  | 0, _, _, _, i => absurd i.2 (by simp)
  | n + 1, M, L, hL, i => by
    rw [cholesky_succ] at hL
    by_cases hp : 0 < M 0 0
    · rw [if_pos hp, Option.map_eq_some'] at hL
      obtain ⟨L', hL', rfl⟩ := hL
      refine Fin.cases ?_ (fun i' => ?_) i
      · simpa using Real.sqrt_pos.2 hp
      · simpa using cholesky_diag_pos _ _ hL' i'
    · simp [if_neg hp] at hL

/-- On success the Cholesky factor is lower triangular. -/
theorem cholesky_lower : ∀ {n : ℕ} (M L : Matrix (Fin n) (Fin n) ℝ),
    cholesky M = some L → ∀ i j, i < j → L i j = 0
  | 0, _, _, _, i, _, _ => absurd i.2 (by simp)
  | n + 1, M, L, hL, i, j, hij => by
    rw [cholesky_succ] at hL
    by_cases hp : 0 < M 0 0
    · rw [if_pos hp, Option.map_eq_some'] at hL
      obtain ⟨L', hL', rfl⟩ := hL
      refine Fin.cases (fun j hj => ?_) (fun i' j hj => ?_) i j hij
      · obtain ⟨j', rfl⟩ := Fin.eq_succ_of_ne_zero (Fin.pos_iff_ne_zero.1 hj)
        simp
      · obtain ⟨j', rfl⟩ := Fin.eq_succ_of_ne_zero (Fin.pos_iff_ne_zero.1 (lt_of_le_of_lt i'.succ.zero_le hj))
        simpa using cholesky_lower _ _ hL' i' j' (by simpa using hj)
    · simp [if_neg hp] at hL

/-- On success on a symmetric matrix, the Cholesky factor satisfies
`L * Lᵀ = M`. -/
theorem cholesky_mul_transpose : ∀ {n : ℕ} (M L : Matrix (Fin n) (Fin n) ℝ),
    Mᵀ = M → cholesky M = some L → L * Lᵀ = M
  | 0, M, L, _, _ => by
    ext i j
    exact absurd i.2 (by simp)
  | n + 1, M, L, hsym, hL => by
    rw [cholesky_succ] at hL
    by_cases hp : 0 < M 0 0
    · rw [if_pos hp, Option.map_eq_some'] at hL
      obtain ⟨L', hL', rfl⟩ := hL
      have hpne : Real.sqrt (M 0 0) ≠ 0 := ne_of_gt (Real.sqrt_pos.2 hp)
      have hps : Real.sqrt (M 0 0) * Real.sqrt (M 0 0) = M 0 0 :=
        Real.mul_self_sqrt hp.le
      have hSsym : (cholSchur M)ᵀ = cholSchur M := by
        ext i j
        have h1 : M j.succ i.succ = M i.succ j.succ := congrFun (congrFun hsym i.succ) j.succ
        simp only [Matrix.transpose_apply, cholSchur, Matrix.of_apply, h1]
        ring
      have hrec : L' * L'ᵀ = cholSchur M := cholesky_mul_transpose _ _ hSsym hL'
      ext i j
      refine Fin.cases ?_ (fun i' => ?_) i
      · refine Fin.cases ?_ (fun j' => ?_) j
        · simp [Matrix.mul_apply, Fin.sum_univ_succ, hps]
        · have h0j : M 0 j'.succ = M j'.succ 0 := congrFun (congrFun hsym j'.succ) 0
          simp only [Matrix.mul_apply, Fin.sum_univ_succ, Matrix.transpose_apply,
            cholAssemble_zero_zero, cholAssemble_zero_succ, cholAssemble_succ_zero,
            cholAssemble_succ_succ, h0j]
          rw [mul_div_assoc', mul_div_cancel_left₀ _ hpne]
          simp
      · refine Fin.cases ?_ (fun j' => ?_) j
        · simp only [Matrix.mul_apply, Fin.sum_univ_succ, Matrix.transpose_apply,
            cholAssemble_zero_zero, cholAssemble_zero_succ, cholAssemble_succ_zero,
            cholAssemble_succ_succ]
          rw [div_mul_cancel₀ _ hpne]
          simp
        · have hthis := congrFun (congrFun hrec i') j'
          simp only [Matrix.mul_apply, Matrix.transpose_apply] at hthis
          simp only [Matrix.mul_apply, Fin.sum_univ_succ, Matrix.transpose_apply,
            cholAssemble_succ_zero, cholAssemble_succ_succ]
          rw [hthis]
          simp only [cholSchur, Matrix.of_apply]
          ring
    · simp [if_neg hp] at hL

/-- On success the Cholesky factor has positive determinant, hence is
invertible. -/
theorem cholesky_det_pos {n : ℕ} (M L : Matrix (Fin n) (Fin n) ℝ)
    (hL : cholesky M = some L) : 0 < L.det := by
  have hlow : L.BlockTriangular (OrderDual.toDual : Fin n → (Fin n)ᵒᵈ) := by
    intro i j hij
    exact cholesky_lower M L hL i j hij
  rw [Matrix.det_of_lowerTriangular L hlow]
  exact Finset.prod_pos fun i _ => cholesky_diag_pos M L hL i

theorem cholesky_isUnit_det {n : ℕ} (M L : Matrix (Fin n) (Fin n) ℝ)
    (hL : cholesky M = some L) : IsUnit L.det :=
  (cholesky_det_pos M L hL).ne.symm.isUnit

/-! ### Correctness of the block (Schur-complement) solver -/

theorem schurS_transpose {m : ℕ} (A B C : Matrix (Fin m) (Fin m) ℝ)
    (hA : Aᵀ = A) (hC : Cᵀ = C) : (schurS A B C)ᵀ = schurS A B C := by
  have hAinvT : A⁻¹ᵀ = A⁻¹ := by rw [Matrix.transpose_nonsing_inv, hA]
  simp [schurS, Matrix.transpose_sub, Matrix.transpose_mul, hC, hAinvT,
    Matrix.transpose_transpose, Matrix.mul_assoc]

theorem blockT_transpose {m : ℕ} (A B C : Matrix (Fin m) (Fin m) ℝ)
    (hA : Aᵀ = A) (hC : Cᵀ = C) :
    (blockT A B C)ᵀ = (schurS A B C)⁻¹ * Bᵀ * A⁻¹ := by
  have hAinvT : A⁻¹ᵀ = A⁻¹ := by rw [Matrix.transpose_nonsing_inv, hA]
  have hSinvT : ((schurS A B C)⁻¹)ᵀ = (schurS A B C)⁻¹ := by
    rw [Matrix.transpose_nonsing_inv, schurS_transpose A B C hA hC]
  simp [blockT, Matrix.transpose_mul, hAinvT, hSinvT, Matrix.mul_assoc]

/-- The key product identity: the matrix pieced together by the block solver
is a right inverse of the joint block matrix. -/
theorem fromBlocks_mul_blockKinv {m : ℕ} (A B C : Matrix (Fin m) (Fin m) ℝ)
    (hA : Aᵀ = A) (hC : Cᵀ = C) (hdA : IsUnit A.det)
    (hdS : IsUnit (schurS A B C).det) :
    fromBlocks A B Bᵀ C * blockKinv A B C = 1 := by
  have hAA : A * A⁻¹ = 1 := Matrix.mul_nonsing_inv A hdA
  have hSS : schurS A B C * (schurS A B C)⁻¹ = 1 := Matrix.mul_nonsing_inv _ hdS
  have hcA : ∀ X : Matrix (Fin m) (Fin m) ℝ, A * (A⁻¹ * X) = X := fun X => by
    rw [← Matrix.mul_assoc, hAA, Matrix.one_mul]
  have hcS : ∀ X : Matrix (Fin m) (Fin m) ℝ,
      schurS A B C * ((schurS A B C)⁻¹ * X) = X := fun X => by
    rw [← Matrix.mul_assoc, hSS, Matrix.one_mul]
  have hBAB : Bᵀ * (A⁻¹ * B) = C - schurS A B C := by
    rw [schurS, sub_sub_cancel, Matrix.mul_assoc]
  rw [blockKinv, Matrix.fromBlocks_multiply, ← Matrix.fromBlocks_one]
  rw [blockT_transpose A B C hA hC]
  rw [Matrix.fromBlocks_inj]
  refine ⟨?_, ?_, ?_, ?_⟩
  · -- uu block: A * (A⁻¹ + T Bᵀ A⁻¹) + B * (-(S⁻¹ Bᵀ A⁻¹)) = 1
    simp only [blockT, Matrix.mul_add, Matrix.mul_neg, Matrix.mul_assoc, hcA, hAA]
    abel
  · -- uf block: A * (-T) + B * S⁻¹ = 0
    simp only [blockT, Matrix.mul_neg, Matrix.mul_assoc, hcA]
    abel
  · -- fu block: Bᵀ * (A⁻¹ + T Bᵀ A⁻¹) + C * (-(S⁻¹ Bᵀ A⁻¹)) = 0
    simp only [blockT, Matrix.mul_add, Matrix.mul_neg, ← Matrix.mul_assoc]
    rw [Matrix.mul_assoc Bᵀ A⁻¹ B, hBAB]
    simp only [Matrix.sub_mul, Matrix.mul_assoc, hcS]
    abel
  · -- ff block: Bᵀ * (-T) + C * S⁻¹ = 1
    simp only [blockT, Matrix.mul_neg, ← Matrix.mul_assoc]
    rw [Matrix.mul_assoc Bᵀ A⁻¹ B, hBAB]
    simp only [Matrix.sub_mul, Matrix.mul_assoc, hcS]
    rw [hSS]
    abel

/-- C4. For every symmetric block matrix `K = [[A, B], [Bᵀ, C]]` with `A` and
the Schur complement `S = C - Bᵀ A⁻¹ B` invertible, the matrix assembled by
the block solver, `[[A⁻¹ + T Bᵀ A⁻¹, -T], [-Tᵀ, S⁻¹]]` with
`T = A⁻¹ B S⁻¹`, equals `K⁻¹`, and
`log |det K| = log |det A| + log |det S|`. -/
theorem blockKinv_eq_inv_and_logdet {m : ℕ} (A B C : Matrix (Fin m) (Fin m) ℝ)
    (hA : Aᵀ = A) (hC : Cᵀ = C) (hdA : IsUnit A.det)
    (hdS : IsUnit (schurS A B C).det) :
    blockKinv A B C = (fromBlocks A B Bᵀ C)⁻¹ ∧
      Real.log |(fromBlocks A B Bᵀ C).det| =
        Real.log |A.det| + Real.log |(schurS A B C).det| := by
  constructor
  · exact (Matrix.inv_eq_right_inv (fromBlocks_mul_blockKinv A B C hA hC hdA hdS)).symm
  · haveI : Invertible A := A.invertibleOfIsUnitDet hdA
    have hdet : (fromBlocks A B Bᵀ C).det = A.det * (schurS A B C).det := by
      rw [Matrix.det_fromBlocks₁₁, Matrix.invOf_eq_nonsing_inv, schurS]
    rw [hdet, abs_mul]
    exact Real.log_mul (abs_ne_zero.2 (isUnit_iff_ne_zero.1 hdA))
      (abs_ne_zero.2 (isUnit_iff_ne_zero.1 hdS))

/-! ### The SVD oracle satisfies its contract on symmetric matrices -/

/-- The spectral theorem provides a valid SVD triple for every symmetric real
matrix: diagonalize `M = Q D Qᵀ` and move the signs of the eigenvalues into
the left factor. -/
theorem exists_isSVDOf {m : ℕ} (M : Matrix (Fin m) (Fin m) ℝ) (hM : Mᵀ = M) :
    ∃ t, IsSVDOf M t := by
  have hherm : M.IsHermitian := by
    show Mᴴ = M
    rw [Matrix.conjTranspose_eq_transpose_of_trivial]
    exact hM
  set Q : Matrix (Fin m) (Fin m) ℝ :=
    (hherm.eigenvectorUnitary : Matrix (Fin m) (Fin m) ℝ) with hQ
  have hQorth : Q * Qᵀ = 1 := by
    have hmem := (Matrix.mem_unitaryGroup_iff).mp hherm.eigenvectorUnitary.2
    rwa [Matrix.star_eq_conjTranspose,
      Matrix.conjTranspose_eq_transpose_of_trivial] at hmem
  have hspec : M = Q * Matrix.diagonal hherm.eigenvalues * Qᵀ := by
    have h := hherm.spectral_theorem
    rwa [RCLike.ofReal_real_eq_id, Function.id_comp, Matrix.star_eq_conjTranspose,
      Matrix.conjTranspose_eq_transpose_of_trivial] at h
  refine ⟨(Q * Matrix.diagonal (fun i => if hherm.eigenvalues i < 0 then (-1 : ℝ) else 1),
    fun i => |hherm.eigenvalues i|, Q), ?_, hQorth, fun i => abs_nonneg _, ?_⟩
  · show Q * Matrix.diagonal _ * (Q * Matrix.diagonal _)ᵀ = 1
    rw [Matrix.transpose_mul, Matrix.diagonal_transpose, Matrix.mul_assoc,
      ← Matrix.mul_assoc (Matrix.diagonal _), Matrix.diagonal_mul_diagonal]
    have hsgn : (fun i =>
        (if hherm.eigenvalues i < 0 then (-1 : ℝ) else 1) *
          (if hherm.eigenvalues i < 0 then (-1 : ℝ) else 1)) = fun _ => (1 : ℝ) := by
      funext i
      by_cases h : hherm.eigenvalues i < 0
      · rw [if_pos h]
        norm_num
      · rw [if_neg h]
        norm_num
    rw [congrArg Matrix.diagonal hsgn, Matrix.diagonal_one, Matrix.one_mul, hQorth]
  · show M = Q * Matrix.diagonal _ * Matrix.diagonal _ * Qᵀ
    rw [Matrix.mul_assoc Q, Matrix.diagonal_mul_diagonal]
    have habs : (fun i =>
        (if hherm.eigenvalues i < 0 then (-1 : ℝ) else 1) * |hherm.eigenvalues i|) =
        hherm.eigenvalues := by
      funext i
      by_cases h : hherm.eigenvalues i < 0
      · rw [if_pos h, abs_of_neg h]
        ring
      · rw [if_neg h, abs_of_nonneg (le_of_not_lt h), one_mul]
    rw [congrArg Matrix.diagonal habs]
    exact hspec

/-- On symmetric input the oracle `npSVD` returns a valid factorization. -/
theorem npSVD_isSVD {m : ℕ} (M : Matrix (Fin m) (Fin m) ℝ) (hM : Mᵀ = M) :
    IsSVDOf M (npSVD M) := by
  rw [npSVD, dif_pos (exists_isSVDOf M hM)]
  exact (exists_isSVDOf M hM).choose_spec

/-- For a symmetric matrix with nonzero determinant, none of the singular
values returned by the oracle is zero. -/
theorem npSVD_sv_ne_zero {m : ℕ} (M : Matrix (Fin m) (Fin m) ℝ) (hM : Mᵀ = M)
    (hdet : M.det ≠ 0) : ∀ i, (npSVD M).2.1 i ≠ 0 := by
  obtain ⟨-, -, -, hfac⟩ := npSVD_isSVD M hM
  intro i hzero
  apply hdet
  rw [hfac, Matrix.det_mul, Matrix.det_mul, Matrix.det_diagonal]
  have : ∏ j, (npSVD M).2.1 j = 0 :=
    Finset.prod_eq_zero (Finset.mem_univ i) hzero
  rw [this, mul_zero, zero_mul]

/-- Every valid SVD triple of the zero matrix has all singular values zero:
the potential inputs on which the fallback's `np.linalg.inv(np.diag(s_mat))`
raises. -/
theorem npSVD_zero_sv {m : ℕ} (i : Fin m) :
    (npSVD (0 : Matrix (Fin m) (Fin m) ℝ)).2.1 i = 0 := by
  obtain ⟨hU, hV, -, hfac⟩ :=
    npSVD_isSVD (0 : Matrix (Fin m) (Fin m) ℝ) (Matrix.transpose_zero)
  have hUtU : (npSVD (0 : Matrix (Fin m) (Fin m) ℝ)).1ᵀ *
      (npSVD (0 : Matrix (Fin m) (Fin m) ℝ)).1 = 1 := Matrix.mul_eq_one_comm.mp hU
  have hVtV : (npSVD (0 : Matrix (Fin m) (Fin m) ℝ)).2.2ᵀ *
      (npSVD (0 : Matrix (Fin m) (Fin m) ℝ)).2.2 = 1 := Matrix.mul_eq_one_comm.mp hV
  have hD : Matrix.diagonal (npSVD (0 : Matrix (Fin m) (Fin m) ℝ)).2.1 = 0 := by
    have h1 : (npSVD (0 : Matrix (Fin m) (Fin m) ℝ)).1ᵀ *
        ((npSVD (0 : Matrix (Fin m) (Fin m) ℝ)).1 *
          Matrix.diagonal (npSVD (0 : Matrix (Fin m) (Fin m) ℝ)).2.1 *
          (npSVD (0 : Matrix (Fin m) (Fin m) ℝ)).2.2ᵀ) *
        (npSVD (0 : Matrix (Fin m) (Fin m) ℝ)).2.2 = 0 := by
      rw [← hfac]
      simp
    calc Matrix.diagonal (npSVD (0 : Matrix (Fin m) (Fin m) ℝ)).2.1
        = 1 * Matrix.diagonal (npSVD (0 : Matrix (Fin m) (Fin m) ℝ)).2.1 * 1 := by
          rw [Matrix.one_mul, Matrix.mul_one]
      _ = (npSVD (0 : Matrix (Fin m) (Fin m) ℝ)).1ᵀ *
            (npSVD (0 : Matrix (Fin m) (Fin m) ℝ)).1 *
            Matrix.diagonal (npSVD (0 : Matrix (Fin m) (Fin m) ℝ)).2.1 *
            ((npSVD (0 : Matrix (Fin m) (Fin m) ℝ)).2.2ᵀ *
              (npSVD (0 : Matrix (Fin m) (Fin m) ℝ)).2.2) := by
          rw [hUtU, hVtV]
      _ = (npSVD (0 : Matrix (Fin m) (Fin m) ℝ)).1ᵀ *
            ((npSVD (0 : Matrix (Fin m) (Fin m) ℝ)).1 *
              Matrix.diagonal (npSVD (0 : Matrix (Fin m) (Fin m) ℝ)).2.1 *
              (npSVD (0 : Matrix (Fin m) (Fin m) ℝ)).2.2ᵀ) *
            (npSVD (0 : Matrix (Fin m) (Fin m) ℝ)).2.2 := by
          simp only [Matrix.mul_assoc]
      _ = 0 := h1
  have hii := congrFun (congrFun hD i) i
  simpa using hii

/-! ### Evaluation of the Cholesky algorithm on small concrete matrices -/

theorem cholesky_fin_zero (M : Matrix (Fin 0) (Fin 0) ℝ) : cholesky M = some 0 := rfl

theorem cholesky_fin_one (c : ℝ) :
    cholesky !![c] = if 0 < c then some !![Real.sqrt c] else none := by
  rw [cholesky_succ]
  by_cases h : 0 < c
  · rw [if_pos (show 0 < !![c] 0 0 from h), if_pos h, cholesky_fin_zero, Option.map_some']
    congr 1
    ext i j
    fin_cases i
    fin_cases j
    rfl
  · rw [if_neg (show ¬0 < !![c] 0 0 from h), if_neg h]

/-! ### Behaviour of the whole-matrix solver on the two branches -/

/-- On Cholesky success over a symmetric matrix, the solver returns the exact
inverse together with `Σ log |L i i|` — which is half the true
log-determinant `log det M = 2 Σ log |L i i|`. -/
theorem K_inv_and_det_core_of_cholesky_some {m : ℕ}
    (M L : Matrix (Fin m) (Fin m) ℝ) (hM : Mᵀ = M) (hL : cholesky M = some L) :
    K_inv_and_det_core M = some (M⁻¹, ∑ i, Real.log |L i i|) ∧
      Real.log M.det = 2 * ∑ i, Real.log |L i i| := by
  have hfac : L * Lᵀ = M := cholesky_mul_transpose M L hM hL
  have hdiag : ∀ i, 0 < L i i := cholesky_diag_pos M L hL
  have hdetL : L.det = ∏ i, L i i := by
    refine Matrix.det_of_lowerTriangular L ?_
    intro i j hij
    exact cholesky_lower M L hL i j hij
  constructor
  · rw [K_inv_and_det_core, hL, Option.elim_some]
    have hinv : (L⁻¹)ᵀ * L⁻¹ = M⁻¹ := by
      rw [← hfac, Matrix.mul_inv_rev, Matrix.transpose_nonsing_inv]
    rw [hinv]
  · have hdet : M.det = L.det ^ 2 := by
      rw [← hfac, Matrix.det_mul, Matrix.det_transpose, sq]
    rw [hdet, hdetL, Real.log_pow,
      Real.log_prod _ _ (fun i _ => (hdiag i).ne.symm)]
    have habs : ∀ i ∈ Finset.univ, Real.log (L i i) = Real.log |L i i| :=
      fun i _ => by rw [abs_of_pos (hdiag i)]
    rw [Finset.sum_congr rfl habs]
    push_cast
    ring

/-- C8. If `np.linalg.cholesky` raises (`cholesky M = none`), `K_inv_and_det`
catches the error locally and returns the result of the SVD fallback branch;
for a symmetric matrix with nonzero determinant that fallback produces an
actual value, so the Cholesky failure never reaches the caller of the NLML
evaluation. -/
theorem cholesky_failure_recovered_by_svd {m : ℕ} (M : Matrix (Fin m) (Fin m) ℝ)
    (hM : Mᵀ = M) (hdet : M.det ≠ 0) (hfail : cholesky M = none) :
    K_inv_and_det_core M = svdFallback M ∧
      K_inv_and_det_core M =
        some ((npSVD M).2.2 * (Matrix.diagonal (npSVD M).2.1)⁻¹ * (npSVD M).1ᵀ,
          ∑ i, Real.log ((npSVD M).2.1 i)) := by
  have h1 : K_inv_and_det_core M = svdFallback M := by
    rw [K_inv_and_det_core, hfail, Option.elim_none]
  refine ⟨h1, ?_⟩
  rw [h1, svdFallback, if_pos (npSVD_sv_ne_zero M hM hdet)]

/-- Witness for C8 at the symmetric, invertible, non-positive-definite input
`[[-1]]`. -/
theorem cholesky_failure_recovered_by_svd_witness :
    ((!![(-1 : ℝ)]ᵀ = !![-1]) ∧ Matrix.det !![(-1 : ℝ)] ≠ 0 ∧
        cholesky !![(-1 : ℝ)] = none) ∧
      (K_inv_and_det_core !![(-1 : ℝ)] = svdFallback !![(-1 : ℝ)] ∧
        K_inv_and_det_core !![(-1 : ℝ)] =
          some ((npSVD !![(-1 : ℝ)]).2.2 *
              (Matrix.diagonal (npSVD !![(-1 : ℝ)]).2.1)⁻¹ * (npSVD !![(-1 : ℝ)]).1ᵀ,
            ∑ i, Real.log ((npSVD !![(-1 : ℝ)]).2.1 i))) := by
  have h1 : (!![(-1 : ℝ)]ᵀ = !![-1]) := by
    ext i j
    fin_cases i
    fin_cases j
    rfl
  have h2 : Matrix.det !![(-1 : ℝ)] ≠ 0 := by
    rw [Matrix.det_fin_one_of]
    norm_num
  have h3 : cholesky !![(-1 : ℝ)] = none := by
    rw [cholesky_fin_one]
    norm_num
  exact ⟨⟨h1, h2, h3⟩, cholesky_failure_recovered_by_svd !![(-1 : ℝ)] h1 h2 h3⟩

/-- C9 counterexample: at the symmetric input `[[0]]`, Cholesky fails, the
SVD of the zero matrix yields the singular value `0`, and the fallback's
`np.linalg.inv(np.diag(s_mat))` raises `LinAlgError` inside the `except`
block, where nothing catches it: the evaluation ends in a propagated
exception (`none`), not in any sentinel value. -/
theorem svd_zero_singular_value_raises : K_inv_and_det_core !![(0 : ℝ)] = none := by
  have hzero : !![(0 : ℝ)] = (0 : Matrix (Fin 1) (Fin 1) ℝ) := by
    ext i j
    fin_cases i
    fin_cases j
    rfl
  rw [hzero]
  have hchol : cholesky (0 : Matrix (Fin 1) (Fin 1) ℝ) = none := by
    rw [← hzero, cholesky_fin_one]
    norm_num
  rw [K_inv_and_det_core, hchol, Option.elim_none, svdFallback, if_neg]
  push_neg
  exact ⟨0, npSVD_zero_sv 0⟩

/-- C9 amended. On an exactly-zero singular value the `LinAlgError` raised by
`np.linalg.inv(np.diag(s_mat))` inside the `except` block propagates to the
enclosing caller (`none`, second conjunct, at the zero matrix); only when all
singular values are nonzero — in particular for every symmetric matrix with
nonzero determinant — does the fallback return a value (first conjunct).  No
sentinel value such as `+∞` is ever produced. -/
theorem svd_fallback_no_sentinel {m : ℕ} (M : Matrix (Fin m) (Fin m) ℝ)
    (hM : Mᵀ = M) (hdet : M.det ≠ 0) :
    svdFallback M =
        some ((npSVD M).2.2 * (Matrix.diagonal (npSVD M).2.1)⁻¹ * (npSVD M).1ᵀ,
          ∑ i, Real.log ((npSVD M).2.1 i)) ∧
      svdFallback (0 : Matrix (Fin 1) (Fin 1) ℝ) = none := by
  constructor
  · rw [svdFallback, if_pos (npSVD_sv_ne_zero M hM hdet)]
  · rw [svdFallback, if_neg]
    push_neg
    exact ⟨0, npSVD_zero_sv 0⟩

/-- Witness for the amended C9 at the symmetric invertible input `[[2]]`. -/
theorem svd_fallback_no_sentinel_witness :
    ((!![(2 : ℝ)]ᵀ = !![2]) ∧ Matrix.det !![(2 : ℝ)] ≠ 0) ∧
      (svdFallback !![(2 : ℝ)] =
          some ((npSVD !![(2 : ℝ)]).2.2 *
              (Matrix.diagonal (npSVD !![(2 : ℝ)]).2.1)⁻¹ * (npSVD !![(2 : ℝ)]).1ᵀ,
            ∑ i, Real.log ((npSVD !![(2 : ℝ)]).2.1 i)) ∧
        svdFallback (0 : Matrix (Fin 1) (Fin 1) ℝ) = none) := by
  have h1 : (!![(2 : ℝ)]ᵀ = !![2]) := by
    ext i j
    fin_cases i
    fin_cases j
    rfl
  have h2 : Matrix.det !![(2 : ℝ)] ≠ 0 := by
    rw [Matrix.det_fin_one_of]
    norm_num
  exact ⟨⟨h1, h2⟩, svd_fallback_no_sentinel !![(2 : ℝ)] h1 h2⟩

/-! ### Closed forms of the sympy-generated kernel derivatives (part_000)

Each `sp.diff` embedded as a `deriv` above is shown to equal the closed form
that `sp.lambdify` compiles and the notebook evaluates. -/

theorem hasDerivAt_kuu_xi (a b c d lx ly : ℝ) :
    HasDerivAt (fun a1 => kuu_fn a1 b c d lx ly)
      (-((a - b) / lx) * kuu_fn a b c d lx ly) a := by
  have hq : HasDerivAt
      (fun a1 : ℝ => -1 / (2 * lx) * (a1 - b) ^ 2 - 1 / (2 * ly) * (c - d) ^ 2)
      (-((a - b) / lx)) a := by
    have h1 : HasDerivAt (fun a1 : ℝ => (a1 - b) ^ 2) (2 * (a - b)) a := by
      simpa using ((hasDerivAt_id a).sub_const b).pow 2
    have h2 := (h1.const_mul (-1 / (2 * lx))).sub_const (1 / (2 * ly) * (c - d) ^ 2)
    convert h2 using 1
    ring
  have h := hq.exp
  convert h using 1
  rw [kuu_fn]
  ring

theorem kuu_dxi_eq (a b c d lx ly : ℝ) :
    kuu_dxi a b c d lx ly = -((a - b) / lx) * kuu_fn a b c d lx ly :=
  (hasDerivAt_kuu_xi a b c d lx ly).deriv

theorem hasDerivAt_kuu_xj (a b c d lx ly : ℝ) :
    HasDerivAt (fun b1 => kuu_fn a b1 c d lx ly)
      ((a - b) / lx * kuu_fn a b c d lx ly) b := by
  have hq : HasDerivAt
      (fun b1 : ℝ => -1 / (2 * lx) * (a - b1) ^ 2 - 1 / (2 * ly) * (c - d) ^ 2)
      ((a - b) / lx) b := by
    have h1 : HasDerivAt (fun b1 : ℝ => (a - b1) ^ 2) (2 * (a - b) * (-1)) b := by
      simpa using ((hasDerivAt_id b).const_sub a).pow 2
    have h2 := (h1.const_mul (-1 / (2 * lx))).sub_const (1 / (2 * ly) * (c - d) ^ 2)
    convert h2 using 1
    ring
  have h := hq.exp
  convert h using 1
  rw [kuu_fn]
  ring

theorem kuu_dxj_eq (a b c d lx ly : ℝ) :
    kuu_dxj a b c d lx ly = (a - b) / lx * kuu_fn a b c d lx ly :=
  (hasDerivAt_kuu_xj a b c d lx ly).deriv

theorem hasDerivAt_kuu_yi (a b c d lx ly : ℝ) :
    HasDerivAt (fun c1 => kuu_fn a b c1 d lx ly)
      (-((c - d) / ly) * kuu_fn a b c d lx ly) c := by
  have hq : HasDerivAt
      (fun c1 : ℝ => -1 / (2 * lx) * (a - b) ^ 2 - 1 / (2 * ly) * (c1 - d) ^ 2)
      (-((c - d) / ly)) c := by
    have h1 : HasDerivAt (fun c1 : ℝ => (c1 - d) ^ 2) (2 * (c - d)) c := by
      simpa using ((hasDerivAt_id c).sub_const d).pow 2
    have h2 := (h1.const_mul (1 / (2 * ly))).const_sub (-1 / (2 * lx) * (a - b) ^ 2)
    convert h2 using 1
    ring
  have h := hq.exp
  convert h using 1
  rw [kuu_fn]
  ring

theorem kuu_dyi_eq (a b c d lx ly : ℝ) :
    kuu_dyi a b c d lx ly = -((c - d) / ly) * kuu_fn a b c d lx ly :=
  (hasDerivAt_kuu_yi a b c d lx ly).deriv

theorem hasDerivAt_kuu_yj (a b c d lx ly : ℝ) :
    HasDerivAt (fun d1 => kuu_fn a b c d1 lx ly)
      ((c - d) / ly * kuu_fn a b c d lx ly) d := by
  have hq : HasDerivAt
      (fun d1 : ℝ => -1 / (2 * lx) * (a - b) ^ 2 - 1 / (2 * ly) * (c - d1) ^ 2)
      ((c - d) / ly) d := by
    have h1 : HasDerivAt (fun d1 : ℝ => (c - d1) ^ 2) (2 * (c - d) * (-1)) d := by
      simpa using ((hasDerivAt_id d).const_sub c).pow 2
    have h2 := (h1.const_mul (1 / (2 * ly))).const_sub (-1 / (2 * lx) * (a - b) ^ 2)
    convert h2 using 1
    ring
  have h := hq.exp
  convert h using 1
  rw [kuu_fn]
  ring

theorem kuu_dyj_eq (a b c d lx ly : ℝ) :
    kuu_dyj a b c d lx ly = (c - d) / ly * kuu_fn a b c d lx ly :=
  (hasDerivAt_kuu_yj a b c d lx ly).deriv

theorem hasDerivAt_kuu_dyi_yi (a b c d lx ly : ℝ) :
    HasDerivAt (fun c1 => kuu_dyi a b c1 d lx ly)
      (((c - d) ^ 2 / ly ^ 2 - 1 / ly) * kuu_fn a b c d lx ly) c := by
  have hfun : (fun c1 => kuu_dyi a b c1 d lx ly) =
      fun c1 => -((c1 - d) / ly) * kuu_fn a b c1 d lx ly :=
    funext fun c1 => kuu_dyi_eq a b c1 d lx ly
  rw [hfun]
  have hP : HasDerivAt (fun c1 : ℝ => -((c1 - d) / ly)) (-(1 / ly)) c := by
    simpa using (((hasDerivAt_id c).sub_const d).div_const ly).neg
  have h := hP.mul (hasDerivAt_kuu_yi a b c d lx ly)
  convert h using 1
  ring

theorem kuu_dyiyi_eq (a b c d lx ly : ℝ) :
    kuu_dyiyi a b c d lx ly =
      ((c - d) ^ 2 / ly ^ 2 - 1 / ly) * kuu_fn a b c d lx ly :=
  (hasDerivAt_kuu_dyi_yi a b c d lx ly).deriv

theorem hasDerivAt_kuu_dyj_yj (a b c d lx ly : ℝ) :
    HasDerivAt (fun d1 => kuu_dyj a b c d1 lx ly)
      (((c - d) ^ 2 / ly ^ 2 - 1 / ly) * kuu_fn a b c d lx ly) d := by
  have hfun : (fun d1 => kuu_dyj a b c d1 lx ly) =
      fun d1 => (c - d1) / ly * kuu_fn a b c d1 lx ly :=
    funext fun d1 => kuu_dyj_eq a b c d1 lx ly
  rw [hfun]
  have hP : HasDerivAt (fun d1 : ℝ => (c - d1) / ly) (-1 / ly) d := by
    simpa using ((hasDerivAt_id d).const_sub c).div_const ly
  have h := hP.mul (hasDerivAt_kuu_yj a b c d lx ly)
  convert h using 1
  ring

theorem kuu_dyjyj_eq (a b c d lx ly : ℝ) :
    kuu_dyjyj a b c d lx ly =
      ((c - d) ^ 2 / ly ^ 2 - 1 / ly) * kuu_fn a b c d lx ly :=
  (hasDerivAt_kuu_dyj_yj a b c d lx ly).deriv

theorem hasDerivAt_kuu_dxi_xj (a b c d lx ly : ℝ) :
    HasDerivAt (fun b1 => kuu_dxi a b1 c d lx ly)
      ((1 / lx - (a - b) ^ 2 / lx ^ 2) * kuu_fn a b c d lx ly) b := by
  have hfun : (fun b1 => kuu_dxi a b1 c d lx ly) =
      fun b1 => -((a - b1) / lx) * kuu_fn a b1 c d lx ly :=
    funext fun b1 => kuu_dxi_eq a b1 c d lx ly
  rw [hfun]
  have hP : HasDerivAt (fun b1 : ℝ => -((a - b1) / lx)) (1 / lx) b := by
    have h0 := (((hasDerivAt_id b).const_sub a).div_const lx).neg
    convert h0 using 1
    ring
  have h := hP.mul (hasDerivAt_kuu_xj a b c d lx ly)
  convert h using 1
  ring

theorem kuu_dxixj_eq (a b c d lx ly : ℝ) :
    kuu_dxixj a b c d lx ly =
      (1 / lx - (a - b) ^ 2 / lx ^ 2) * kuu_fn a b c d lx ly :=
  (hasDerivAt_kuu_dxi_xj a b c d lx ly).deriv

theorem hasDerivAt_kuu_dyiyi_xj (a b c d lx ly : ℝ) :
    HasDerivAt (fun b1 => kuu_dyiyi a b1 c d lx ly)
      (((c - d) ^ 2 / ly ^ 2 - 1 / ly) * ((a - b) / lx) * kuu_fn a b c d lx ly)
      b := by
  have hfun : (fun b1 => kuu_dyiyi a b1 c d lx ly) =
      fun b1 => ((c - d) ^ 2 / ly ^ 2 - 1 / ly) * kuu_fn a b1 c d lx ly :=
    funext fun b1 => kuu_dyiyi_eq a b1 c d lx ly
  rw [hfun]
  have h := (hasDerivAt_kuu_xj a b c d lx ly).const_mul
    ((c - d) ^ 2 / ly ^ 2 - 1 / ly)
  convert h using 1
  ring

theorem kuu_dyiyixj_eq (a b c d lx ly : ℝ) :
    kuu_dyiyixj a b c d lx ly =
      ((c - d) ^ 2 / ly ^ 2 - 1 / ly) * ((a - b) / lx) * kuu_fn a b c d lx ly :=
  (hasDerivAt_kuu_dyiyi_xj a b c d lx ly).deriv

theorem hasDerivAt_kuu_dxi_yj (a b c d lx ly : ℝ) :
    HasDerivAt (fun d1 => kuu_dxi a b c d1 lx ly)
      (-((a - b) / lx) * ((c - d) / ly) * kuu_fn a b c d lx ly) d := by
  have hfun : (fun d1 => kuu_dxi a b c d1 lx ly) =
      fun d1 => -((a - b) / lx) * kuu_fn a b c d1 lx ly :=
    funext fun d1 => kuu_dxi_eq a b c d1 lx ly
  rw [hfun]
  have h := (hasDerivAt_kuu_yj a b c d lx ly).const_mul (-((a - b) / lx))
  convert h using 1
  ring

theorem kuu_dxiyj_eq (a b c d lx ly : ℝ) :
    kuu_dxiyj a b c d lx ly =
      -((a - b) / lx) * ((c - d) / ly) * kuu_fn a b c d lx ly :=
  (hasDerivAt_kuu_dxi_yj a b c d lx ly).deriv

theorem hasDerivAt_kuu_dxiyj_yj (a b c d lx ly : ℝ) :
    HasDerivAt (fun d1 => kuu_dxiyj a b c d1 lx ly)
      (-((a - b) / lx) * ((c - d) ^ 2 / ly ^ 2 - 1 / ly) * kuu_fn a b c d lx ly)
      d := by
  have hfun : (fun d1 => kuu_dxiyj a b c d1 lx ly) =
      fun d1 => -((a - b) / lx) * ((c - d1) / ly) * kuu_fn a b c d1 lx ly :=
    funext fun d1 => kuu_dxiyj_eq a b c d1 lx ly
  rw [hfun]
  have hP : HasDerivAt (fun d1 : ℝ => -((a - b) / lx) * ((c - d1) / ly))
      (-((a - b) / lx) * (-1 / ly)) d := by
    exact (((hasDerivAt_id d).const_sub c).div_const ly).const_mul (-((a - b) / lx))
  have h := hP.mul (hasDerivAt_kuu_yj a b c d lx ly)
  convert h using 1
  ring

theorem kuu_dxiyjyj_eq (a b c d lx ly : ℝ) :
    kuu_dxiyjyj a b c d lx ly =
      -((a - b) / lx) * ((c - d) ^ 2 / ly ^ 2 - 1 / ly) * kuu_fn a b c d lx ly :=
  (hasDerivAt_kuu_dxiyj_yj a b c d lx ly).deriv

theorem hasDerivAt_kuu_dyiyi_yj (a b c d lx ly : ℝ) :
    HasDerivAt (fun d1 => kuu_dyiyi a b c d1 lx ly)
      (((c - d) ^ 3 / ly ^ 3 - 3 * (c - d) / ly ^ 2) * kuu_fn a b c d lx ly)
      d := by
  have hfun : (fun d1 => kuu_dyiyi a b c d1 lx ly) =
      fun d1 => ((c - d1) ^ 2 / ly ^ 2 - 1 / ly) * kuu_fn a b c d1 lx ly :=
    funext fun d1 => kuu_dyiyi_eq a b c d1 lx ly
  rw [hfun]
  have hP : HasDerivAt (fun d1 : ℝ => (c - d1) ^ 2 / ly ^ 2 - 1 / ly)
      (2 * (c - d) * (-1) / ly ^ 2) d := by
    have h1 : HasDerivAt (fun d1 : ℝ => (c - d1) ^ 2) (2 * (c - d) * (-1)) d := by
      simpa using ((hasDerivAt_id d).const_sub c).pow 2
    exact (h1.div_const (ly ^ 2)).sub_const (1 / ly)
  have h := hP.mul (hasDerivAt_kuu_yj a b c d lx ly)
  convert h using 1
  ring

theorem kuu_dyiyiyj_eq (a b c d lx ly : ℝ) :
    kuu_dyiyiyj a b c d lx ly =
      ((c - d) ^ 3 / ly ^ 3 - 3 * (c - d) / ly ^ 2) * kuu_fn a b c d lx ly :=
  (hasDerivAt_kuu_dyiyi_yj a b c d lx ly).deriv

theorem hasDerivAt_kuu_dyiyiyj_yj (a b c d lx ly : ℝ) :
    HasDerivAt (fun d1 => kuu_dyiyiyj a b c d1 lx ly)
      (((c - d) ^ 4 / ly ^ 4 - 6 * (c - d) ^ 2 / ly ^ 3 + 3 / ly ^ 2) *
        kuu_fn a b c d lx ly) d := by
  have hfun : (fun d1 => kuu_dyiyiyj a b c d1 lx ly) =
      fun d1 => ((c - d1) ^ 3 / ly ^ 3 - 3 * (c - d1) / ly ^ 2) *
        kuu_fn a b c d1 lx ly :=
    funext fun d1 => kuu_dyiyiyj_eq a b c d1 lx ly
  rw [hfun]
  have hP : HasDerivAt
      (fun d1 : ℝ => (c - d1) ^ 3 / ly ^ 3 - 3 * (c - d1) / ly ^ 2)
      (3 * (c - d) ^ 2 * (-1) / ly ^ 3 - 3 * (-1) / ly ^ 2) d := by
    have h1 : HasDerivAt (fun d1 : ℝ => (c - d1) ^ 3) (3 * (c - d) ^ 2 * (-1)) d := by
      simpa using ((hasDerivAt_id d).const_sub c).pow 3
    have h2 : HasDerivAt (fun d1 : ℝ => 3 * (c - d1)) (3 * (-1)) d := by
      simpa using ((hasDerivAt_id d).const_sub c).const_mul (3 : ℝ)
    exact (h1.div_const (ly ^ 3)).sub (h2.div_const (ly ^ 2))
  have h := hP.mul (hasDerivAt_kuu_yj a b c d lx ly)
  convert h using 1
  ring

theorem kuu_dyiyiyjyj_eq (a b c d lx ly : ℝ) :
    kuu_dyiyiyjyj a b c d lx ly =
      ((c - d) ^ 4 / ly ^ 4 - 6 * (c - d) ^ 2 / ly ^ 3 + 3 / ly ^ 2) *
        kuu_fn a b c d lx ly :=
  (hasDerivAt_kuu_dyiyiyj_yj a b c d lx ly).deriv

/-- The closed form of the nine-term `kff` kernel: the four odd terms cancel
in pairs and the evaluator effectively computes an even polynomial times the
base kernel. -/
theorem kff_fn_closed (a b c d lx ly p : ℝ) :
    kff_fn a b c d lx ly p =
      (p ^ 2 + 2 * p * ((c - d) ^ 2 / ly ^ 2 - 1 / ly) +
        (1 / lx - (a - b) ^ 2 / lx ^ 2) +
        ((c - d) ^ 4 / ly ^ 4 - 6 * (c - d) ^ 2 / ly ^ 3 + 3 / ly ^ 2)) *
        kuu_fn a b c d lx ly := by
  rw [kff_fn, kuu_dxi_eq, kuu_dyiyi_eq, kuu_dxj_eq, kuu_dxixj_eq,
    kuu_dyiyixj_eq, kuu_dyjyj_eq, kuu_dxiyjyj_eq, kuu_dyiyiyjyj_eq]
  ring

/-- The closed form of the `kfu` kernel. -/
theorem kfu_fn_closed (a b c d lx ly p : ℝ) :
    kfu_fn a b c d lx ly p =
      (p - (a - b) / lx + ((c - d) ^ 2 / ly ^ 2 - 1 / ly)) *
        kuu_fn a b c d lx ly := by
  rw [kfu_fn, kuu_dxi_eq, kuu_dyiyi_eq]
  ring

/-- Symmetry of the base kernel under swapping the two sample points. -/
theorem kuu_fn_swap (a b c d lx ly : ℝ) :
    kuu_fn b a d c lx ly = kuu_fn a b c d lx ly := by
  rw [kuu_fn, kuu_fn]
  congr 1
  ring

/-- Symmetry of the operator-squared kernel under swapping the two sample
points. -/
theorem kff_fn_swap (a b c d lx ly p : ℝ) :
    kff_fn b a d c lx ly p = kff_fn a b c d lx ly p := by
  rw [kff_fn_closed, kff_fn_closed, kuu_fn_swap]
  ring

/-! ### Symmetry of the kernel matrices -/

theorem kuuMat_transpose (n : ℕ) (x y : Fin n → ℝ) (lx ly : ℝ) :
    (kuuMat n x y lx ly)ᵀ = kuuMat n x y lx ly := by
  ext i j
  simp only [Matrix.transpose_apply, kuuMat, Matrix.of_apply]
  exact kuu_fn_swap (x i) (x j) (y i) (y j) lx ly

theorem kffMat_transpose (n : ℕ) (x y : Fin n → ℝ) (lx ly p : ℝ) :
    (kffMat n x y lx ly p)ᵀ = kffMat n x y lx ly p := by
  ext i j
  simp only [Matrix.transpose_apply, kffMat, Matrix.of_apply]
  exact kff_fn_swap (x i) (x j) (y i) (y j) lx ly p

theorem uuBlock_transpose (n : ℕ) (x y : Fin n → ℝ) (s lx ly : ℝ) :
    (kuuMat n x y lx ly + s • 1)ᵀ = kuuMat n x y lx ly + s • 1 := by
  rw [Matrix.transpose_add, kuuMat_transpose, Matrix.transpose_smul,
    Matrix.transpose_one]

theorem ffBlock_transpose (n : ℕ) (x y : Fin n → ℝ) (s lx ly p : ℝ) :
    (kffMat n x y lx ly p + s • 1)ᵀ = kffMat n x y lx ly p + s • 1 := by
  rw [Matrix.transpose_add, kffMat_transpose, Matrix.transpose_smul,
    Matrix.transpose_one]

theorem Kblock_transpose (n : ℕ) (x y : Fin n → ℝ) (s lx ly p : ℝ) :
    (Kblock n x y s lx ly p)ᵀ = Kblock n x y s lx ly p := by
  rw [Kblock, Matrix.fromBlocks_transpose, uuBlock_transpose, ffBlock_transpose,
    kufMat, Matrix.transpose_transpose]

/-- C5. Every assembled joint covariance matrix is symmetric: the uu and ff
blocks are symmetric matrices, the uf block is exactly the transpose of the
fu block (computed once and transposed, never re-evaluated), and hence
`K = Kᵀ`. -/
theorem joint_covariance_symmetric (n : ℕ) (x y : Fin n → ℝ) (lx ly p s : ℝ) :
    (kuuMat n x y lx ly).IsSymm ∧ (kffMat n x y lx ly p).IsSymm ∧
      kufMat n x y lx ly p = (kfuMat n x y lx ly p)ᵀ ∧
      (Kblock n x y s lx ly p).IsSymm :=
  ⟨kuuMat_transpose n x y lx ly, kffMat_transpose n x y lx ly p, rfl,
    Kblock_transpose n x y s lx ly p⟩

/-! ### The noise term on the diagonal blocks (C6) -/

/-- C6 counterexample: the 2D-Matérn notebook sets its noise constant to
zero, so in that notebook's construction of the joint covariance matrix the
noise term is dropped even though noiseless data is simulated. -/
theorem matern_noise_term_zero : matern_s = 0 ∧ ¬ 0 < matern_s :=
  ⟨rfl, by rw [matern_s]; exact lt_irrefl 0⟩

/-- C6 amended. In the joint covariance matrix the noise `s` is added to the
diagonal entries of the uu and ff blocks and to no other entries; the noise
constant is the strictly positive `1e-7` in part_000 and in
part_002/advection_diffusion, but is `0` in the 2D-Matérn notebook. -/
theorem noise_only_on_diagonal_of_self_blocks (n : ℕ) (x y : Fin n → ℝ)
    (s lx ly p : ℝ) (i j : Fin n) :
    (Kblock n x y s lx ly p (Sum.inl i) (Sum.inl j) =
        kuuMat n x y lx ly i j + (if i = j then s else 0)) ∧
      (Kblock n x y s lx ly p (Sum.inr i) (Sum.inr j) =
        kffMat n x y lx ly p i j + (if i = j then s else 0)) ∧
      Kblock n x y s lx ly p (Sum.inl i) (Sum.inr j) = kufMat n x y lx ly p i j ∧
      Kblock n x y s lx ly p (Sum.inr i) (Sum.inl j) = kfuMat n x y lx ly p i j ∧
      0 < part000_s ∧ 0 < advection_s ∧ matern_s = 0 := by
  refine ⟨?_, ?_, rfl, rfl, by rw [part000_s]; norm_num,
    by rw [advection_s]; norm_num, rfl⟩
  · show (kuuMat n x y lx ly + s • 1) i j = _
    simp [Matrix.one_apply, mul_ite]
  · show (kffMat n x y lx ly p + s • 1) i j = _
    simp [Matrix.one_apply, mul_ite]

/-! ### Whole-matrix inversion versus block inversion (C3) -/

theorem cholesky_inv_eq {m : ℕ} (M L : Matrix (Fin m) (Fin m) ℝ)
    (hM : Mᵀ = M) (hL : cholesky M = some L) : (L⁻¹)ᵀ * L⁻¹ = M⁻¹ := by
  rw [← cholesky_mul_transpose M L hM hL, Matrix.mul_inv_rev,
    Matrix.transpose_nonsing_inv]

theorem cholesky_isUnit_det_self {m : ℕ} (M L : Matrix (Fin m) (Fin m) ℝ)
    (hM : Mᵀ = M) (hL : cholesky M = some L) : IsUnit M.det := by
  rw [← cholesky_mul_transpose M L hM hL, Matrix.det_mul, Matrix.det_transpose]
  exact (mul_pos (cholesky_det_pos M L hL) (cholesky_det_pos M L hL)).ne.symm.isUnit

theorem invAndDetBlock_of_some {m : ℕ} (M L : Matrix (Fin m) (Fin m) ℝ)
    (hL : cholesky M = some L) :
    invAndDetBlock M = some ((L⁻¹)ᵀ * L⁻¹, ∏ i, (L i i) ^ 2) := by
  rw [invAndDetBlock, hL, Option.elim_some]

theorem det_fromBlocks_schur {m : ℕ} (A B C : Matrix (Fin m) (Fin m) ℝ)
    (hdA : IsUnit A.det) :
    (fromBlocks A B Bᵀ C).det = A.det * (schurS A B C).det := by
  haveI := A.invertibleOfIsUnitDet hdA
  rw [Matrix.det_fromBlocks₁₁, Matrix.invOf_eq_nonsing_inv, schurS]

theorem append_comp_finSumFinEquiv {n : ℕ} (u v : Fin n → ℝ) :
    (Fin.append u v) ∘ ⇑finSumFinEquiv = Sum.elim u v := by
  funext z
  cases z with
  | inl i => simp [finSumFinEquiv_apply_left]
  | inr i =>
      simp only [Function.comp_apply, finSumFinEquiv_apply_right, Sum.elim_inr]
      exact Fin.append_right u v i

theorem append_dot_reindex {n : ℕ} (M : Matrix (Fin n ⊕ Fin n) (Fin n ⊕ Fin n) ℝ)
    (u v : Fin n → ℝ) :
    Fin.append u v ⬝ᵥ (Matrix.reindex finSumFinEquiv finSumFinEquiv M) *ᵥ
        Fin.append u v =
      Sum.elim u v ⬝ᵥ M *ᵥ Sum.elim u v := by
  rw [Matrix.reindex_apply, Matrix.submatrix_mulVec_equiv,
    Matrix.dotProduct_comp_equiv_symm]
  rw [Equiv.symm_symm, append_comp_finSumFinEquiv]

theorem dot_transpose_mulVec {m : ℕ} (T : Matrix (Fin m) (Fin m) ℝ)
    (u v : Fin m → ℝ) : v ⬝ᵥ Tᵀ *ᵥ u = u ⬝ᵥ T *ᵥ v := by
  rw [Matrix.mulVec_transpose, dotProduct_comm]
  exact (Matrix.dotProduct_mulVec u T v).symm

/-- The quadratic form of the assembled block inverse expands to the
`factor` expression computed by `nlml_block`. -/
theorem quad_blockKinv {m : ℕ} (A B C : Matrix (Fin m) (Fin m) ℝ)
    (u v : Fin m → ℝ) :
    Sum.elim u v ⬝ᵥ blockKinv A B C *ᵥ Sum.elim u v =
      u ⬝ᵥ (A⁻¹ + blockT A B C * Bᵀ * A⁻¹) *ᵥ u -
        2 * (u ⬝ᵥ blockT A B C *ᵥ v) + v ⬝ᵥ (schurS A B C)⁻¹ *ᵥ v := by
  rw [blockKinv, Matrix.fromBlocks_mulVec, Matrix.sum_elim_dotProduct_sum_elim]
  simp only [Sum.elim_comp_inl, Sum.elim_comp_inr, Matrix.neg_mulVec,
    Matrix.dotProduct_add, Matrix.dotProduct_neg]
  rw [dot_transpose_mulVec (blockT A B C) u v]
  ring

/-- C3. For every sample data set and hyperparameter vector at which all
three Cholesky factorizations succeed (the whole `2n × 2n` matrix for
`nlml`, and `A` and the Schur complement `KA` for `nlml_block`), the
whole-matrix objective `nlml` and the block objective `nlml_block` of the
determinant-maximization notebook return equal values. -/
theorem nlml_eq_nlml_block {n : ℕ} (x y yu yf : Fin n → ℝ) (s : ℝ)
    (params : Fin 3 → ℝ)
    (L : Matrix (Fin (n + n)) (Fin (n + n)) ℝ)
    (LA LK : Matrix (Fin n) (Fin n) ℝ)
    (hL : cholesky (Kfull n x y s (Real.exp (params 0)) (Real.exp (params 1))
      (params 2)) = some L)
    (hLA : cholesky (kuuMat n x y (Real.exp (params 0)) (Real.exp (params 1))
      + s • 1) = some LA)
    (hLK : cholesky (schurS
      (kuuMat n x y (Real.exp (params 0)) (Real.exp (params 1)) + s • 1)
      (kufMat n x y (Real.exp (params 0)) (Real.exp (params 1)) (params 2))
      (kffMat n x y (Real.exp (params 0)) (Real.exp (params 1)) (params 2)
        + s • 1)) = some LK) :
    nlml n x y yu yf s params = nlml_block n x y yu yf s params := by
  have hAs : (kuuMat n x y (Real.exp (params 0)) (Real.exp (params 1)) + s • 1)ᵀ =
      kuuMat n x y (Real.exp (params 0)) (Real.exp (params 1)) + s • 1 :=
    uuBlock_transpose n x y s _ _
  have hCs : (kffMat n x y (Real.exp (params 0)) (Real.exp (params 1)) (params 2)
        + s • 1)ᵀ =
      kffMat n x y (Real.exp (params 0)) (Real.exp (params 1)) (params 2) + s • 1 :=
    ffBlock_transpose n x y s _ _ _
  have hAinv : (LA⁻¹)ᵀ * LA⁻¹ =
      (kuuMat n x y (Real.exp (params 0)) (Real.exp (params 1)) + s • 1)⁻¹ :=
    cholesky_inv_eq _ LA hAs hLA
  have hAdet : IsUnit
      (kuuMat n x y (Real.exp (params 0)) (Real.exp (params 1)) + s • 1).det :=
    cholesky_isUnit_det_self _ LA hAs hLA
  have hSs := schurS_transpose
    (kuuMat n x y (Real.exp (params 0)) (Real.exp (params 1)) + s • 1)
    (kufMat n x y (Real.exp (params 0)) (Real.exp (params 1)) (params 2))
    (kffMat n x y (Real.exp (params 0)) (Real.exp (params 1)) (params 2) + s • 1)
    hAs hCs
  have hSinv : (LK⁻¹)ᵀ * LK⁻¹ = (schurS
      (kuuMat n x y (Real.exp (params 0)) (Real.exp (params 1)) + s • 1)
      (kufMat n x y (Real.exp (params 0)) (Real.exp (params 1)) (params 2))
      (kffMat n x y (Real.exp (params 0)) (Real.exp (params 1)) (params 2)
        + s • 1))⁻¹ :=
    cholesky_inv_eq _ LK hSs hLK
  have hSdet := cholesky_isUnit_det_self _ LK hSs hLK
  have hKfs : (Kfull n x y s (Real.exp (params 0)) (Real.exp (params 1))
        (params 2))ᵀ =
      Kfull n x y s (Real.exp (params 0)) (Real.exp (params 1)) (params 2) := by
    rw [Kfull, Matrix.transpose_reindex, Kblock_transpose]
  have hLfac := cholesky_mul_transpose _ L hKfs hL
  have hKinv := cholesky_inv_eq _ L hKfs hL
  have hKb : Kblock n x y s (Real.exp (params 0)) (Real.exp (params 1)) (params 2) =
      fromBlocks (kuuMat n x y (Real.exp (params 0)) (Real.exp (params 1)) + s • 1)
        (kufMat n x y (Real.exp (params 0)) (Real.exp (params 1)) (params 2))
        (kufMat n x y (Real.exp (params 0)) (Real.exp (params 1)) (params 2))ᵀ
        (kffMat n x y (Real.exp (params 0)) (Real.exp (params 1)) (params 2)
          + s • 1) := by
    rw [Kblock, ← Matrix.transpose_transpose
      (kfuMat n x y (Real.exp (params 0)) (Real.exp (params 1)) (params 2))]
    rfl
  have hKbinv := Matrix.inv_eq_right_inv (fromBlocks_mul_blockKinv
    (kuuMat n x y (Real.exp (params 0)) (Real.exp (params 1)) + s • 1)
    (kufMat n x y (Real.exp (params 0)) (Real.exp (params 1)) (params 2))
    (kffMat n x y (Real.exp (params 0)) (Real.exp (params 1)) (params 2) + s • 1)
    hAs hCs hAdet hSdet)
  -- evaluate the whole-matrix objective
  rw [nlml, hL, Option.elim_some]
  have hquad : yCon n yu yf ⬝ᵥ ((L⁻¹)ᵀ * L⁻¹) *ᵥ yCon n yu yf =
      Sum.elim yu yf ⬝ᵥ (blockKinv
        (kuuMat n x y (Real.exp (params 0)) (Real.exp (params 1)) + s • 1)
        (kufMat n x y (Real.exp (params 0)) (Real.exp (params 1)) (params 2))
        (kffMat n x y (Real.exp (params 0)) (Real.exp (params 1)) (params 2)
          + s • 1)) *ᵥ Sum.elim yu yf := by
    rw [hKinv, Kfull, Matrix.inv_reindex, yCon, append_dot_reindex, hKb, hKbinv]
  rw [hquad, hLfac]
  -- evaluate the block objective
  rw [nlml_block, invAndDetBlock_of_some _ LA hLA, Option.some_bind]
  dsimp only
  have hKAeq : kffMat n x y (Real.exp (params 0)) (Real.exp (params 1)) (params 2)
        + s • 1 -
        ((kfuMat n x y (Real.exp (params 0)) (Real.exp (params 1)) (params 2))ᵀ)ᵀ *
          ((LA⁻¹)ᵀ * LA⁻¹) *
          (kfuMat n x y (Real.exp (params 0)) (Real.exp (params 1)) (params 2))ᵀ =
      schurS (kuuMat n x y (Real.exp (params 0)) (Real.exp (params 1)) + s • 1)
        (kufMat n x y (Real.exp (params 0)) (Real.exp (params 1)) (params 2))
        (kffMat n x y (Real.exp (params 0)) (Real.exp (params 1)) (params 2)
          + s • 1) := by
    rw [hAinv, Matrix.transpose_transpose, schurS, kufMat,
      Matrix.transpose_transpose]
  rw [hKAeq, invAndDetBlock_of_some _ LK hLK, Option.some_bind]
  dsimp only
  rw [hAinv, hSinv]
  -- identify the factor with the quadratic form of the assembled inverse
  have hfoldB : (kfuMat n x y (Real.exp (params 0)) (Real.exp (params 1))
      (params 2))ᵀ =
      kufMat n x y (Real.exp (params 0)) (Real.exp (params 1)) (params 2) := rfl
  rw [hfoldB]
  have hfoldT : (kuuMat n x y (Real.exp (params 0)) (Real.exp (params 1))
        + s • 1)⁻¹ *
        kufMat n x y (Real.exp (params 0)) (Real.exp (params 1)) (params 2) *
        (schurS (kuuMat n x y (Real.exp (params 0)) (Real.exp (params 1)) + s • 1)
          (kufMat n x y (Real.exp (params 0)) (Real.exp (params 1)) (params 2))
          (kffMat n x y (Real.exp (params 0)) (Real.exp (params 1)) (params 2)
            + s • 1))⁻¹ =
      blockT (kuuMat n x y (Real.exp (params 0)) (Real.exp (params 1)) + s • 1)
        (kufMat n x y (Real.exp (params 0)) (Real.exp (params 1)) (params 2))
        (kffMat n x y (Real.exp (params 0)) (Real.exp (params 1)) (params 2)
          + s • 1) := rfl
  rw [hfoldT, ← Matrix.transpose_transpose
    (kufMat n x y (Real.exp (params 0)) (Real.exp (params 1)) (params 2)),
    ← quad_blockKinv]
  rw [Matrix.transpose_transpose]
  -- both sides are now powers of the same scalar times the block determinants
  congr 1
  rw [Matrix.det_smul, Matrix.det_smul, Matrix.det_smul, Kfull,
    Matrix.det_reindex_self, hKb,
    det_fromBlocks_schur _ _ _ hAdet]
  simp only [Fintype.card_fin]
  rw [pow_add]
  ring

theorem cholesky_fin_two_diag (a b : ℝ) (ha : 0 < a) (hb : 0 < b) :
    cholesky !![a, 0; 0, b] = some !![Real.sqrt a, 0; 0, Real.sqrt b] := by
  rw [cholesky_succ]
  rw [if_pos (show (0 : ℝ) < !![a, 0; 0, b] 0 0 from ha)]
  have hS : cholSchur !![a, 0; 0, b] = !![b] := by
    ext i j
    fin_cases i
    fin_cases j
    show !![a, 0; 0, b] 1 1 -
      !![a, 0; 0, b] 1 0 / Real.sqrt (!![a, 0; 0, b] 0 0) *
        (!![a, 0; 0, b] 1 0 / Real.sqrt (!![a, 0; 0, b] 0 0)) = b
    norm_num
  rw [hS, cholesky_fin_one, if_pos hb, Option.map_some']
  congr 1
  ext i j
  fin_cases i
  · fin_cases j
    · rfl
    · show cholAssemble (Real.sqrt (!![a, 0; 0, b] 0 0)) _ _ 0 (0 : Fin 1).succ = 0
      rw [cholAssemble_zero_succ]
  · fin_cases j
    · show cholAssemble (Real.sqrt (!![a, 0; 0, b] 0 0)) _ _ (0 : Fin 1).succ 0 =
        !![Real.sqrt a, 0; 0, Real.sqrt b] 1 0
      rw [cholAssemble_succ_zero]
      norm_num
    · show cholAssemble (Real.sqrt (!![a, 0; 0, b] 0 0)) _ _
        (0 : Fin 1).succ (0 : Fin 1).succ = !![Real.sqrt a, 0; 0, Real.sqrt b] 1 1
      rw [cholAssemble_succ_succ]
      norm_num

theorem reindex_fromBlocks_fin_one (a b c d : ℝ) :
    Matrix.reindex finSumFinEquiv finSumFinEquiv
      (fromBlocks !![a] !![b] !![c] !![d]) = !![a, b; c, d] := by
  ext i j
  fin_cases i
  · fin_cases j
    · rfl
    · rfl
  · fin_cases j
    · rfl
    · rfl

/-- Witness for C3: one sample point at the origin, `s = 0`,
`params = (0, 0, 1)`.  All three Cholesky factorizations succeed with
explicit factors, and the two objectives agree. -/
theorem nlml_eq_nlml_block_witness :
    (cholesky (Kfull 1 ![0] ![0] 0 (Real.exp (![(0 : ℝ), 0, 1] 0))
        (Real.exp (![(0 : ℝ), 0, 1] 1)) (![(0 : ℝ), 0, 1] 2)) =
          some !![1, 0; 0, Real.sqrt 3] ∧
      cholesky (kuuMat 1 ![0] ![0] (Real.exp (![(0 : ℝ), 0, 1] 0))
        (Real.exp (![(0 : ℝ), 0, 1] 1)) + (0 : ℝ) • 1) = some !![1] ∧
      cholesky (schurS
        (kuuMat 1 ![0] ![0] (Real.exp (![(0 : ℝ), 0, 1] 0))
          (Real.exp (![(0 : ℝ), 0, 1] 1)) + (0 : ℝ) • 1)
        (kufMat 1 ![0] ![0] (Real.exp (![(0 : ℝ), 0, 1] 0))
          (Real.exp (![(0 : ℝ), 0, 1] 1)) (![(0 : ℝ), 0, 1] 2))
        (kffMat 1 ![0] ![0] (Real.exp (![(0 : ℝ), 0, 1] 0))
          (Real.exp (![(0 : ℝ), 0, 1] 1)) (![(0 : ℝ), 0, 1] 2) + (0 : ℝ) • 1)) =
          some !![Real.sqrt 3]) ∧
    nlml 1 ![0] ![0] ![0] ![0] 0 ![0, 0, 1] =
      nlml_block 1 ![0] ![0] ![0] ![0] 0 ![0, 0, 1] := by
  have he0 : Real.exp (![(0 : ℝ), 0, 1] 0) = 1 := by
    rw [show (![(0 : ℝ), 0, 1] 0) = 0 from rfl, Real.exp_zero]
  have he1 : Real.exp (![(0 : ℝ), 0, 1] 1) = 1 := by
    rw [show (![(0 : ℝ), 0, 1] 1) = 0 from rfl, Real.exp_zero]
  have hp2 : (![(0 : ℝ), 0, 1] 2) = 1 := rfl
  have hkuu : kuu_fn 0 0 0 0 1 1 = 1 := by
    rw [kuu_fn]
    norm_num
  have hkfu : kfu_fn 0 0 0 0 1 1 1 = 0 := by
    rw [kfu_fn_closed, hkuu]
    norm_num
  have hkff : kff_fn 0 0 0 0 1 1 1 = 3 := by
    rw [kff_fn_closed, hkuu]
    norm_num
  have hAmat : kuuMat 1 ![0] ![0] 1 1 + (0 : ℝ) • 1 = !![1] := by
    ext i j
    fin_cases i
    fin_cases j
    show kuu_fn (![(0 : ℝ)] 0) (![(0 : ℝ)] 0) (![(0 : ℝ)] 0) (![(0 : ℝ)] 0) 1 1 +
      ((0 : ℝ) • (1 : Matrix (Fin 1) (Fin 1) ℝ)) 0 0 = 1
    rw [show (![(0 : ℝ)] 0) = 0 from rfl, hkuu]
    simp
  have hkfuMat : kfuMat 1 ![0] ![0] 1 1 1 = !![0] := by
    ext i j
    fin_cases i
    fin_cases j
    show kfu_fn (![(0 : ℝ)] 0) (![(0 : ℝ)] 0) (![(0 : ℝ)] 0) (![(0 : ℝ)] 0) 1 1 1 = 0
    rw [show (![(0 : ℝ)] 0) = 0 from rfl, hkfu]
  have hBmat : kufMat 1 ![0] ![0] 1 1 1 = !![0] := by
    rw [kufMat, hkfuMat]
    ext i j
    fin_cases i
    fin_cases j
    rfl
  have hCmat : kffMat 1 ![0] ![0] 1 1 1 + (0 : ℝ) • 1 = !![3] := by
    ext i j
    fin_cases i
    fin_cases j
    show kff_fn (![(0 : ℝ)] 0) (![(0 : ℝ)] 0) (![(0 : ℝ)] 0) (![(0 : ℝ)] 0) 1 1 1 +
      ((0 : ℝ) • (1 : Matrix (Fin 1) (Fin 1) ℝ)) 0 0 = 3
    rw [show (![(0 : ℝ)] 0) = 0 from rfl, hkff]
    simp
  have hSmat : schurS !![(1 : ℝ)] !![0] !![3] = !![3] := by
    ext i j
    fin_cases i
    fin_cases j
    simp [schurS, Matrix.mul_apply, Fin.sum_univ_succ]
  have h2 : cholesky (kuuMat 1 ![0] ![0] (Real.exp (![(0 : ℝ), 0, 1] 0))
      (Real.exp (![(0 : ℝ), 0, 1] 1)) + (0 : ℝ) • 1) = some !![1] := by
    rw [he0, he1, hAmat, cholesky_fin_one, if_pos (by norm_num : (0 : ℝ) < 1),
      Real.sqrt_one]
  have h3 : cholesky (schurS
      (kuuMat 1 ![0] ![0] (Real.exp (![(0 : ℝ), 0, 1] 0))
        (Real.exp (![(0 : ℝ), 0, 1] 1)) + (0 : ℝ) • 1)
      (kufMat 1 ![0] ![0] (Real.exp (![(0 : ℝ), 0, 1] 0))
        (Real.exp (![(0 : ℝ), 0, 1] 1)) (![(0 : ℝ), 0, 1] 2))
      (kffMat 1 ![0] ![0] (Real.exp (![(0 : ℝ), 0, 1] 0))
        (Real.exp (![(0 : ℝ), 0, 1] 1)) (![(0 : ℝ), 0, 1] 2) + (0 : ℝ) • 1)) =
      some !![Real.sqrt 3] := by
    rw [he0, he1, hp2, hAmat, hBmat, hCmat, hSmat, cholesky_fin_one,
      if_pos (by norm_num : (0 : ℝ) < 3)]
  have h1 : cholesky (Kfull 1 ![0] ![0] 0 (Real.exp (![(0 : ℝ), 0, 1] 0))
      (Real.exp (![(0 : ℝ), 0, 1] 1)) (![(0 : ℝ), 0, 1] 2)) =
      some !![1, 0; 0, Real.sqrt 3] := by
    rw [he0, he1, hp2, Kfull, Kblock, hAmat, hBmat, hkfuMat, hCmat,
      reindex_fromBlocks_fin_one,
      cholesky_fin_two_diag 1 3 (by norm_num) (by norm_num), Real.sqrt_one]
  exact ⟨⟨h1, h2, h3⟩,
    nlml_eq_nlml_block ![0] ![0] ![0] ![0] 0 ![0, 0, 1] !![1, 0; 0, Real.sqrt 3]
      !![1] !![Real.sqrt 3] h1 h2 h3⟩

/-! ### The part_001 kernels are the part_000 kernels scaled by `sigma` -/

theorem kuu1_dxi_eq (a b c d sg lx ly : ℝ) :
    kuu1_dxi a b c d sg lx ly = sg * kuu_dxi a b c d lx ly := by
  rw [kuu1_dxi, show (fun a1 => kuu1_fn a1 b c d sg lx ly) =
      fun a1 => sg * kuu_fn a1 b c d lx ly from rfl,
    ((hasDerivAt_kuu_xi a b c d lx ly).const_mul sg).deriv, kuu_dxi_eq]

theorem kuu1_dxj_eq (a b c d sg lx ly : ℝ) :
    kuu1_dxj a b c d sg lx ly = sg * kuu_dxj a b c d lx ly := by
  rw [kuu1_dxj, show (fun b1 => kuu1_fn a b1 c d sg lx ly) =
      fun b1 => sg * kuu_fn a b1 c d lx ly from rfl,
    ((hasDerivAt_kuu_xj a b c d lx ly).const_mul sg).deriv, kuu_dxj_eq]

theorem kuu1_dyi_eq (a b c d sg lx ly : ℝ) :
    kuu1_dyi a b c d sg lx ly = sg * kuu_dyi a b c d lx ly := by
  rw [kuu1_dyi, show (fun c1 => kuu1_fn a b c1 d sg lx ly) =
      fun c1 => sg * kuu_fn a b c1 d lx ly from rfl,
    ((hasDerivAt_kuu_yi a b c d lx ly).const_mul sg).deriv, kuu_dyi_eq]

theorem kuu1_dyiyi_eq (a b c d sg lx ly : ℝ) :
    kuu1_dyiyi a b c d sg lx ly = sg * kuu_dyiyi a b c d lx ly := by
  rw [kuu1_dyiyi, show (fun c1 => kuu1_dyi a b c1 d sg lx ly) =
      fun c1 => sg * kuu_dyi a b c1 d lx ly from
      funext fun c1 => kuu1_dyi_eq a b c1 d sg lx ly,
    ((hasDerivAt_kuu_dyi_yi a b c d lx ly).const_mul sg).deriv, kuu_dyiyi_eq]

theorem kuu1_dyj_eq (a b c d sg lx ly : ℝ) :
    kuu1_dyj a b c d sg lx ly = sg * kuu_dyj a b c d lx ly := by
  rw [kuu1_dyj, show (fun d1 => kuu1_fn a b c d1 sg lx ly) =
      fun d1 => sg * kuu_fn a b c d1 lx ly from rfl,
    ((hasDerivAt_kuu_yj a b c d lx ly).const_mul sg).deriv, kuu_dyj_eq]

theorem kuu1_dyjyj_eq (a b c d sg lx ly : ℝ) :
    kuu1_dyjyj a b c d sg lx ly = sg * kuu_dyjyj a b c d lx ly := by
  rw [kuu1_dyjyj, show (fun d1 => kuu1_dyj a b c d1 sg lx ly) =
      fun d1 => sg * kuu_dyj a b c d1 lx ly from
      funext fun d1 => kuu1_dyj_eq a b c d1 sg lx ly,
    ((hasDerivAt_kuu_dyj_yj a b c d lx ly).const_mul sg).deriv, kuu_dyjyj_eq]

theorem kuu1_dxixj_eq (a b c d sg lx ly : ℝ) :
    kuu1_dxixj a b c d sg lx ly = sg * kuu_dxixj a b c d lx ly := by
  rw [kuu1_dxixj, show (fun b1 => kuu1_dxi a b1 c d sg lx ly) =
      fun b1 => sg * kuu_dxi a b1 c d lx ly from
      funext fun b1 => kuu1_dxi_eq a b1 c d sg lx ly,
    ((hasDerivAt_kuu_dxi_xj a b c d lx ly).const_mul sg).deriv, kuu_dxixj_eq]

theorem kuu1_dyiyixj_eq (a b c d sg lx ly : ℝ) :
    kuu1_dyiyixj a b c d sg lx ly = sg * kuu_dyiyixj a b c d lx ly := by
  rw [kuu1_dyiyixj, show (fun b1 => kuu1_dyiyi a b1 c d sg lx ly) =
      fun b1 => sg * kuu_dyiyi a b1 c d lx ly from
      funext fun b1 => kuu1_dyiyi_eq a b1 c d sg lx ly,
    ((hasDerivAt_kuu_dyiyi_xj a b c d lx ly).const_mul sg).deriv, kuu_dyiyixj_eq]

theorem kuu1_dxiyj_eq (a b c d sg lx ly : ℝ) :
    kuu1_dxiyj a b c d sg lx ly = sg * kuu_dxiyj a b c d lx ly := by
  rw [kuu1_dxiyj, show (fun d1 => kuu1_dxi a b c d1 sg lx ly) =
      fun d1 => sg * kuu_dxi a b c d1 lx ly from
      funext fun d1 => kuu1_dxi_eq a b c d1 sg lx ly,
    ((hasDerivAt_kuu_dxi_yj a b c d lx ly).const_mul sg).deriv, kuu_dxiyj_eq]

theorem kuu1_dxiyjyj_eq (a b c d sg lx ly : ℝ) :
    kuu1_dxiyjyj a b c d sg lx ly = sg * kuu_dxiyjyj a b c d lx ly := by
  rw [kuu1_dxiyjyj, show (fun d1 => kuu1_dxiyj a b c d1 sg lx ly) =
      fun d1 => sg * kuu_dxiyj a b c d1 lx ly from
      funext fun d1 => kuu1_dxiyj_eq a b c d1 sg lx ly,
    ((hasDerivAt_kuu_dxiyj_yj a b c d lx ly).const_mul sg).deriv, kuu_dxiyjyj_eq]

theorem kuu1_dyiyiyj_eq (a b c d sg lx ly : ℝ) :
    kuu1_dyiyiyj a b c d sg lx ly = sg * kuu_dyiyiyj a b c d lx ly := by
  rw [kuu1_dyiyiyj, show (fun d1 => kuu1_dyiyi a b c d1 sg lx ly) =
      fun d1 => sg * kuu_dyiyi a b c d1 lx ly from
      funext fun d1 => kuu1_dyiyi_eq a b c d1 sg lx ly,
    ((hasDerivAt_kuu_dyiyi_yj a b c d lx ly).const_mul sg).deriv, kuu_dyiyiyj_eq]

theorem kuu1_dyiyiyjyj_eq (a b c d sg lx ly : ℝ) :
    kuu1_dyiyiyjyj a b c d sg lx ly = sg * kuu_dyiyiyjyj a b c d lx ly := by
  rw [kuu1_dyiyiyjyj, show (fun d1 => kuu1_dyiyiyj a b c d1 sg lx ly) =
      fun d1 => sg * kuu_dyiyiyj a b c d1 lx ly from
      funext fun d1 => kuu1_dyiyiyj_eq a b c d1 sg lx ly,
    ((hasDerivAt_kuu_dyiyiyj_yj a b c d lx ly).const_mul sg).deriv,
    kuu_dyiyiyjyj_eq]

theorem kfu1_fn_eq (a b c d sg lx ly p : ℝ) :
    kfu1_fn a b c d sg lx ly p = sg * kfu_fn a b c d lx ly p := by
  rw [kfu1_fn, kfu_fn, show kuu1_fn a b c d sg lx ly =
      sg * kuu_fn a b c d lx ly from rfl, kuu1_dxi_eq, kuu1_dyiyi_eq]
  ring

theorem kff1_fn_eq (a b c d sg lx ly p : ℝ) :
    kff1_fn a b c d sg lx ly p = sg * kff_fn a b c d lx ly p := by
  rw [kff1_fn, kff_fn, show kuu1_fn a b c d sg lx ly =
      sg * kuu_fn a b c d lx ly from rfl, kuu1_dxi_eq, kuu1_dyiyi_eq,
    kuu1_dxj_eq, kuu1_dxixj_eq, kuu1_dyiyixj_eq, kuu1_dyjyj_eq,
    kuu1_dxiyjyj_eq, kuu1_dyiyiyjyj_eq]
  ring

/-- C2 (bug). At the hyperparameter vector `(0, 0, 0, 1)` with one sample at
the origin, zero observations and `s = 1`, the joint matrix is
`[[2, 0], [0, 4]]` with determinant `8`: part_001's `nlml` returns
`sign(det K) + yᵀK⁻¹y = 1` — the broadcast of the `slogdet` pair followed by
`.item(0)` selects the sign component — while the specified form-A value is
`log det K + yᵀK⁻¹y = log 8 ≠ 1`. -/
theorem nlml_partA_returns_sign_not_logdet :
    nlml_partA 1 ![0, 0, 0, 1] ![0] ![0] ![0] ![0] 1 = 1 ∧
      nlml_partA_claimed 1 ![0, 0, 0, 1] ![0] ![0] ![0] ![0] 1 = Real.log 8 ∧
      Real.log 8 ≠ 1 := by
  have he0 : Real.exp (![(0 : ℝ), 0, 0, 1] 0) = 1 := by
    rw [show (![(0 : ℝ), 0, 0, 1] 0) = 0 from rfl, Real.exp_zero]
  have he1 : Real.exp (![(0 : ℝ), 0, 0, 1] 1) = 1 := by
    rw [show (![(0 : ℝ), 0, 0, 1] 1) = 0 from rfl, Real.exp_zero]
  have he2 : Real.exp (![(0 : ℝ), 0, 0, 1] 2) = 1 := by
    rw [show (![(0 : ℝ), 0, 0, 1] 2) = 0 from rfl, Real.exp_zero]
  have hp3 : (![(0 : ℝ), 0, 0, 1] 3) = 1 := rfl
  have hkuu : kuu_fn 0 0 0 0 1 1 = 1 := by
    rw [kuu_fn]
    norm_num
  have hkfu : kfu_fn 0 0 0 0 1 1 1 = 0 := by
    rw [kfu_fn_closed, hkuu]
    norm_num
  have hkff : kff_fn 0 0 0 0 1 1 1 = 3 := by
    rw [kff_fn_closed, hkuu]
    norm_num
  have hA : kuu1Mat 1 ![0] ![0] 1 1 1 + (1 : ℝ) • 1 = !![2] := by
    ext i j
    fin_cases i
    fin_cases j
    show kuu1_fn (![(0 : ℝ)] 0) (![(0 : ℝ)] 0) (![(0 : ℝ)] 0) (![(0 : ℝ)] 0) 1 1 1 +
      ((1 : ℝ) • (1 : Matrix (Fin 1) (Fin 1) ℝ)) 0 0 = 2
    rw [show (![(0 : ℝ)] 0) = 0 from rfl,
      show kuu1_fn 0 0 0 0 1 1 1 = 1 * kuu_fn 0 0 0 0 1 1 from rfl, hkuu]
    norm_num [Matrix.smul_apply, Matrix.one_apply]
  have hkfuM : kfu1Mat 1 ![0] ![0] 1 1 1 1 = !![0] := by
    ext i j
    fin_cases i
    fin_cases j
    show kfu1_fn (![(0 : ℝ)] 0) (![(0 : ℝ)] 0) (![(0 : ℝ)] 0) (![(0 : ℝ)] 0) 1 1 1 1 = 0
    rw [show (![(0 : ℝ)] 0) = 0 from rfl, kfu1_fn_eq, hkfu]
    ring
  have hkufM : kuf1Mat 1 ![0] ![0] 1 1 1 1 = !![0] := by
    rw [kuf1Mat, hkfuM]
    ext i j
    fin_cases i
    fin_cases j
    rfl
  have hC : kff1Mat 1 ![0] ![0] 1 1 1 1 + (1 : ℝ) • 1 = !![4] := by
    ext i j
    fin_cases i
    fin_cases j
    show kff1_fn (![(0 : ℝ)] 0) (![(0 : ℝ)] 0) (![(0 : ℝ)] 0) (![(0 : ℝ)] 0) 1 1 1 1 +
      ((1 : ℝ) • (1 : Matrix (Fin 1) (Fin 1) ℝ)) 0 0 = 4
    rw [show (![(0 : ℝ)] 0) = 0 from rfl, kff1_fn_eq, hkff]
    norm_num [Matrix.smul_apply, Matrix.one_apply]
  have hK : Kp1 1 ![0] ![0] 1 1 1 1 1 = !![2, 0; 0, 4] := by
    rw [Kp1, hA, hkufM, hkfuM, hC, reindex_fromBlocks_fin_one]
  have hdet : (Kp1 1 ![0] ![0] 1 1 1 1 1).det = 8 := by
    rw [hK, Matrix.det_fin_two_of]
    norm_num
  have hy : Fin.append ![(0 : ℝ)] ![(0 : ℝ)] = (0 : Fin (1 + 1) → ℝ) := by
    funext i
    fin_cases i
    · rfl
    · rfl
  have hlog : Real.log 8 ≠ 1 := by
    intro h
    have hlt : Real.exp 1 < 8 := lt_trans Real.exp_one_lt_d9 (by norm_num)
    rw [← h, Real.exp_log (by norm_num : (0 : ℝ) < 8)] at hlt
    exact lt_irrefl _ hlt
  refine ⟨?_, ?_, hlog⟩
  · rw [nlml_partA, he0, he1, he2, hp3, hdet, hy, Matrix.zero_dotProduct,
      Real.sign_of_pos (by norm_num : (0 : ℝ) < 8)]
    norm_num
  · rw [nlml_partA_claimed, he0, he1, he2, hp3, hdet, hy,
      Matrix.zero_dotProduct]
    norm_num

/-! ### The Cholesky branch of `K_inv_and_det` returns half the log-det (C1) -/

theorem hasDerivAt_kuu3_ti (xi xj yi yj ti tj sg lx ly lt : ℝ) :
    HasDerivAt (fun ti1 => kuu3_fn xi xj yi yj ti1 tj sg lx ly lt)
      (-((ti - tj) / lt) * kuu3_fn xi xj yi yj ti tj sg lx ly lt) ti := by
  have hq : HasDerivAt
      (fun ti1 : ℝ => -1 / (2 * lx) * (xi - xj) ^ 2 - 1 / (2 * ly) * (yi - yj) ^ 2
        - 1 / (2 * lt) * (ti1 - tj) ^ 2) (-((ti - tj) / lt)) ti := by
    have h1 : HasDerivAt (fun ti1 : ℝ => (ti1 - tj) ^ 2) (2 * (ti - tj)) ti := by
      simpa using ((hasDerivAt_id ti).sub_const tj).pow 2
    have h2 := (h1.const_mul (1 / (2 * lt))).const_sub
      (-1 / (2 * lx) * (xi - xj) ^ 2 - 1 / (2 * ly) * (yi - yj) ^ 2)
    convert h2 using 1
    ring
  have h := (hq.exp).const_mul sg
  convert h using 1
  rw [kuu3_fn]
  ring

theorem kuu3_dti_eq (xi xj yi yj ti tj sg lx ly lt : ℝ) :
    kuu3_dti xi xj yi yj ti tj sg lx ly lt =
      -((ti - tj) / lt) * kuu3_fn xi xj yi yj ti tj sg lx ly lt :=
  (hasDerivAt_kuu3_ti xi xj yi yj ti tj sg lx ly lt).deriv

theorem hasDerivAt_kuu3_tj (xi xj yi yj ti tj sg lx ly lt : ℝ) :
    HasDerivAt (fun tj1 => kuu3_fn xi xj yi yj ti tj1 sg lx ly lt)
      ((ti - tj) / lt * kuu3_fn xi xj yi yj ti tj sg lx ly lt) tj := by
  have hq : HasDerivAt
      (fun tj1 : ℝ => -1 / (2 * lx) * (xi - xj) ^ 2 - 1 / (2 * ly) * (yi - yj) ^ 2
        - 1 / (2 * lt) * (ti - tj1) ^ 2) ((ti - tj) / lt) tj := by
    have h1 : HasDerivAt (fun tj1 : ℝ => (ti - tj1) ^ 2) (2 * (ti - tj) * (-1)) tj := by
      simpa using ((hasDerivAt_id tj).const_sub ti).pow 2
    have h2 := (h1.const_mul (1 / (2 * lt))).const_sub
      (-1 / (2 * lx) * (xi - xj) ^ 2 - 1 / (2 * ly) * (yi - yj) ^ 2)
    convert h2 using 1
    ring
  have h := (hq.exp).const_mul sg
  convert h using 1
  rw [kuu3_fn]
  ring

theorem hasDerivAt_kuu3_dti_tj (xi xj yi yj ti tj sg lx ly lt : ℝ) :
    HasDerivAt (fun tj1 => kuu3_dti xi xj yi yj ti tj1 sg lx ly lt)
      ((1 / lt - (ti - tj) ^ 2 / lt ^ 2) * kuu3_fn xi xj yi yj ti tj sg lx ly lt)
      tj := by
  have hfun : (fun tj1 => kuu3_dti xi xj yi yj ti tj1 sg lx ly lt) =
      fun tj1 => -((ti - tj1) / lt) * kuu3_fn xi xj yi yj ti tj1 sg lx ly lt :=
    funext fun tj1 => kuu3_dti_eq xi xj yi yj ti tj1 sg lx ly lt
  rw [hfun]
  have hP : HasDerivAt (fun tj1 : ℝ => -((ti - tj1) / lt)) (1 / lt) tj := by
    have h0 := (((hasDerivAt_id tj).const_sub ti).div_const lt).neg
    convert h0 using 1
    ring
  have h := hP.mul (hasDerivAt_kuu3_tj xi xj yi yj ti tj sg lx ly lt)
  convert h using 1
  ring

theorem kuu3_dtitj_eq (xi xj yi yj ti tj sg lx ly lt : ℝ) :
    kuu3_dtitj xi xj yi yj ti tj sg lx ly lt =
      (1 / lt - (ti - tj) ^ 2 / lt ^ 2) * kuu3_fn xi xj yi yj ti tj sg lx ly lt :=
  (hasDerivAt_kuu3_dti_tj xi xj yi yj ti tj sg lx ly lt).deriv

/-- C1 (bug). At `n = 1`, one sample at the origin,
`sigma = l_x = l_y = l_t = 1`, `a = b = c = d = 0`, `s = 1`, the assembled
joint matrix is `[[2, 0], [0, 2]]` and its Cholesky factorization succeeds.
`K_inv_and_det` then returns the log-determinant value `log 2 = Σ log|L_ii|`,
whereas the true log-determinant of the matrix — `2 Σ log|L_ii|`, the value
the spec prescribes and the value the function's own SVD branch
(`Σ log s_i`) would return — is `2 log 2 = log 4 ≠ log 2`.  The Cholesky
branch is missing the factor `2`. -/
theorem K_inv_and_det_halves_logdet :
    (K_inv_and_det 1 ![0] ![0] ![0] 1 1 1 1 0 0 0 0 1).map Prod.snd =
        some (Real.log 2) ∧
      Real.log ((K_adv 1 ![0] ![0] ![0] 1 1 1 1 0 0 0 0 1).det) =
        2 * Real.log 2 ∧
      Real.log 2 ≠ 2 * Real.log 2 := by
  have hkuu3 : kuu3_fn 0 0 0 0 0 0 1 1 1 1 = 1 := by
    rw [kuu3_fn]
    norm_num
  have hkfu3 : kfu3_fn 0 0 0 0 0 0 1 1 1 1 0 0 0 0 = 0 := by
    rw [kfu3_fn, kuu3_dti_eq, hkuu3]
    ring
  have hkff3 : kff3_fn 0 0 0 0 0 0 1 1 1 1 0 0 0 0 = 1 := by
    rw [kff3_fn, kuu3_dtitj_eq, hkuu3]
    ring
  have hA : kuu3Mat 1 ![0] ![0] ![0] 1 1 1 1 + (1 : ℝ) • 1 = !![2] := by
    ext i j
    fin_cases i
    fin_cases j
    show kuu3_fn (![(0 : ℝ)] 0) (![(0 : ℝ)] 0) (![(0 : ℝ)] 0) (![(0 : ℝ)] 0)
        (![(0 : ℝ)] 0) (![(0 : ℝ)] 0) 1 1 1 1 +
      ((1 : ℝ) • (1 : Matrix (Fin 1) (Fin 1) ℝ)) 0 0 = 2
    rw [show (![(0 : ℝ)] 0) = 0 from rfl, hkuu3]
    norm_num [Matrix.smul_apply, Matrix.one_apply]
  have hkfuM : kfu3Mat 1 ![0] ![0] ![0] 1 1 1 1 0 0 0 0 = !![0] := by
    ext i j
    fin_cases i
    fin_cases j
    show kfu3_fn (![(0 : ℝ)] 0) (![(0 : ℝ)] 0) (![(0 : ℝ)] 0) (![(0 : ℝ)] 0)
      (![(0 : ℝ)] 0) (![(0 : ℝ)] 0) 1 1 1 1 0 0 0 0 = 0
    rw [show (![(0 : ℝ)] 0) = 0 from rfl, hkfu3]
  have hkufM : kuf3Mat 1 ![0] ![0] ![0] 1 1 1 1 0 0 0 0 = !![0] := by
    rw [kuf3Mat, hkfuM]
    ext i j
    fin_cases i
    fin_cases j
    rfl
  have hC : kff3Mat 1 ![0] ![0] ![0] 1 1 1 1 0 0 0 0 + (1 : ℝ) • 1 = !![2] := by
    ext i j
    fin_cases i
    fin_cases j
    show kff3_fn (![(0 : ℝ)] 0) (![(0 : ℝ)] 0) (![(0 : ℝ)] 0) (![(0 : ℝ)] 0)
        (![(0 : ℝ)] 0) (![(0 : ℝ)] 0) 1 1 1 1 0 0 0 0 +
      ((1 : ℝ) • (1 : Matrix (Fin 1) (Fin 1) ℝ)) 0 0 = 2
    rw [show (![(0 : ℝ)] 0) = 0 from rfl, hkff3]
    norm_num [Matrix.smul_apply, Matrix.one_apply]
  have hK : K_adv 1 ![0] ![0] ![0] 1 1 1 1 0 0 0 0 1 = !![2, 0; 0, 2] := by
    rw [K_adv, hA, hkufM, hkfuM, hC, reindex_fromBlocks_fin_one]
  have hchol : cholesky (K_adv 1 ![0] ![0] ![0] 1 1 1 1 0 0 0 0 1) =
      some !![Real.sqrt 2, 0; 0, Real.sqrt 2] := by
    rw [hK]
    exact cholesky_fin_two_diag 2 2 (by norm_num) (by norm_num)
  have hsum : ∑ i, Real.log |(!![Real.sqrt 2, 0; 0, Real.sqrt 2]) i i| =
      Real.log 2 := by
    rw [Fin.sum_univ_two]
    have hs : |Real.sqrt 2| = Real.sqrt 2 :=
      abs_of_pos (Real.sqrt_pos.2 (by norm_num))
    show Real.log |(!![Real.sqrt 2, 0; 0, Real.sqrt 2]) 0 0| +
      Real.log |(!![Real.sqrt 2, 0; 0, Real.sqrt 2]) 1 1| = Real.log 2
    norm_num [hs, Real.log_sqrt]
  refine ⟨?_, ?_, ?_⟩
  · rw [K_inv_and_det, K_inv_and_det_core, hchol, Option.elim_some,
      Option.map_some']
    rw [hsum]
  · rw [hK, Matrix.det_fin_two_of]
    norm_num
    rw [show (4 : ℝ) = 2 ^ 2 by norm_num, Real.log_pow]
    push_cast
    ring
  · have hpos : 0 < Real.log 2 := Real.log_pos (by norm_num)
    intro h
    nlinarith

/-! ### The Matern evaluators perturb only the diagonal (C7) -/

/-- C7. In the Matern-kernel evaluator: every off-diagonal entry of the
`kff` and `kfu` matrices is the kernel evaluated at the exact sample
coordinates; every diagonal entry shifts both coordinates of the second
argument by `corr_nan`; `corr_nan = 1e-4 = 1/10000`; at the shifted
diagonal argument the radius `r_l` is strictly positive (so the evaluation
point is away from the singular point `r_l = 0`), whereas at the exact
diagonal coordinates `r_l` would be `0`. -/
theorem matern_diagonal_perturbation (nn : ℕ) (x y : Fin nn → ℝ)
    (sg lx ly phi : ℝ) (i j : Fin nn) (hlx : 0 < lx) (hly : 0 < ly) :
    (i ≠ j →
        Matern.kff nn x y sg lx ly phi i j =
          Matern.kff_fn (x i) (x j) (y i) (y j) sg lx ly phi ∧
        Matern.kfu nn x y sg lx ly phi i j =
          Matern.kfu_fn (x i) (x j) (y i) (y j) sg lx ly phi) ∧
      Matern.kff nn x y sg lx ly phi i i =
        Matern.kff_fn (x i) (x i + Matern.corr_nan) (y i)
          (y i + Matern.corr_nan) sg lx ly phi ∧
      Matern.kfu nn x y sg lx ly phi i i =
        Matern.kfu_fn (x i) (x i + Matern.corr_nan) (y i)
          (y i + Matern.corr_nan) sg lx ly phi ∧
      Matern.corr_nan = 1 / 10000 ∧
      0 < Matern.r_l (x i) (x i + Matern.corr_nan) (y i)
        (y i + Matern.corr_nan) lx ly ∧
      Matern.r_l (x i) (x i) (y i) (y i) lx ly = 0 := by
  have hc : Matern.corr_nan = 1 / 10000 := by
    rw [Matern.corr_nan]
    norm_num
  refine ⟨fun hij => ⟨?_, ?_⟩, ?_, ?_, hc, ?_, ?_⟩
  · simp only [Matern.kff, Matrix.of_apply, if_neg hij]
  · simp only [Matern.kfu, Matrix.of_apply, if_neg hij]
  · simp only [Matern.kff, Matrix.of_apply, eq_self_iff_true, if_true]
  · simp only [Matern.kfu, Matrix.of_apply, eq_self_iff_true, if_true]
  · rw [Matern.r_l]
    apply Real.sqrt_pos.2
    have h1 : (x i - (x i + Matern.corr_nan)) ^ 2 = Matern.corr_nan ^ 2 := by
      ring
    have h2 : (y i - (y i + Matern.corr_nan)) ^ 2 = Matern.corr_nan ^ 2 := by
      ring
    rw [h1, h2, hc]
    positivity
  · rw [Matern.r_l]
    simp

/-- Witness for C7 at `n = 1`, one sample at the origin, all
hyperparameters `1`. -/
theorem matern_diagonal_perturbation_witness :
    (0 : ℝ) < 1 ∧
      (((0 : Fin 1) ≠ 0 →
          Matern.kff 1 ![0] ![0] 1 1 1 1 0 0 =
            Matern.kff_fn 0 0 0 0 1 1 1 1 ∧
          Matern.kfu 1 ![0] ![0] 1 1 1 1 0 0 =
            Matern.kfu_fn 0 0 0 0 1 1 1 1) ∧
        Matern.kff 1 ![0] ![0] 1 1 1 1 0 0 =
          Matern.kff_fn 0 (0 + Matern.corr_nan) 0 (0 + Matern.corr_nan)
            1 1 1 1 ∧
        Matern.kfu 1 ![0] ![0] 1 1 1 1 0 0 =
          Matern.kfu_fn 0 (0 + Matern.corr_nan) 0 (0 + Matern.corr_nan)
            1 1 1 1 ∧
        Matern.corr_nan = 1 / 10000 ∧
        0 < Matern.r_l 0 (0 + Matern.corr_nan) 0 (0 + Matern.corr_nan) 1 1 ∧
        Matern.r_l 0 0 0 0 1 1 = 0) :=
  ⟨by norm_num,
    matern_diagonal_perturbation 1 ![0] ![0] 1 1 1 1 0 0 (by norm_num)
      (by norm_num)⟩

/-- Witness for C4 at the concrete blocks `A = [[2]]`, `B = [[0]]`,
`C = [[3]]`. -/
theorem blockKinv_eq_inv_and_logdet_witness :
    ((!![(2 : ℝ)]ᵀ = !![2]) ∧ (!![(3 : ℝ)]ᵀ = !![3]) ∧
      IsUnit (Matrix.det !![(2 : ℝ)]) ∧
      IsUnit (schurS !![(2 : ℝ)] !![0] !![3]).det) ∧
    (blockKinv !![(2 : ℝ)] !![0] !![3] =
        (fromBlocks !![(2 : ℝ)] !![0] !![0]ᵀ !![3])⁻¹ ∧
      Real.log |(fromBlocks !![(2 : ℝ)] !![0] !![0]ᵀ !![3]).det| =
        Real.log |Matrix.det !![(2 : ℝ)]| +
          Real.log |(schurS !![(2 : ℝ)] !![0] !![3]).det|) := by
  have h1 : (!![(2 : ℝ)]ᵀ = !![2]) := by
    ext i j
    fin_cases i
    fin_cases j
    rfl
  have h2 : (!![(3 : ℝ)]ᵀ = !![3]) := by
    ext i j
    fin_cases i
    fin_cases j
    rfl
  have h3 : IsUnit (Matrix.det !![(2 : ℝ)]) := by
    rw [Matrix.det_fin_one_of]
    exact isUnit_iff_ne_zero.2 (by norm_num)
  have hS : schurS !![(2 : ℝ)] !![0] !![3] = !![3] := by
    ext i j
    fin_cases i
    fin_cases j
    simp [schurS, Matrix.mul_apply, Fin.sum_univ_succ]
  have h4 : IsUnit (schurS !![(2 : ℝ)] !![0] !![3]).det := by
    rw [hS, Matrix.det_fin_one_of]
    exact isUnit_iff_ne_zero.2 (by norm_num)
  exact ⟨⟨h1, h2, h3, h4⟩,
    blockKinv_eq_inv_and_logdet !![(2 : ℝ)] !![0] !![3] h1 h2 h3 h4⟩

/-! ### The analytic gradient of part_000 (C10)

Jacobi's formula, the derivative of the matrix inverse, and the exactness of
`grad_L` as the gradient of the form-B objective
`theta ↦ det((y_con K(theta)⁻¹ y_con) • K(theta))`. -/

/-- Jacobi's formula: if every entry of `u ↦ M u` has derivative the
corresponding entry of `M₁` at `t`, then `u ↦ det (M u)` has derivative
`trace (adjugate (M t) * M₁)` at `t`. -/
theorem hasDerivAt_matrix_det {m : ℕ} (M : ℝ → Matrix (Fin m) (Fin m) ℝ)
    (M₁ : Matrix (Fin m) (Fin m) ℝ) (t : ℝ)
    (hM : ∀ i j, HasDerivAt (fun u => M u i j) (M₁ i j) t) :
    HasDerivAt (fun u => (M u).det) ((Matrix.adjugate (M t) * M₁).trace) t := by
  have hfun : (fun u => (M u).det) =
      fun u => ∑ σ : Equiv.Perm (Fin m),
        ((Equiv.Perm.sign σ : ℤ) : ℝ) * ∏ i, M u (σ i) i :=
    funext fun u => Matrix.det_apply' (M u)
  rw [hfun]
  have hterm : ∀ σ : Equiv.Perm (Fin m),
      σ ∈ (Finset.univ : Finset (Equiv.Perm (Fin m))) →
      HasDerivAt (fun u => ((Equiv.Perm.sign σ : ℤ) : ℝ) * ∏ i, M u (σ i) i)
        (((Equiv.Perm.sign σ : ℤ) : ℝ) *
          ∑ j, (∏ i ∈ Finset.univ.erase j, M t (σ i) i) * M₁ (σ j) j) t := by
    intro σ _
    have hp : HasDerivAt (fun u => ∏ i, M u (σ i) i)
        (∑ j, (∏ i ∈ Finset.univ.erase j, M t (σ i) i) * M₁ (σ j) j) t := by
      have h := HasDerivAt.finset_prod (fun i (_ : i ∈ Finset.univ) => hM (σ i) i)
      simpa [smul_eq_mul] using h
    exact hp.const_mul _
  have h := HasDerivAt.sum hterm
  convert h using 1
  have h1 : ∀ j : Fin m, (Matrix.adjugate (M t) * M₁) j j =
      (Matrix.updateColumn (M t) j fun k => M₁ k j).det := by
    intro j
    have h2 : (Matrix.adjugate (M t) * M₁) j j =
        (Matrix.adjugate (M t) *ᵥ fun k => M₁ k j) j := by
      simp [Matrix.mul_apply, Matrix.mulVec, Matrix.dotProduct]
    rw [h2, ← Matrix.cramer_eq_adjugate_mulVec, Matrix.cramer_apply]
  have h3 : ∀ j : Fin m, (Matrix.updateColumn (M t) j fun k => M₁ k j).det =
      ∑ σ : Equiv.Perm (Fin m), ((Equiv.Perm.sign σ : ℤ) : ℝ) *
        ((∏ i ∈ Finset.univ.erase j, M t (σ i) i) * M₁ (σ j) j) := by
    intro j
    rw [Matrix.det_apply']
    refine Finset.sum_congr rfl fun σ _ => ?_
    congr 1
    rw [← Finset.mul_prod_erase Finset.univ _ (Finset.mem_univ j),
      Matrix.updateColumn_self]
    rw [Finset.prod_congr rfl
      fun i hi => Matrix.updateColumn_ne (Finset.ne_of_mem_erase hi)]
    ring
  have h4 : (Matrix.adjugate (M t) * M₁).trace =
      ∑ j : Fin m, ∑ σ : Equiv.Perm (Fin m), ((Equiv.Perm.sign σ : ℤ) : ℝ) *
        ((∏ i ∈ Finset.univ.erase j, M t (σ i) i) * M₁ (σ j) j) := by
    rw [Matrix.trace]
    refine Finset.sum_congr rfl fun j _ => ?_
    rw [Matrix.diag_apply, h1 j, h3 j]
  rw [h4, Finset.sum_comm]
  refine Finset.sum_congr rfl fun σ _ => ?_
  rw [Finset.mul_sum]

/-- Derivative of the matrix inverse: at a point where `det (M t) ≠ 0`,
every entry of `u ↦ (M u)⁻¹` has derivative the corresponding entry of
`-((M t)⁻¹ * M₁ * (M t)⁻¹)`. -/
theorem hasDerivAt_matrix_inv {m : ℕ} (M : ℝ → Matrix (Fin m) (Fin m) ℝ)
    (M₁ : Matrix (Fin m) (Fin m) ℝ) (t : ℝ)
    (hM : ∀ i j, HasDerivAt (fun u => M u i j) (M₁ i j) t)
    (hdet : (M t).det ≠ 0) :
    ∀ i j, HasDerivAt (fun u => (M u)⁻¹ i j)
      ((-((M t)⁻¹ * M₁ * (M t)⁻¹)) i j) t := by
  have hinvEntry : ∀ (u : ℝ) (i j : Fin m),
      (M u)⁻¹ i j = ((M u).det)⁻¹ * Matrix.adjugate (M u) i j := by
    intro u i j
    rw [Matrix.inv_def, Ring.inverse_eq_inv, Matrix.smul_apply, smul_eq_mul]
  have hdetDeriv := hasDerivAt_matrix_det M M₁ t hM
  have hadj : ∀ i j, HasDerivAt (fun u => Matrix.adjugate (M u) i j)
      ((Matrix.adjugate (Matrix.updateRow (M t) j (Pi.single i 1)) *
        Matrix.updateRow M₁ j 0).trace) t := by
    intro i j
    have hentries : ∀ k l, HasDerivAt
        (fun u => Matrix.updateRow (M u) j (Pi.single i 1) k l)
        (Matrix.updateRow M₁ j 0 k l) t := by
      intro k l
      by_cases hk : k = j
      · subst hk
        simp only [Matrix.updateRow_self, Pi.zero_apply]
        exact hasDerivAt_const t _
      · simp only [Matrix.updateRow_ne hk]
        exact hM k l
    have h := hasDerivAt_matrix_det
      (fun u => Matrix.updateRow (M u) j (Pi.single i 1))
      (Matrix.updateRow M₁ j 0) t hentries
    have hfun : (fun u => (Matrix.updateRow (M u) j (Pi.single i 1)).det) =
        fun u => Matrix.adjugate (M u) i j :=
      funext fun u => (Matrix.adjugate_apply (M u) i j).symm
    rw [hfun] at h
    exact h
  obtain ⟨N₁, hN₁⟩ : ∃ N₁ : Matrix (Fin m) (Fin m) ℝ,
      ∀ i j, HasDerivAt (fun u => (M u)⁻¹ i j) (N₁ i j) t := by
    refine ⟨Matrix.of fun i j =>
      -(Matrix.adjugate (M t) * M₁).trace / (M t).det ^ 2 *
          Matrix.adjugate (M t) i j +
        ((M t).det)⁻¹ *
          (Matrix.adjugate (Matrix.updateRow (M t) j (Pi.single i 1)) *
            Matrix.updateRow M₁ j 0).trace, fun i j => ?_⟩
    have h1 := (hdetDeriv.inv hdet).mul (hadj i j)
    have hfun : (fun u => (M u)⁻¹ i j) =
        fun u => ((M u).det)⁻¹ * Matrix.adjugate (M u) i j :=
      funext fun u => hinvEntry u i j
    rw [hfun, Matrix.of_apply]
    exact h1
  have hone : ∀ i j, HasDerivAt (fun u => (M u * (M u)⁻¹) i j)
      ((M₁ * (M t)⁻¹ + M t * N₁) i j) t := by
    intro i j
    have h := HasDerivAt.sum
      (fun k (_ : k ∈ Finset.univ) => (hM i k).mul (hN₁ k j))
    have hfun : (fun u => (M u * (M u)⁻¹) i j) =
        fun u => ∑ k, M u i k * (M u)⁻¹ k j :=
      funext fun u => Matrix.mul_apply
    rw [hfun]
    convert h using 1
    rw [Matrix.add_apply, Matrix.mul_apply, Matrix.mul_apply,
      ← Finset.sum_add_distrib]
  have hev : ∀ᶠ u in nhds t, (M u).det ≠ 0 :=
    hdetDeriv.continuousAt.eventually_ne hdet
  have hzero : ∀ i j, (M₁ * (M t)⁻¹ + M t * N₁) i j = (0 : ℝ) := by
    intro i j
    have hconst : HasDerivAt
        (fun _u : ℝ => (1 : Matrix (Fin m) (Fin m) ℝ) i j) 0 t :=
      hasDerivAt_const t _
    have heq : (fun u => (M u * (M u)⁻¹) i j) =ᶠ[nhds t]
        fun _u => (1 : Matrix (Fin m) (Fin m) ℝ) i j := by
      filter_upwards [hev] with u hu
      rw [Matrix.mul_nonsing_inv _ (isUnit_iff_ne_zero.mpr hu)]
    have h2 : HasDerivAt (fun u => (M u * (M u)⁻¹) i j) 0 t :=
      hconst.congr_of_eventuallyEq heq
    exact (hone i j).unique h2
  have hmatzero : M₁ * (M t)⁻¹ + M t * N₁ = 0 := by
    ext i j
    simpa using hzero i j
  have hMN : M t * N₁ = -(M₁ * (M t)⁻¹) := by
    have h5 : M t * N₁ = (M₁ * (M t)⁻¹ + M t * N₁) - M₁ * (M t)⁻¹ := by abel
    rw [h5, hmatzero, zero_sub]
  have hNeq : N₁ = -((M t)⁻¹ * M₁ * (M t)⁻¹) := by
    calc N₁ = 1 * N₁ := (one_mul N₁).symm
      _ = ((M t)⁻¹ * M t) * N₁ := by
          rw [Matrix.nonsing_inv_mul _ (isUnit_iff_ne_zero.mpr hdet)]
      _ = (M t)⁻¹ * (M t * N₁) := Matrix.mul_assoc _ _ _
      _ = (M t)⁻¹ * (-(M₁ * (M t)⁻¹)) := by rw [hMN]
      _ = -((M t)⁻¹ * M₁ * (M t)⁻¹) := by
          rw [Matrix.mul_neg, Matrix.mul_assoc]
  intro i j
  have h6 := hN₁ i j
  rwa [hNeq] at h6

/-- Derivative of the quadratic form `u ↦ y ⬝ᵥ N u *ᵥ y` from entrywise
derivatives of `N`. -/
theorem hasDerivAt_quadform {m : ℕ} (N : ℝ → Matrix (Fin m) (Fin m) ℝ)
    (N₁ : Matrix (Fin m) (Fin m) ℝ) (y : Fin m → ℝ) (t : ℝ)
    (hN : ∀ i j, HasDerivAt (fun u => N u i j) (N₁ i j) t) :
    HasDerivAt (fun u => y ⬝ᵥ N u *ᵥ y) (y ⬝ᵥ N₁ *ᵥ y) t := by
  have hfun : ∀ A : Matrix (Fin m) (Fin m) ℝ,
      y ⬝ᵥ A *ᵥ y = ∑ i, ∑ j, y i * (A i j * y j) := by
    intro A
    simp [Matrix.dotProduct, Matrix.mulVec, Finset.mul_sum]
  have h := HasDerivAt.sum (fun i (_ : i ∈ Finset.univ) =>
    HasDerivAt.sum (fun j (_ : j ∈ Finset.univ) =>
      ((hN i j).mul_const (y j)).const_mul (y i)))
  have hfn : (fun u => y ⬝ᵥ N u *ᵥ y) =
      fun u => ∑ i, ∑ j, y i * (N u i j * y j) :=
    funext fun u => hfun (N u)
  rw [hfn, hfun N₁]
  exact h

/-- Derivative of the form-B objective `u ↦ det((y (M u)⁻¹ y) • M u)` for a
symmetric invertible `M t` with entrywise derivative matrix `M₁`: it equals
`det((y (M t)⁻¹ y) • M t)` times
`trace((M t)⁻¹ M₁) - card * (w M₁ w) / (y w)` with `w = (M t)⁻¹ y`
(the case `m = 1` is excluded; the objectives in the source have even
dimension `2n`). -/
theorem hasDerivAt_detObjective {m : ℕ} (hm : m ≠ 1)
    (M : ℝ → Matrix (Fin m) (Fin m) ℝ) (M₁ : Matrix (Fin m) (Fin m) ℝ)
    (y : Fin m → ℝ) (t : ℝ)
    (hM : ∀ i j, HasDerivAt (fun u => M u i j) (M₁ i j) t)
    (hsym : (M t)ᵀ = M t) (hdet : (M t).det ≠ 0) :
    HasDerivAt (fun u => ((y ⬝ᵥ (M u)⁻¹ *ᵥ y) • M u).det)
      (((y ⬝ᵥ (M t)⁻¹ *ᵥ y) • M t).det *
        (((M t)⁻¹ * M₁).trace -
          (m : ℝ) * ((M t)⁻¹ *ᵥ y ⬝ᵥ M₁ *ᵥ ((M t)⁻¹ *ᵥ y)) /
            (y ⬝ᵥ (M t)⁻¹ *ᵥ y))) t := by
  have hinv := hasDerivAt_matrix_inv M M₁ t hM hdet
  have hf : HasDerivAt (fun u => y ⬝ᵥ (M u)⁻¹ *ᵥ y)
      (y ⬝ᵥ (-((M t)⁻¹ * M₁ * (M t)⁻¹)) *ᵥ y) t :=
    hasDerivAt_quadform (fun u => (M u)⁻¹) _ y t hinv
  have hentry : ∀ i j, HasDerivAt (fun u => ((y ⬝ᵥ (M u)⁻¹ *ᵥ y) • M u) i j)
      (((y ⬝ᵥ (-((M t)⁻¹ * M₁ * (M t)⁻¹)) *ᵥ y) • M t +
        (y ⬝ᵥ (M t)⁻¹ *ᵥ y) • M₁) i j) t := by
    intro i j
    have h := hf.mul (hM i j)
    simp only [Matrix.smul_apply, Matrix.add_apply, smul_eq_mul]
    exact h
  have hL := hasDerivAt_matrix_det (fun u => (y ⬝ᵥ (M u)⁻¹ *ᵥ y) • M u)
    ((y ⬝ᵥ (-((M t)⁻¹ * M₁ * (M t)⁻¹)) *ᵥ y) • M t +
      (y ⬝ᵥ (M t)⁻¹ *ᵥ y) • M₁) t hentry
  convert hL using 1
  -- the value identity
  have hsyminv : ((M t)⁻¹)ᵀ = (M t)⁻¹ := by
    rw [Matrix.transpose_nonsing_inv, hsym]
  have hfval : y ⬝ᵥ (-((M t)⁻¹ * M₁ * (M t)⁻¹)) *ᵥ y =
      -((M t)⁻¹ *ᵥ y ⬝ᵥ M₁ *ᵥ ((M t)⁻¹ *ᵥ y)) := by
    rw [Matrix.neg_mulVec, Matrix.dotProduct_neg]
    congr 1
    rw [Matrix.mul_assoc, ← Matrix.mulVec_mulVec,
      Matrix.dotProduct_mulVec y ((M t)⁻¹), ← Matrix.mulVec_transpose, hsyminv,
      Matrix.mulVec_mulVec]
  have hadjA : Matrix.adjugate (M t) = (M t).det • (M t)⁻¹ := by
    rw [Matrix.inv_def, Ring.inverse_eq_inv, smul_smul, mul_inv_cancel₀ hdet,
      one_smul]
  rw [hfval, Matrix.adjugate_smul, hadjA, Matrix.det_smul, Fintype.card_fin]
  rw [smul_mul_assoc, smul_mul_assoc, Matrix.mul_add, mul_smul_comm,
    mul_smul_comm, Matrix.nonsing_inv_mul _ (isUnit_iff_ne_zero.mpr hdet)]
  rw [Matrix.trace_smul, Matrix.trace_smul, Matrix.trace_add,
    Matrix.trace_smul, Matrix.trace_smul, Matrix.trace_one, Fintype.card_fin,
    smul_eq_mul, smul_eq_mul, smul_eq_mul, smul_eq_mul]
  by_cases hm0 : m = 0
  · subst hm0
    have hT : ((M t)⁻¹ * M₁).trace = 0 := by
      simp [Matrix.trace]
    have hc0 : y ⬝ᵥ (M t)⁻¹ *ᵥ y = 0 := by
      simp [Matrix.dotProduct]
    rw [hT, hc0]
    norm_num
  · obtain ⟨k, rfl⟩ : ∃ k, m = k + 1 := ⟨m - 1, by omega⟩
    generalize ((M t)⁻¹ * M₁).trace = T
    generalize (M t)⁻¹ *ᵥ y ⬝ᵥ M₁ *ᵥ ((M t)⁻¹ *ᵥ y) = q
    generalize (M t).det = D
    generalize y ⬝ᵥ (M t)⁻¹ *ᵥ y = c
    rw [pow_succ, show (k + 1 : ℕ) - 1 = k from by omega]
    by_cases hc : c = 0
    · subst hc
      rw [zero_pow (show k ≠ 0 from by omega)]
      ring
    · field_simp
      ring

/-! #### Differentiability of the kernels in each hyperparameter slot -/

theorem hasDerivAt_kuu_fn_lx (a b c d ly : ℝ) (lx : ℝ) (h : lx ≠ 0) :
    HasDerivAt (fun l => kuu_fn a b c d l ly) (kuu_lx a b c d lx ly) lx := by
  have hdiff : DifferentiableAt ℝ (fun l => kuu_fn a b c d l ly) lx := by
    have hfun : (fun l => kuu_fn a b c d l ly) = fun l =>
        Real.exp (-1 / (2 * l) * (a - b) ^ 2 - 1 / (2 * ly) * (c - d) ^ 2) :=
      rfl
    rw [hfun]
    exact ((((differentiableAt_const (-1)).div
      ((differentiableAt_const 2).mul differentiableAt_id')
      (mul_ne_zero two_ne_zero h)).mul_const ((a - b) ^ 2)).sub_const
        (1 / (2 * ly) * (c - d) ^ 2)).exp
  rw [kuu_lx]
  exact hdiff.hasDerivAt

theorem hasDerivAt_kuu_fn_ly (a b c d lx : ℝ) (ly : ℝ) (h : ly ≠ 0) :
    HasDerivAt (fun l => kuu_fn a b c d lx l) (kuu_ly a b c d lx ly) ly := by
  have hdiff : DifferentiableAt ℝ (fun l => kuu_fn a b c d lx l) ly := by
    have hfun : (fun l => kuu_fn a b c d lx l) = fun l =>
        Real.exp (-1 / (2 * lx) * (a - b) ^ 2 - 1 / (2 * l) * (c - d) ^ 2) :=
      rfl
    rw [hfun]
    exact ((differentiableAt_const (-1 / (2 * lx) * (a - b) ^ 2)).sub
      (((differentiableAt_const 1).div
        ((differentiableAt_const 2).mul differentiableAt_id')
        (mul_ne_zero two_ne_zero h)).mul_const ((c - d) ^ 2))).exp
  rw [kuu_ly]
  exact hdiff.hasDerivAt

theorem hasDerivAt_kuu_fn_phi (a b c d lx ly p : ℝ) :
    HasDerivAt (fun _q : ℝ => kuu_fn a b c d lx ly) (kuu_phi a b c d lx ly) p := by
  rw [kuu_phi, deriv_const]
  exact hasDerivAt_const p _

theorem hasDerivAt_kfu_fn_lx (a b c d ly p : ℝ) (lx : ℝ) (h : lx ≠ 0) :
    HasDerivAt (fun l => kfu_fn a b c d l ly p) (kfu_lx a b c d lx ly p) lx := by
  have hdiff : DifferentiableAt ℝ (fun l => kfu_fn a b c d l ly p) lx := by
    have hfun : (fun l => kfu_fn a b c d l ly p) = fun l =>
        (p - (a - b) / l + ((c - d) ^ 2 / ly ^ 2 - 1 / ly)) *
          kuu_fn a b c d l ly :=
      funext fun l => kfu_fn_closed a b c d l ly p
    rw [hfun]
    exact ((((differentiableAt_const (a - b)).div differentiableAt_id'
      h).const_sub p).add_const ((c - d) ^ 2 / ly ^ 2 - 1 / ly)).mul
        (hasDerivAt_kuu_fn_lx a b c d ly lx h).differentiableAt
  rw [kfu_lx]
  exact hdiff.hasDerivAt

theorem hasDerivAt_kfu_fn_ly (a b c d lx p : ℝ) (ly : ℝ) (h : ly ≠ 0) :
    HasDerivAt (fun l => kfu_fn a b c d lx l p) (kfu_ly a b c d lx ly p) ly := by
  have hdiff : DifferentiableAt ℝ (fun l => kfu_fn a b c d lx l p) ly := by
    have hfun : (fun l => kfu_fn a b c d lx l p) = fun l =>
        (p - (a - b) / lx + ((c - d) ^ 2 / l ^ 2 - 1 / l)) *
          kuu_fn a b c d lx l :=
      funext fun l => kfu_fn_closed a b c d lx l p
    rw [hfun]
    exact ((differentiableAt_const (p - (a - b) / lx)).add
      (((differentiableAt_const ((c - d) ^ 2)).div (differentiableAt_id'.pow 2)
        (pow_ne_zero 2 h)).sub
        ((differentiableAt_const 1).div differentiableAt_id' h))).mul
          (hasDerivAt_kuu_fn_ly a b c d lx ly h).differentiableAt
  rw [kfu_ly]
  exact hdiff.hasDerivAt

theorem hasDerivAt_kfu_fn_phi (a b c d lx ly : ℝ) (p : ℝ) :
    HasDerivAt (fun q => kfu_fn a b c d lx ly q) (kfu_phi a b c d lx ly p) p := by
  have hdiff : DifferentiableAt ℝ (fun q => kfu_fn a b c d lx ly q) p := by
    have hfun : (fun q => kfu_fn a b c d lx ly q) = fun q =>
        (q - (a - b) / lx + ((c - d) ^ 2 / ly ^ 2 - 1 / ly)) *
          kuu_fn a b c d lx ly :=
      funext fun q => kfu_fn_closed a b c d lx ly q
    rw [hfun]
    exact ((differentiableAt_id'.sub_const ((a - b) / lx)).add_const
      ((c - d) ^ 2 / ly ^ 2 - 1 / ly)).mul_const (kuu_fn a b c d lx ly)
  rw [kfu_phi]
  exact hdiff.hasDerivAt

theorem hasDerivAt_kff_fn_lx (a b c d ly p : ℝ) (lx : ℝ) (h : lx ≠ 0) :
    HasDerivAt (fun l => kff_fn a b c d l ly p) (kff_lx a b c d lx ly p) lx := by
  have hdiff : DifferentiableAt ℝ (fun l => kff_fn a b c d l ly p) lx := by
    have hfun : (fun l => kff_fn a b c d l ly p) = fun l =>
        (p ^ 2 + 2 * p * ((c - d) ^ 2 / ly ^ 2 - 1 / ly) +
          (1 / l - (a - b) ^ 2 / l ^ 2) +
          ((c - d) ^ 4 / ly ^ 4 - 6 * (c - d) ^ 2 / ly ^ 3 + 3 / ly ^ 2)) *
          kuu_fn a b c d l ly :=
      funext fun l => kff_fn_closed a b c d l ly p
    rw [hfun]
    refine DifferentiableAt.mul ?_
      (hasDerivAt_kuu_fn_lx a b c d ly lx h).differentiableAt
    exact (((differentiableAt_const
      (p ^ 2 + 2 * p * ((c - d) ^ 2 / ly ^ 2 - 1 / ly))).add
      (((differentiableAt_const 1).div differentiableAt_id' h).sub
        ((differentiableAt_const ((a - b) ^ 2)).div (differentiableAt_id'.pow 2)
          (pow_ne_zero 2 h)))).add_const
      ((c - d) ^ 4 / ly ^ 4 - 6 * (c - d) ^ 2 / ly ^ 3 + 3 / ly ^ 2))
  rw [kff_lx]
  exact hdiff.hasDerivAt

theorem hasDerivAt_kff_fn_ly (a b c d lx p : ℝ) (ly : ℝ) (h : ly ≠ 0) :
    HasDerivAt (fun l => kff_fn a b c d lx l p) (kff_ly a b c d lx ly p) ly := by
  have hdiff : DifferentiableAt ℝ (fun l => kff_fn a b c d lx l p) ly := by
    have hfun : (fun l => kff_fn a b c d lx l p) = fun l =>
        (p ^ 2 + 2 * p * ((c - d) ^ 2 / l ^ 2 - 1 / l) +
          (1 / lx - (a - b) ^ 2 / lx ^ 2) +
          ((c - d) ^ 4 / l ^ 4 - 6 * (c - d) ^ 2 / l ^ 3 + 3 / l ^ 2)) *
          kuu_fn a b c d lx l :=
      funext fun l => kff_fn_closed a b c d lx l p
    rw [hfun]
    refine DifferentiableAt.mul ?_
      (hasDerivAt_kuu_fn_ly a b c d lx ly h).differentiableAt
    refine DifferentiableAt.add ?_ ?_
    · refine DifferentiableAt.add_const ?_ (1 / lx - (a - b) ^ 2 / lx ^ 2)
      refine (differentiableAt_const (p ^ 2)).add ?_
      exact (((differentiableAt_const ((c - d) ^ 2)).div
        (differentiableAt_id'.pow 2) (pow_ne_zero 2 h)).sub
        ((differentiableAt_const 1).div differentiableAt_id' h)).const_mul
          (2 * p)
    · exact (((differentiableAt_const ((c - d) ^ 4)).div
        (differentiableAt_id'.pow 4) (pow_ne_zero 4 h)).sub
        ((differentiableAt_const (6 * (c - d) ^ 2)).div
          (differentiableAt_id'.pow 3) (pow_ne_zero 3 h))).add
        ((differentiableAt_const 3).div (differentiableAt_id'.pow 2)
          (pow_ne_zero 2 h))
  rw [kff_ly]
  exact hdiff.hasDerivAt

theorem hasDerivAt_kff_fn_phi (a b c d lx ly : ℝ) (p : ℝ) :
    HasDerivAt (fun q => kff_fn a b c d lx ly q) (kff_phi a b c d lx ly p) p := by
  have hdiff : DifferentiableAt ℝ (fun q => kff_fn a b c d lx ly q) p := by
    have hfun : (fun q => kff_fn a b c d lx ly q) = fun q =>
        (q ^ 2 + 2 * q * ((c - d) ^ 2 / ly ^ 2 - 1 / ly) +
          (1 / lx - (a - b) ^ 2 / lx ^ 2) +
          ((c - d) ^ 4 / ly ^ 4 - 6 * (c - d) ^ 2 / ly ^ 3 + 3 / ly ^ 2)) *
          kuu_fn a b c d lx ly :=
      funext fun q => kff_fn_closed a b c d lx ly q
    rw [hfun]
    refine DifferentiableAt.mul_const ?_ (kuu_fn a b c d lx ly)
    refine DifferentiableAt.add_const ?_ _
    refine DifferentiableAt.add_const ?_ _
    exact (differentiableAt_id'.pow 2).add
      ((differentiableAt_id'.const_mul 2).mul_const
        ((c - d) ^ 2 / ly ^ 2 - 1 / ly))
  rw [kff_phi]
  exact hdiff.hasDerivAt

/-! #### Entrywise derivatives of the joint covariance matrix -/

theorem hasDerivAt_Kfull_entry_lx (n : ℕ) (x y : Fin n → ℝ) (s ly p : ℝ)
    (lx : ℝ) (h : lx ≠ 0) (i j : Fin (n + n)) :
    HasDerivAt (fun l => Kfull n x y s l ly p i j)
      (K_l_x n x y lx ly p i j) lx := by
  have hfun : (fun l => Kfull n x y s l ly p i j) = fun l =>
      Kblock n x y s l ly p (finSumFinEquiv.symm i) (finSumFinEquiv.symm j) := by
    funext l
    rw [Kfull, Matrix.reindex_apply, Matrix.submatrix_apply]
  have hKd : K_l_x n x y lx ly p i j = (fromBlocks
      (Matrix.of fun a b => kuu_lx (x a) (x b) (y a) (y b) lx ly)
      (Matrix.of fun a b => kfu_lx (x b) (x a) (y b) (y a) lx ly p)
      (Matrix.of fun a b => kfu_lx (x a) (x b) (y a) (y b) lx ly p)
      (Matrix.of fun a b => kff_lx (x a) (x b) (y a) (y b) lx ly p))
      (finSumFinEquiv.symm i) (finSumFinEquiv.symm j) := by
    rw [K_l_x, Matrix.reindex_apply, Matrix.submatrix_apply]
  rw [hfun, hKd]
  cases hsi : finSumFinEquiv.symm i with
  | inl a =>
    cases hsj : finSumFinEquiv.symm j with
    | inl b =>
        simp only [Kblock, Matrix.fromBlocks_apply₁₁, Matrix.add_apply, kuuMat,
          Matrix.of_apply, Matrix.smul_apply, smul_eq_mul]
        exact (hasDerivAt_kuu_fn_lx (x a) (x b) (y a) (y b) ly lx h).add_const _
    | inr b =>
        simp only [Kblock, Matrix.fromBlocks_apply₁₂, kufMat,
          Matrix.transpose_apply, kfuMat, Matrix.of_apply]
        exact hasDerivAt_kfu_fn_lx (x b) (x a) (y b) (y a) ly p lx h
  | inr a =>
    cases hsj : finSumFinEquiv.symm j with
    | inl b =>
        simp only [Kblock, Matrix.fromBlocks_apply₂₁, kfuMat, Matrix.of_apply]
        exact hasDerivAt_kfu_fn_lx (x a) (x b) (y a) (y b) ly p lx h
    | inr b =>
        simp only [Kblock, Matrix.fromBlocks_apply₂₂, Matrix.add_apply, kffMat,
          Matrix.of_apply, Matrix.smul_apply, smul_eq_mul]
        exact (hasDerivAt_kff_fn_lx (x a) (x b) (y a) (y b) ly p lx h).add_const _

theorem hasDerivAt_Kfull_entry_ly (n : ℕ) (x y : Fin n → ℝ) (s lx p : ℝ)
    (ly : ℝ) (h : ly ≠ 0) (i j : Fin (n + n)) :
    HasDerivAt (fun l => Kfull n x y s lx l p i j)
      (K_l_y n x y lx ly p i j) ly := by
  have hfun : (fun l => Kfull n x y s lx l p i j) = fun l =>
      Kblock n x y s lx l p (finSumFinEquiv.symm i) (finSumFinEquiv.symm j) := by
    funext l
    rw [Kfull, Matrix.reindex_apply, Matrix.submatrix_apply]
  have hKd : K_l_y n x y lx ly p i j = (fromBlocks
      (Matrix.of fun a b => kuu_ly (x a) (x b) (y a) (y b) lx ly)
      (Matrix.of fun a b => kfu_ly (x b) (x a) (y b) (y a) lx ly p)
      (Matrix.of fun a b => kfu_ly (x a) (x b) (y a) (y b) lx ly p)
      (Matrix.of fun a b => kff_ly (x a) (x b) (y a) (y b) lx ly p))
      (finSumFinEquiv.symm i) (finSumFinEquiv.symm j) := by
    rw [K_l_y, Matrix.reindex_apply, Matrix.submatrix_apply]
  rw [hfun, hKd]
  cases hsi : finSumFinEquiv.symm i with
  | inl a =>
    cases hsj : finSumFinEquiv.symm j with
    | inl b =>
        simp only [Kblock, Matrix.fromBlocks_apply₁₁, Matrix.add_apply, kuuMat,
          Matrix.of_apply, Matrix.smul_apply, smul_eq_mul]
        exact (hasDerivAt_kuu_fn_ly (x a) (x b) (y a) (y b) lx ly h).add_const _
    | inr b =>
        simp only [Kblock, Matrix.fromBlocks_apply₁₂, kufMat,
          Matrix.transpose_apply, kfuMat, Matrix.of_apply]
        exact hasDerivAt_kfu_fn_ly (x b) (x a) (y b) (y a) lx p ly h
  | inr a =>
    cases hsj : finSumFinEquiv.symm j with
    | inl b =>
        simp only [Kblock, Matrix.fromBlocks_apply₂₁, kfuMat, Matrix.of_apply]
        exact hasDerivAt_kfu_fn_ly (x a) (x b) (y a) (y b) lx p ly h
    | inr b =>
        simp only [Kblock, Matrix.fromBlocks_apply₂₂, Matrix.add_apply, kffMat,
          Matrix.of_apply, Matrix.smul_apply, smul_eq_mul]
        exact (hasDerivAt_kff_fn_ly (x a) (x b) (y a) (y b) lx p ly h).add_const _

theorem hasDerivAt_Kfull_entry_phi (n : ℕ) (x y : Fin n → ℝ) (s lx ly : ℝ)
    (p : ℝ) (i j : Fin (n + n)) :
    HasDerivAt (fun q => Kfull n x y s lx ly q i j)
      (K_phi n x y lx ly p i j) p := by
  have hfun : (fun q => Kfull n x y s lx ly q i j) = fun q =>
      Kblock n x y s lx ly q (finSumFinEquiv.symm i) (finSumFinEquiv.symm j) := by
    funext q
    rw [Kfull, Matrix.reindex_apply, Matrix.submatrix_apply]
  have hKd : K_phi n x y lx ly p i j = (fromBlocks
      (Matrix.of fun a b => kuu_phi (x a) (x b) (y a) (y b) lx ly)
      (Matrix.of fun a b => kfu_phi (x b) (x a) (y b) (y a) lx ly p)
      (Matrix.of fun a b => kfu_phi (x a) (x b) (y a) (y b) lx ly p)
      (Matrix.of fun a b => kff_phi (x a) (x b) (y a) (y b) lx ly p))
      (finSumFinEquiv.symm i) (finSumFinEquiv.symm j) := by
    rw [K_phi, Matrix.reindex_apply, Matrix.submatrix_apply]
  rw [hfun, hKd]
  cases hsi : finSumFinEquiv.symm i with
  | inl a =>
    cases hsj : finSumFinEquiv.symm j with
    | inl b =>
        simp only [Kblock, Matrix.fromBlocks_apply₁₁, Matrix.add_apply, kuuMat,
          Matrix.of_apply, Matrix.smul_apply, smul_eq_mul]
        exact (hasDerivAt_kuu_fn_phi (x a) (x b) (y a) (y b) lx ly p).add_const _
    | inr b =>
        simp only [Kblock, Matrix.fromBlocks_apply₁₂, kufMat,
          Matrix.transpose_apply, kfuMat, Matrix.of_apply]
        exact hasDerivAt_kfu_fn_phi (x b) (x a) (y b) (y a) lx ly p
  | inr a =>
    cases hsj : finSumFinEquiv.symm j with
    | inl b =>
        simp only [Kblock, Matrix.fromBlocks_apply₂₁, kfuMat, Matrix.of_apply]
        exact hasDerivAt_kfu_fn_phi (x a) (x b) (y a) (y b) lx ly p
    | inr b =>
        simp only [Kblock, Matrix.fromBlocks_apply₂₂, Matrix.add_apply, kffMat,
          Matrix.of_apply, Matrix.smul_apply, smul_eq_mul]
        exact (hasDerivAt_kff_fn_phi (x a) (x b) (y a) (y b) lx ly p).add_const _

theorem invBlock_of_some {m : ℕ} (M L : Matrix (Fin m) (Fin m) ℝ)
    (hL : cholesky M = some L) : invBlock M = some ((L⁻¹)ᵀ * L⁻¹) := by
  rw [invBlock, hL, Option.elim_some]

/-- C10. For every hyperparameter triple `(l_x, l_y, phi)` with nonzero
length scales at which both Cholesky factorizations of the block solver
succeed, `grad_L` returns exactly the vector whose components are
`val * (tr(K⁻¹ K_i) - 2n wᵀ K_i w / (y_con w))` with `w = K⁻¹ y_con`,
`val = det((y_con K⁻¹ y_con) • K)`, and `K_i` ranging over the
hyperparameter-derivative matrices `K_l_x`, `K_l_y`, `K_phi`; and each
component is the exact partial derivative of the form-B scalar objective
`theta ↦ det((y_con K(theta)⁻¹ y_con) • K(theta))` in the corresponding raw
hyperparameter. -/
theorem grad_L_exact (n : ℕ) (x y yu yf : Fin n → ℝ) (s lx ly p : ℝ)
    (LA LK : Matrix (Fin n) (Fin n) ℝ) (hlx : lx ≠ 0) (hly : ly ≠ 0)
    (hLA : cholesky (kuuMat n x y lx ly + s • 1) = some LA)
    (hLK : cholesky (schurS (kuuMat n x y lx ly + s • 1)
      (kufMat n x y lx ly p) (kffMat n x y lx ly p + s • 1)) = some LK) :
    grad_L n x y yu yf s lx ly p = some
      ![((yCon n yu yf ⬝ᵥ (Kfull n x y s lx ly p)⁻¹ *ᵥ yCon n yu yf) •
            Kfull n x y s lx ly p).det *
          (((Kfull n x y s lx ly p)⁻¹ * K_l_x n x y lx ly p).trace -
            2 * (n : ℝ) * ((Kfull n x y s lx ly p)⁻¹ *ᵥ yCon n yu yf ⬝ᵥ
                K_l_x n x y lx ly p *ᵥ
                  ((Kfull n x y s lx ly p)⁻¹ *ᵥ yCon n yu yf)) /
              (yCon n yu yf ⬝ᵥ (Kfull n x y s lx ly p)⁻¹ *ᵥ yCon n yu yf)),
        ((yCon n yu yf ⬝ᵥ (Kfull n x y s lx ly p)⁻¹ *ᵥ yCon n yu yf) •
            Kfull n x y s lx ly p).det *
          (((Kfull n x y s lx ly p)⁻¹ * K_l_y n x y lx ly p).trace -
            2 * (n : ℝ) * ((Kfull n x y s lx ly p)⁻¹ *ᵥ yCon n yu yf ⬝ᵥ
                K_l_y n x y lx ly p *ᵥ
                  ((Kfull n x y s lx ly p)⁻¹ *ᵥ yCon n yu yf)) /
              (yCon n yu yf ⬝ᵥ (Kfull n x y s lx ly p)⁻¹ *ᵥ yCon n yu yf)),
        ((yCon n yu yf ⬝ᵥ (Kfull n x y s lx ly p)⁻¹ *ᵥ yCon n yu yf) •
            Kfull n x y s lx ly p).det *
          (((Kfull n x y s lx ly p)⁻¹ * K_phi n x y lx ly p).trace -
            2 * (n : ℝ) * ((Kfull n x y s lx ly p)⁻¹ *ᵥ yCon n yu yf ⬝ᵥ
                K_phi n x y lx ly p *ᵥ
                  ((Kfull n x y s lx ly p)⁻¹ *ᵥ yCon n yu yf)) /
              (yCon n yu yf ⬝ᵥ (Kfull n x y s lx ly p)⁻¹ *ᵥ yCon n yu yf))] ∧
    HasDerivAt (fun l =>
        ((yCon n yu yf ⬝ᵥ (Kfull n x y s l ly p)⁻¹ *ᵥ yCon n yu yf) •
          Kfull n x y s l ly p).det)
      (((yCon n yu yf ⬝ᵥ (Kfull n x y s lx ly p)⁻¹ *ᵥ yCon n yu yf) •
          Kfull n x y s lx ly p).det *
        (((Kfull n x y s lx ly p)⁻¹ * K_l_x n x y lx ly p).trace -
          2 * (n : ℝ) * ((Kfull n x y s lx ly p)⁻¹ *ᵥ yCon n yu yf ⬝ᵥ
              K_l_x n x y lx ly p *ᵥ
                ((Kfull n x y s lx ly p)⁻¹ *ᵥ yCon n yu yf)) /
            (yCon n yu yf ⬝ᵥ (Kfull n x y s lx ly p)⁻¹ *ᵥ yCon n yu yf))) lx ∧
    HasDerivAt (fun l =>
        ((yCon n yu yf ⬝ᵥ (Kfull n x y s lx l p)⁻¹ *ᵥ yCon n yu yf) •
          Kfull n x y s lx l p).det)
      (((yCon n yu yf ⬝ᵥ (Kfull n x y s lx ly p)⁻¹ *ᵥ yCon n yu yf) •
          Kfull n x y s lx ly p).det *
        (((Kfull n x y s lx ly p)⁻¹ * K_l_y n x y lx ly p).trace -
          2 * (n : ℝ) * ((Kfull n x y s lx ly p)⁻¹ *ᵥ yCon n yu yf ⬝ᵥ
              K_l_y n x y lx ly p *ᵥ
                ((Kfull n x y s lx ly p)⁻¹ *ᵥ yCon n yu yf)) /
            (yCon n yu yf ⬝ᵥ (Kfull n x y s lx ly p)⁻¹ *ᵥ yCon n yu yf))) ly ∧
    HasDerivAt (fun q =>
        ((yCon n yu yf ⬝ᵥ (Kfull n x y s lx ly q)⁻¹ *ᵥ yCon n yu yf) •
          Kfull n x y s lx ly q).det)
      (((yCon n yu yf ⬝ᵥ (Kfull n x y s lx ly p)⁻¹ *ᵥ yCon n yu yf) •
          Kfull n x y s lx ly p).det *
        (((Kfull n x y s lx ly p)⁻¹ * K_phi n x y lx ly p).trace -
          2 * (n : ℝ) * ((Kfull n x y s lx ly p)⁻¹ *ᵥ yCon n yu yf ⬝ᵥ
              K_phi n x y lx ly p *ᵥ
                ((Kfull n x y s lx ly p)⁻¹ *ᵥ yCon n yu yf)) /
            (yCon n yu yf ⬝ᵥ (Kfull n x y s lx ly p)⁻¹ *ᵥ yCon n yu yf))) p := by
  have hAs := uuBlock_transpose n x y s lx ly
  have hCs := ffBlock_transpose n x y s lx ly p
  have hAinv : (LA⁻¹)ᵀ * LA⁻¹ = (kuuMat n x y lx ly + s • 1)⁻¹ :=
    cholesky_inv_eq _ LA hAs hLA
  have hAdet : IsUnit (kuuMat n x y lx ly + s • 1).det :=
    cholesky_isUnit_det_self _ LA hAs hLA
  have hSs := schurS_transpose (kuuMat n x y lx ly + s • 1)
    (kufMat n x y lx ly p) (kffMat n x y lx ly p + s • 1) hAs hCs
  have hSinv : (LK⁻¹)ᵀ * LK⁻¹ = (schurS (kuuMat n x y lx ly + s • 1)
      (kufMat n x y lx ly p) (kffMat n x y lx ly p + s • 1))⁻¹ :=
    cholesky_inv_eq _ LK hSs hLK
  have hSdet := cholesky_isUnit_det_self _ LK hSs hLK
  have hKb : Kblock n x y s lx ly p = fromBlocks (kuuMat n x y lx ly + s • 1)
      (kufMat n x y lx ly p) (kufMat n x y lx ly p)ᵀ
      (kffMat n x y lx ly p + s • 1) := by
    rw [Kblock, ← Matrix.transpose_transpose (kfuMat n x y lx ly p)]
    rfl
  have hKbinv := Matrix.inv_eq_right_inv (fromBlocks_mul_blockKinv
    (kuuMat n x y lx ly + s • 1) (kufMat n x y lx ly p)
    (kffMat n x y lx ly p + s • 1) hAs hCs hAdet hSdet)
  have hKfs : (Kfull n x y s lx ly p)ᵀ = Kfull n x y s lx ly p := by
    rw [Kfull, Matrix.transpose_reindex, Kblock_transpose]
  have hKfdet : (Kfull n x y s lx ly p).det ≠ 0 := by
    rw [Kfull, Matrix.det_reindex_self, hKb, det_fromBlocks_schur _ _ _ hAdet]
    exact mul_ne_zero hAdet.ne_zero hSdet.ne_zero
  have hKfullinv : (Kfull n x y s lx ly p)⁻¹ =
      Matrix.reindex finSumFinEquiv finSumFinEquiv
        (blockKinv (kuuMat n x y lx ly + s • 1) (kufMat n x y lx ly p)
          (kffMat n x y lx ly p + s • 1)) := by
    rw [Kfull, Matrix.inv_reindex, hKb, hKbinv]
  have hdetprod : ∀ f : ℝ, (f • (kuuMat n x y lx ly + s • 1)).det *
      (f • schurS (kuuMat n x y lx ly + s • 1) (kufMat n x y lx ly p)
        (kffMat n x y lx ly p + s • 1)).det =
      (f • Kfull n x y s lx ly p).det := by
    intro f
    rw [Matrix.det_smul, Matrix.det_smul, Matrix.det_smul, Fintype.card_fin,
      Fintype.card_fin, Kfull, Matrix.det_reindex_self, hKb,
      det_fromBlocks_schur _ _ _ hAdet, pow_add]
    ring
  refine ⟨?_, ?_, ?_, ?_⟩
  · -- grad_L evaluates to the claimed vector
    rw [grad_L, K_inv_and_det_p0, invBlock_of_some _ LA hLA, Option.some_bind]
    dsimp only
    have hKAeq : kffMat n x y lx ly p + s • 1 -
        ((kfuMat n x y lx ly p)ᵀ)ᵀ * ((LA⁻¹)ᵀ * LA⁻¹) *
          (kfuMat n x y lx ly p)ᵀ =
        schurS (kuuMat n x y lx ly + s • 1) (kufMat n x y lx ly p)
          (kffMat n x y lx ly p + s • 1) := by
      rw [hAinv, Matrix.transpose_transpose, schurS, kufMat,
        Matrix.transpose_transpose]
    rw [hKAeq, invBlock_of_some _ LK hLK, Option.some_bind]
    rw [hAinv, hSinv]
    have hfoldB : (kfuMat n x y lx ly p)ᵀ = kufMat n x y lx ly p := rfl
    rw [hfoldB]
    have hfoldT : (kuuMat n x y lx ly + s • 1)⁻¹ * kufMat n x y lx ly p *
        (schurS (kuuMat n x y lx ly + s • 1) (kufMat n x y lx ly p)
          (kffMat n x y lx ly p + s • 1))⁻¹ =
        blockT (kuuMat n x y lx ly + s • 1) (kufMat n x y lx ly p)
          (kffMat n x y lx ly p + s • 1) := rfl
    rw [hfoldT]
    have hfoldKinv : fromBlocks
        ((kuuMat n x y lx ly + s • 1)⁻¹ +
          blockT (kuuMat n x y lx ly + s • 1) (kufMat n x y lx ly p)
              (kffMat n x y lx ly p + s • 1) *
            (kufMat n x y lx ly p)ᵀ * (kuuMat n x y lx ly + s • 1)⁻¹)
        (-blockT (kuuMat n x y lx ly + s • 1) (kufMat n x y lx ly p)
          (kffMat n x y lx ly p + s • 1))
        (-(blockT (kuuMat n x y lx ly + s • 1) (kufMat n x y lx ly p)
          (kffMat n x y lx ly p + s • 1))ᵀ)
        (schurS (kuuMat n x y lx ly + s • 1) (kufMat n x y lx ly p)
          (kffMat n x y lx ly p + s • 1))⁻¹ =
        blockKinv (kuuMat n x y lx ly + s • 1) (kufMat n x y lx ly p)
          (kffMat n x y lx ly p + s • 1) := rfl
    rw [hfoldKinv, ← hKfullinv, hdetprod, Option.map_some']
  · -- exactness in l_x
    have h := hasDerivAt_detObjective (show n + n ≠ 1 from by omega)
      (fun l => Kfull n x y s l ly p) (K_l_x n x y lx ly p) (yCon n yu yf) lx
      (fun i j => hasDerivAt_Kfull_entry_lx n x y s ly p lx hlx i j) hKfs hKfdet
    convert h using 2
    push_cast
    ring
  · -- exactness in l_y
    have h := hasDerivAt_detObjective (show n + n ≠ 1 from by omega)
      (fun l => Kfull n x y s lx l p) (K_l_y n x y lx ly p) (yCon n yu yf) ly
      (fun i j => hasDerivAt_Kfull_entry_ly n x y s lx p ly hly i j) hKfs hKfdet
    convert h using 2
    push_cast
    ring
  · -- exactness in phi
    have h := hasDerivAt_detObjective (show n + n ≠ 1 from by omega)
      (fun q => Kfull n x y s lx ly q) (K_phi n x y lx ly p) (yCon n yu yf) p
      (fun i j => hasDerivAt_Kfull_entry_phi n x y s lx ly p i j) hKfs hKfdet
    convert h using 2
    push_cast
    ring

/-- Witness for C10 at `n = 1`, one sample at the origin, `s = 0`,
`l_x = l_y = phi = 1`: the length scales are nonzero, both Cholesky
factorizations succeed with explicit factors, and `grad_L` returns a
value. -/
theorem grad_L_exact_witness :
    ((1 : ℝ) ≠ 0 ∧
      cholesky (kuuMat 1 ![0] ![0] 1 1 + (0 : ℝ) • 1) = some !![1] ∧
      cholesky (schurS (kuuMat 1 ![0] ![0] 1 1 + (0 : ℝ) • 1)
        (kufMat 1 ![0] ![0] 1 1 1) (kffMat 1 ![0] ![0] 1 1 1 + (0 : ℝ) • 1)) =
          some !![Real.sqrt 3]) ∧
    ∃ g : Fin 3 → ℝ, grad_L 1 ![0] ![0] ![0] ![0] 0 1 1 1 = some g := by
  have hkuu : kuu_fn 0 0 0 0 1 1 = 1 := by
    rw [kuu_fn]
    norm_num
  have hkfu : kfu_fn 0 0 0 0 1 1 1 = 0 := by
    rw [kfu_fn_closed, hkuu]
    norm_num
  have hkff : kff_fn 0 0 0 0 1 1 1 = 3 := by
    rw [kff_fn_closed, hkuu]
    norm_num
  have hAmat : kuuMat 1 ![0] ![0] 1 1 + (0 : ℝ) • 1 = !![1] := by
    ext i j
    fin_cases i
    fin_cases j
    show kuu_fn (![(0 : ℝ)] 0) (![(0 : ℝ)] 0) (![(0 : ℝ)] 0) (![(0 : ℝ)] 0) 1 1 +
      ((0 : ℝ) • (1 : Matrix (Fin 1) (Fin 1) ℝ)) 0 0 = 1
    rw [show (![(0 : ℝ)] 0) = 0 from rfl, hkuu]
    simp
  have hkfuMat : kfuMat 1 ![0] ![0] 1 1 1 = !![0] := by
    ext i j
    fin_cases i
    fin_cases j
    show kfu_fn (![(0 : ℝ)] 0) (![(0 : ℝ)] 0) (![(0 : ℝ)] 0) (![(0 : ℝ)] 0)
      1 1 1 = 0
    rw [show (![(0 : ℝ)] 0) = 0 from rfl, hkfu]
  have hBmat : kufMat 1 ![0] ![0] 1 1 1 = !![0] := by
    rw [kufMat, hkfuMat]
    ext i j
    fin_cases i
    fin_cases j
    rfl
  have hCmat : kffMat 1 ![0] ![0] 1 1 1 + (0 : ℝ) • 1 = !![3] := by
    ext i j
    fin_cases i
    fin_cases j
    show kff_fn (![(0 : ℝ)] 0) (![(0 : ℝ)] 0) (![(0 : ℝ)] 0) (![(0 : ℝ)] 0)
        1 1 1 +
      ((0 : ℝ) • (1 : Matrix (Fin 1) (Fin 1) ℝ)) 0 0 = 3
    rw [show (![(0 : ℝ)] 0) = 0 from rfl, hkff]
    simp
  have hSmat : schurS !![(1 : ℝ)] !![0] !![3] = !![3] := by
    ext i j
    fin_cases i
    fin_cases j
    simp [schurS, Matrix.mul_apply, Fin.sum_univ_succ]
  have hA : cholesky (kuuMat 1 ![0] ![0] 1 1 + (0 : ℝ) • 1) = some !![1] := by
    rw [hAmat, cholesky_fin_one, if_pos (by norm_num : (0 : ℝ) < 1),
      Real.sqrt_one]
  have hK : cholesky (schurS (kuuMat 1 ![0] ![0] 1 1 + (0 : ℝ) • 1)
      (kufMat 1 ![0] ![0] 1 1 1) (kffMat 1 ![0] ![0] 1 1 1 + (0 : ℝ) • 1)) =
      some !![Real.sqrt 3] := by
    rw [hAmat, hBmat, hCmat, hSmat, cholesky_fin_one,
      if_pos (by norm_num : (0 : ℝ) < 3)]
  exact ⟨⟨by norm_num, hA, hK⟩,
    ⟨_, (grad_L_exact 1 ![0] ![0] ![0] ![0] 0 1 1 1 !![1] !![Real.sqrt 3]
      (by norm_num) (by norm_num) hA hK).1⟩⟩

end

end MlHiPhy
